import Mathlib

/-!
# gokoban: the level engine of `gokoban/gokoban.go`

A shallow embedding of the box-pushing engine (field model, level loading and
validation, move legality, move, undo, completion, reset), followed by the
properties proved about it.

Conventions of the embedding.

* Go `int` values (coordinates, width, height, `pos`) are `Int`.  No operation
  of the engine multiplies or adds beyond `row*width+col`, so wrap-around is
  not modelled.
* The nested map `map[int]map[int]*field` is a list of entries
  `((col, row), field)`.  A lookup `l.fields[c][r]` is `Level.lookup l c r`;
  it answers `none` where Go answers the nil pointer.  Every cell gets its own
  `*field` at load time, so two entries never alias.
* A run-time panic (dereferencing a nil `*field`) is the result `none` of an
  `Option`-valued operation.
* Text is a list of bytes (`Nat` values below 256), as Go strings are.
-/

namespace Gokoban

/-! ## Courses -/

/-- The four named constants of the Go type `Course` (an `int`): the courses
of the data model.  The `default` branches of the Go switches over a course,
which only other integers reach, have no counterpart here. -/
inductive Course where
  | Up
  | Right
  | Down
  | Left
  deriving DecidableEq, Repr

/-- Go `getRelativeMovement`: the (column, row) offset of a course. -/
def getRelativeMovement : Course → Int × Int
  | .Up => (0, -1)
  | .Right => (1, 0)
  | .Down => (0, 1)
  | .Left => (-1, 0)

/-- The column offset of a course. -/
abbrev Course.dc (c : Course) : Int := (getRelativeMovement c).1

/-- The row offset of a course. -/
abbrev Course.dr (c : Course) : Int := (getRelativeMovement c).2

/-- Go `Course.String`. -/
def Course.String : Course → List Nat
  | .Up => [117]
  | .Right => [114]
  | .Down => [100]
  | .Left => [108]

/-- Go `parseCourse`: `u`, `r`, `d`, `l` are courses, every other byte is an error. -/
def parseCourse (b : Nat) : Option Course :=
  if b = 117 then some .Up
  else if b = 114 then some .Right
  else if b = 100 then some .Down
  else if b = 108 then some .Left
  else none

/-! ## Fields -/

/-- Go `fieldKind`. -/
inductive fieldKind where
  | brick
  | free
  | box
  | target
  | boxOnTarget
  | playerOnTarget
  | player
  deriving DecidableEq, Repr

/-- Go `fieldKind.isTarget`. -/
def fieldKind.isTarget (k : fieldKind) : Bool :=
  k = .target || k = .boxOnTarget || k = .playerOnTarget

/-- Go `field`: the kind set at load time, the current occupant and the
row-major position. -/
structure field where
  kind : fieldKind
  curr : fieldKind
  pos : Int
  deriving DecidableEq, Repr

/-- The switch of Go `field.reset`: the occupant a kind starts with. -/
def resetCurr : fieldKind → fieldKind
  | .target => .target
  | .box => .box
  | .boxOnTarget => .box
  | .playerOnTarget => .player
  | .player => .player
  | .brick => .brick
  | .free => .free

/-- Go `field.reset`. -/
def field.reset (f : field) : field :=
  { f with curr := resetCurr f.kind }

/-- The switch of Go `newField` on the one-byte symbol. -/
def kindOfSymbol (b : Nat) : fieldKind :=
  if b = 46 then .target
  else if b = 36 then .box
  else if b = 42 then .boxOnTarget
  else if b = 43 then .playerOnTarget
  else if b = 64 then .player
  else if b = 35 then .brick
  else .free

/-- Go `newField`. -/
def newField (b : Nat) (pos : Int) : field :=
  field.reset { kind := kindOfSymbol b, curr := .brick, pos := pos }

/-! ## Levels -/

/-- Go `move`: one record of the history. -/
structure move where
  course : Course
  movedBox : Bool
  deriving DecidableEq, Repr

/-- One entry of the map of fields: the key `(col, row)` and the field. -/
abbrev Entry := (Int × Int) × field

/-- Go `Level`. -/
structure Level where
  width : Int
  height : Int
  fields : List Entry
  pc : Int
  pr : Int
  moves : List move
  Solution : List Course
  deriving DecidableEq, Repr

/-- The lookup `fields[c][r]` in a list of entries. -/
def lookupField : List Entry → Int → Int → Option field
  | [], _, _ => none
  | e :: es, c, r => if e.1 = (c, r) then some e.2 else lookupField es c r

/-- The assignment `fields[c][r].curr = k` on a list of entries. -/
def setCurr (fs : List Entry) (c r : Int) (k : fieldKind) : List Entry :=
  fs.map (fun e => if e.1 = (c, r) then (e.1, { e.2 with curr := k }) else e)

/-- The lookup `l.fields[c][r]`. -/
def Level.lookup (l : Level) (c r : Int) : Option field :=
  lookupField l.fields c r

/-- Go `Level.pos`. -/
def Level.pos (l : Level) (col row : Int) : Int :=
  row * l.width + col

/-- Go `Level.isValidMove`.  The field behind a box is dereferenced without a
check, so a missing cell there is a panic (`none`). -/
def Level.isValidMove (l : Level) (course : Course) : Option Bool :=
  let rc := (getRelativeMovement course).1
  let rr := (getRelativeMovement course).2
  let tc := l.pc + rc
  let tr := l.pr + rr
  match l.lookup tc tr with
  | none => some false
  | some dest =>
    if dest.kind = .brick then some false
    else if dest.curr = .box then
      match l.lookup (tc + rc) (tr + rr) with
      | none => none
      | some behindTarget =>
        if behindTarget.curr = .box ∨ behindTarget.kind = .brick then some false
        else some true
    else some true

/-- Go `Level.CanMoveUp`. -/
def Level.CanMoveUp (l : Level) : Option Bool := l.isValidMove .Up

/-- Go `Level.CanMoveRight`. -/
def Level.CanMoveRight (l : Level) : Option Bool := l.isValidMove .Right

/-- Go `Level.CanMoveDown`. -/
def Level.CanMoveDown (l : Level) : Option Bool := l.isValidMove .Down

/-- Go `Level.CanMoveLeft`. -/
def Level.CanMoveLeft (l : Level) : Option Bool := l.isValidMove .Left

/-- Go `Level.CanMove`. -/
def Level.CanMove (l : Level) : Course → Option Bool
  | .Up => l.CanMoveUp
  | .Right => l.CanMoveRight
  | .Down => l.CanMoveDown
  | .Left => l.CanMoveLeft

/-- The occupant an emptied cell gets: `target` on a target kind, else `free`. -/
def emptied (k : fieldKind) : fieldKind :=
  if k.isTarget then .target else .free

/-- Go `Level.move` (the unexported worker).  It performs no legality check.
Each dereference of a missing field is a panic (`none`). -/
def Level.move (l : Level) (course : Course) : Option Level :=
  let rc := (getRelativeMovement course).1
  let rr := (getRelativeMovement course).2
  let tc := l.pc + rc
  let tr := l.pr + rr
  match l.lookup tc tr with
  | none => none
  | some dest =>
    let movedBox : Bool := dest.curr = .box
    let pushed : Option (List Entry) :=
      if movedBox then
        match l.lookup (tc + rc) (tr + rr) with
        | none => none
        | some _ => some (setCurr l.fields (tc + rc) (tr + rr) .box)
      else some l.fields
    match pushed with
    | none => none
    | some fs1 =>
      let fs2 := setCurr fs1 tc tr .player
      match lookupField fs2 l.pc l.pr with
      | none => none
      | some src =>
        let fs3 := setCurr fs2 l.pc l.pr (emptied src.kind)
        some { l with
          fields := fs3
          pc := l.pc + rc
          pr := l.pr + rr
          moves := l.moves ++ [{ course := course, movedBox := movedBox }] }

/-- Go `Level.MoveUp`. -/
def Level.MoveUp (l : Level) : Option Level := l.move .Up

/-- Go `Level.MoveRight`. -/
def Level.MoveRight (l : Level) : Option Level := l.move .Right

/-- Go `Level.MoveDown`. -/
def Level.MoveDown (l : Level) : Option Level := l.move .Down

/-- Go `Level.MoveLeft`. -/
def Level.MoveLeft (l : Level) : Option Level := l.move .Left

/-- Go `Level.Move`. -/
def Level.Move (l : Level) : Course → Option Level
  | .Up => l.MoveUp
  | .Right => l.MoveRight
  | .Down => l.MoveDown
  | .Left => l.MoveLeft

/-- The switch of Go `UndoLastMove` choosing the opposite course. -/
def opposite : Course → Course
  | .Up => .Down
  | .Right => .Left
  | .Down => .Up
  | .Left => .Right

/-- Go `Level.UndoLastMove`.  `behindFrom.curr` is read first, then `from` is
written, then the cell the player steps back to: each is a panic (`none`)
when the cell is missing. -/
def Level.UndoLastMove (l : Level) : Option Level :=
  match l.moves.getLast? with
  | none => some l
  | some m =>
    let rc := (getRelativeMovement m.course).1
    let rr := (getRelativeMovement m.course).2
    match l.lookup (l.pc + rc) (l.pr + rr) with
    | none => none
    | some behindFrom =>
      match l.lookup l.pc l.pr with
      | none => none
      | some src =>
        let fs1 : List Entry :=
          if behindFrom.curr = .box ∧ m.movedBox = true then
            setCurr (setCurr l.fields l.pc l.pr .box) (l.pc + rc) (l.pr + rr)
              (emptied behindFrom.kind)
          else setCurr l.fields l.pc l.pr (emptied src.kind)
        let bc := (getRelativeMovement (opposite m.course)).1
        let br := (getRelativeMovement (opposite m.course)).2
        match lookupField fs1 (l.pc + bc) (l.pr + br) with
        | none => none
        | some _ =>
          some { l with
            fields := setCurr fs1 (l.pc + bc) (l.pr + br) .player
            pc := l.pc + bc
            pr := l.pr + br
            moves := l.moves.dropLast }

/-- The loop of Go `Level.Completed` over the fields: the first target-kind
field not holding a box answers `false`. -/
def completedLoop : List Entry → Bool
  | [] => true
  | e :: es =>
    if e.2.curr ≠ .box ∧ e.2.kind.isTarget = true then false else completedLoop es

/-- Go `Level.Completed`.  It reads the fields and assigns nothing. -/
def Level.Completed (l : Level) : Bool := completedLoop l.fields

/-- Go `Level.MoveCount`. -/
def Level.MoveCount (l : Level) : Nat := l.moves.length

/-- Go `Level.PlayerPosition`. -/
def Level.PlayerPosition (l : Level) : Int × Int := (l.pc, l.pr)

/-- The player position a loop over the fields ends with, in `NewLevel` and in
`Level.Reset`: every field of kind `player` or `playerOnTarget` met on the way
overwrites it. -/
def playerScan : List Entry → Int × Int → Int × Int
  | [], p => p
  | e :: es, p =>
    if e.2.kind = .player ∨ e.2.kind = .playerOnTarget then playerScan es e.1
    else playerScan es p

/-- Go `Level.Reset`. -/
def Level.Reset (l : Level) : Level :=
  { l with
    fields := l.fields.map (fun e => (e.1, e.2.reset))
    pc := (playerScan l.fields (l.pc, l.pr)).1
    pr := (playerScan l.fields (l.pc, l.pr)).2
    moves := [] }

/-! ## Loading and validation -/

/-- Go `strings.Split(s, "\n")` on bytes. -/
def splitLines : List Nat → List (List Nat)
  | [] => [[]]
  | b :: bs =>
    if b = 10 then [] :: splitLines bs
    else
      match splitLines bs with
      | [] => [[b]]
      | x :: xs => (b :: x) :: xs

/-- The test `len(strings.TrimSpace(line)) == 0`: the line decodes (UTF-8) to
white space only.  White space is what Go `unicode.IsSpace` accepts: the
bytes 9 to 13 and 32, U+0085, U+00A0, U+1680, U+2000 to U+200A, U+2028,
U+2029, U+202F, U+205F and U+3000. -/
def blankLine : List Nat → Bool
  | [] => true
  | b0 :: rest =>
    if (9 ≤ b0 ∧ b0 ≤ 13) ∨ b0 = 32 then blankLine rest
    else
      match rest with
      | [] => false
      | b1 :: rest1 =>
        if b0 = 194 ∧ (b1 = 133 ∨ b1 = 160) then blankLine rest1
        else
          match rest1 with
          | [] => false
          | b2 :: rest2 =>
            if (b0 = 225 ∧ b1 = 154 ∧ b2 = 128)
                ∨ (b0 = 226 ∧ b1 = 128 ∧
                    ((128 ≤ b2 ∧ b2 ≤ 138) ∨ b2 = 168 ∨ b2 = 169 ∨ b2 = 175))
                ∨ (b0 = 226 ∧ b1 = 129 ∧ b2 = 159)
                ∨ (b0 = 227 ∧ b1 = 128 ∧ b2 = 128) then blankLine rest2
            else false

/-- The first loop of Go `NewLevel`, which runs from the last line to the
first: blank lines are removed and `maxWidth` is the greatest length of a line
that is kept.  The result is the lines kept and `maxWidth`. -/
def trimLines : List (List Nat) → List (List Nat) × Nat
  | [] => ([], 0)
  | line :: rest =>
    let done := trimLines rest
    if blankLine line then done
    else (line :: done.1, if done.2 < line.length then line.length else done.2)

/-- The inner loop of Go `NewLevel` for row `r`: one field for each column
below `width`, a free one where the line is too short. -/
def rowFields (width : Nat) (r : Nat) (line : List Nat) : List Entry :=
  (List.range width).map
    (fun (c : Nat) =>
      (((c : Int), (r : Int)), newField (line.getD c 32) ((r : Int) * (width : Int) + (c : Int))))

/-- The outer loop of Go `NewLevel`, from row `r` on. -/
def buildRows (width : Nat) : Nat → List (List Nat) → List Entry
  | _, [] => []
  | r, line :: rest => rowFields width r line ++ buildRows width (r + 1) rest

/-- The level Go `NewLevel` has built when it calls `isValid`. -/
def mkLevel (lines : List (List Nat)) (maxWidth : Nat) : Level :=
  { width := (maxWidth : Int)
    height := (lines.length : Int)
    fields := buildRows maxWidth 0 lines
    pc := (playerScan (buildRows maxWidth 0 lines) (0, 0)).1
    pr := (playerScan (buildRows maxWidth 0 lines) (0, 0)).2
    moves := []
    Solution := [] }

/-- The counters of Go `Level.isValid` after the loop over the fields. -/
structure Counts where
  targetCnt : Nat
  boxCnt : Nat
  playerCnt : Nat
  deriving DecidableEq, Repr

/-- The switch of Go `Level.isValid` on the kind of one field. -/
def countField (k : fieldKind) (n : Counts) : Counts :=
  match k with
  | .target => { n with targetCnt := n.targetCnt + 1 }
  | .box => { n with boxCnt := n.boxCnt + 1 }
  | .playerOnTarget => { n with targetCnt := n.targetCnt + 1, playerCnt := n.playerCnt + 1 }
  | .player => { n with playerCnt := n.playerCnt + 1 }
  | _ => n

/-- The counting loop of Go `Level.isValid`. -/
def countKinds : List Entry → Counts → Counts
  | [], n => n
  | e :: es, n => countKinds es (countField e.2.kind n)

/-- One inner loop of Go `Level.isValid` running upwards in the index, over
the `n` cells `g i`, `g (i+1)`, ...: missing and free cells are skipped, a
brick ends the loop, anything else fails the validation. -/
def scanUp (g : Int → Option field) (i : Int) : Nat → Bool
  | 0 => true
  | n + 1 =>
    match g i with
    | none => scanUp g (i + 1) n
    | some f =>
      if f.kind = .free then scanUp g (i + 1) n
      else if f.kind = .brick then true
      else false

/-- One inner loop of Go `Level.isValid` running downwards in the index, over
the cells `g (n-1)`, ..., `g 0`. -/
def scanDown (g : Int → Option field) : Nat → Bool
  | 0 => true
  | n + 1 =>
    match g (n : Int) with
    | none => scanDown g n
    | some f =>
      if f.kind = .free then scanDown g n
      else if f.kind = .brick then true
      else false

/-- Go `Level.isValid`. -/
def Level.isValid (l : Level) : Bool :=
  let n := countKinds l.fields { targetCnt := 0, boxCnt := 0, playerCnt := 0 }
  if n.boxCnt = 0 ∨ n.boxCnt ≠ n.targetCnt ∨ n.playerCnt ≠ 1 then false
  else
    (List.range l.width.toNat).all
        (fun c =>
          scanUp (fun r => l.lookup (c : Int) r) 0 l.height.toNat
            && scanDown (fun r => l.lookup (c : Int) r) l.height.toNat)
      && (List.range l.height.toNat).all
        (fun r =>
          scanUp (fun c => l.lookup c (r : Int)) 0 l.width.toNat
            && scanDown (fun c => l.lookup c (r : Int)) l.width.toNat)

/-- The last loop of Go `NewLevel`: line breaks are skipped, every other byte
must be a course. -/
def parseSolution : List Nat → Option (List Course)
  | [] => some []
  | b :: bs =>
    if b = 13 ∨ b = 10 then parseSolution bs
    else
      match parseCourse b with
      | none => none
      | some c =>
        match parseSolution bs with
        | none => none
        | some cs => some (c :: cs)

/-- The two ways Go `NewLevel` panics on the content of its files. -/
inductive LoadError where
  | invalidLevel
  | invalidSolution
  deriving DecidableEq, Repr

/-- Go `NewLevel`, on the content of the map file and of the solution file. -/
def NewLevel (mapText solutionText : List Nat) : Except LoadError Level :=
  let trimmed := trimLines (splitLines mapText)
  let level := mkLevel trimmed.1 trimmed.2
  if level.isValid = false then .error .invalidLevel
  else
    match parseSolution solutionText with
    | none => .error .invalidSolution
    | some cs => .ok { level with Solution := cs }

/-- The bytes of a text (UTF-8). -/
def bytes (s : String) : List Nat :=
  (s.toList.flatMap String.utf8EncodeChar).map UInt8.toNat

/-! ## Sequences of calls -/

/-- A sequence of legal moves: each course is issued only when `CanMove`
answers true; `none` when a call panics or a course is not legal. -/
def Level.legalMoves (l : Level) : List Course → Option Level
  | [] => some l
  | c :: cs =>
    match l.CanMove c with
    | some true =>
      match l.Move c with
      | none => none
      | some l1 => Level.legalMoves l1 cs
    | _ => none

/-- A call of the public interface that changes a level. -/
inductive Call where
  | Move (c : Course)
  | UndoLastMove
  | Reset
  deriving DecidableEq, Repr

/-- One call, with no legality check; `none` when the call panics. -/
def Level.call (l : Level) : Call → Option Level
  | .Move c => l.Move c
  | .UndoLastMove => l.UndoLastMove
  | .Reset => some l.Reset

/-- A sequence of calls, `none` when one of them panics. -/
def Level.calls (l : Level) : List Call → Option Level
  | [] => some l
  | k :: ks =>
    match l.call k with
    | none => none
    | some l1 => Level.calls l1 ks

/-! ## Example levels -/

/-- The level of the example: a player, a box and a target in a row. -/
def rowMap : List Nat := bytes "#####\n#@$.#\n#####\n"

/-- A valid level whose bottom wall has a gap in column 2. -/
def gapMap : List Nat := bytes "#####\n#@ $.#\n## ###\n"

/-- A valid level in which the box can be pushed into the gap of the bottom wall. -/
def pushMap : List Nat := bytes "######\n#   .#\n#@$  #\n### ##\n"

/-- The levels `NewLevel` returns for the example maps, with the solution `r`. -/
def rowLevel : Level := (NewLevel rowMap (bytes "r")).toOption.getD (mkLevel [] 0)

/-- The level of `gapMap`. -/
def gapLevel : Level := (NewLevel gapMap (bytes "r")).toOption.getD (mkLevel [] 0)

/-- The level of `pushMap`. -/
def pushLevel : Level := (NewLevel pushMap (bytes "r")).toOption.getD (mkLevel [] 0)

/-! ## The caller of `Move` -/

/-- The four arrow key handlers of `console/game.go` (`arrowUpHandler`, ...),
as far as the level goes: during a replay and on a completed level they leave
the level alone; otherwise, with a view, they ask `CanMove` and only on a true
answer dispatch the command whose handler (`movePlayer`) calls `Move`. -/
def arrowHandler (l : Level) (replaying hasView : Bool) (c : Course) : Option Level :=
  if replaying then some l
  else if l.Completed then some l
  else if hasView then
    match l.CanMove c with
    | none => none
    | some true => l.Move c
    | some false => some l
  else some l

/-! ## Cells around the player -/

/-- The cell the player stands on, `l.fields[l.pc][l.pr]`. -/
abbrev Level.playerCell (l : Level) : Option field :=
  l.lookup l.pc l.pr

/-- The cell one step from the player in direction `c`, `l.fields[tc][tr]`. -/
abbrev Level.ahead (l : Level) (c : Course) : Option field :=
  l.lookup (l.pc + c.dc) (l.pr + c.dr)

/-- The cell two steps from the player in direction `c`, `l.fields[tc+rc][tr+rr]`. -/
abbrev Level.beyond (l : Level) (c : Course) : Option field :=
  l.lookup (l.pc + c.dc + c.dc) (l.pr + c.dr + c.dr)

/-! ## The load invariants -/

/-- Is the kind one of the two player kinds? -/
def isPlayerKind (k : fieldKind) : Bool := k = .player || k = .playerOnTarget

/-- The enclosure invariant of the specification: in every column scanned
from the top and from the bottom, and in every row scanned from the left and
from the right, the first field that is not free is a brick. -/
def Level.Enclosed (l : Level) : Prop :=
  ∀ c r f, 0 ≤ c → c < l.width → 0 ≤ r → r < l.height → l.lookup c r = some f →
    f.kind ≠ .free →
      ((∀ r1 f1, 0 ≤ r1 → r1 < r → l.lookup c r1 = some f1 → f1.kind = .free) →
        f.kind = .brick)
      ∧ ((∀ r1 f1, r < r1 → r1 < l.height → l.lookup c r1 = some f1 → f1.kind = .free) →
        f.kind = .brick)
      ∧ ((∀ c1 f1, 0 ≤ c1 → c1 < c → l.lookup c1 r = some f1 → f1.kind = .free) →
        f.kind = .brick)
      ∧ ((∀ c1 f1, c < c1 → c1 < l.width → l.lookup c1 r = some f1 → f1.kind = .free) →
        f.kind = .brick)

/-! ## What no call changes -/

/-- The part of the fields no call assigns to: keys, kinds and positions. -/
def shape (fs : List Entry) : List ((Int × Int) × fieldKind × Int) :=
  fs.map (fun e => (e.1, e.2.kind, e.2.pos))

/-- The reading of the enclosure guarantee for the player: in each of the
four directions from the player's cell there is a cell of kind brick inside
the grid. -/
def Level.WalledIn (l : Level) : Prop :=
  (∃ r f, 0 ≤ r ∧ r < l.pr ∧ l.lookup l.pc r = some f ∧ f.kind = .brick)
  ∧ (∃ r f, l.pr < r ∧ r < l.height ∧ l.lookup l.pc r = some f ∧ f.kind = .brick)
  ∧ (∃ c f, 0 ≤ c ∧ c < l.pc ∧ l.lookup c l.pr = some f ∧ f.kind = .brick)
  ∧ (∃ c f, l.pc < c ∧ c < l.width ∧ l.lookup c l.pr = some f ∧ f.kind = .brick)

/-- The level of `gapMap` after the legal moves right and down: the player
stands in the gap of the bottom wall. -/
def gapBorder : Level := (gapLevel.legalMoves [.Right, .Down]).getD gapLevel

/-- The level of `pushMap` after the legal moves right, up, right and down:
the box stands in the gap of the bottom wall, the player above it. -/
def pushBorder : Level := (pushLevel.legalMoves [.Right, .Up, .Right, .Down]).getD pushLevel

/-! ## Consistent states -/

/-- Every entry is the one its key looks up: no key occurs twice. -/
def Keyed (fs : List Entry) : Prop :=
  ∀ e ∈ fs, lookupField fs e.1.1 e.1.2 = some e.2

/-- The consistency of the occupants with the kinds and with the player
position: every entry is the one its key looks up; the player stands on a
cell that holds the player and is not a brick by kind; no other cell holds
the player; a brick by kind holds a brick, and any other cell holds a box,
the player, or the occupant of its emptied kind. -/
structure Level.Consistent (l : Level) : Prop where
  keyed : Keyed l.fields
  player : ∃ f, l.playerCell = some f ∧ f.curr = .player ∧ f.kind ≠ .brick
  onlyPlayer : ∀ c r f, l.lookup c r = some f → f.curr = .player → (c, r) = (l.pc, l.pr)
  canonical : ∀ c r f, l.lookup c r = some f →
    (f.kind = .brick ∧ f.curr = .brick)
      ∨ (f.kind ≠ .brick ∧ (f.curr = emptied f.kind ∨ f.curr = .box ∨ f.curr = .player))

/-- A sequence of calls in legal play: `Move` is issued only when `CanMove`
answers true, `UndoLastMove` and `Reset` at any time; `none` when a call
panics or a move is not legal. -/
def Level.play (l : Level) : List Call → Option Level
  | [] => some l
  | .Move c :: ks =>
    match l.CanMove c with
    | some true =>
      match l.Move c with
      | none => none
      | some l1 => Level.play l1 ks
    | _ => none
  | .UndoLastMove :: ks =>
    match l.UndoLastMove with
    | none => none
    | some l1 => Level.play l1 ks
  | .Reset :: ks => Level.play l.Reset ks

/-- The history, read backwards from the position `p`, leads over cells of the
grid that are not bricks by kind: the cells the player came from. -/
def histOk (fs : List Entry) : Int × Int → List move → Prop
  | _, [] => True
  | p, m :: ms =>
    (∃ f, lookupField fs (p.1 + (opposite m.course).dc) (p.2 + (opposite m.course).dr) = some f
        ∧ f.kind ≠ .brick)
      ∧ histOk fs (p.1 + (opposite m.course).dc, p.2 + (opposite m.course).dr) ms

/-! ## The frame of a level -/

/-- The second level has the frame of the first: the same fields with the
same keys, kinds and positions, the same width and height and the same
solution.  Only occupants, player position and history may differ. -/
def Level.SameFrame (l l1 : Level) : Prop :=
  shape l1.fields = shape l.fields ∧ l1.width = l.width ∧ l1.height = l.height
    ∧ l1.Solution = l.Solution

/-- A level in which a box stands on the target with a free cell behind it. -/
def farMap : List Nat := bytes "######\n#@$. #\n######\n"

/-- The level of `farMap`. -/
def farLevel : Level := (NewLevel farMap (bytes "r")).toOption.getD (mkLevel [] 0)

/-- The level of `farMap` after the legal move right: it is completed. -/
def farDone : Level := (farLevel.legalMoves [.Right]).getD farLevel

/-! ## The moves as text -/

/-- Go `Level.Moves`: the loop `s += m.course.String()` over the history. -/
def Level.Moves (l : Level) : List Nat :=
  l.moves.foldl (fun s m => s ++ m.course.String) []

/-- Go `Level.PrintSolution`, as the content it writes to the file: nothing
(`none`) unless the level is completed, the moves otherwise. -/
def Level.PrintSolution (l : Level) : Option (List Nat) :=
  if l.Completed = false then none else some l.Moves

/-- The level `NewLevel` has built from the map text when it validates it. -/
def builtLevel (mapText : List Nat) : Level :=
  mkLevel (trimLines (splitLines mapText)).1 (trimLines (splitLines mapText)).2

/-! ## Indentation -/

/-- Go `strings.Join(ss, "\n")` on bytes. -/
def joinLines : List (List Nat) → List Nat
  | [] => []
  | [x] => x
  | x :: y :: rest => x ++ 10 :: joinLines (y :: rest)

/-- Go `Indent`: the loop builds `ind` of `indent` spaces (none when `indent`
is not positive), every line of `s` gets `ind` in front, and the lines are
joined again. -/
def Indent (s : List Nat) (indent : Int) : List Nat :=
  joinLines ((splitLines s).map (fun line => List.replicate indent.toNat 32 ++ line))

/-! ## The lines of the map -/

/-- The lines of the map text that are not white space only. -/
def keptLines (mapText : List Nat) : List (List Nat) :=
  (splitLines mapText).filter (fun line => !blankLine line)

/-- The greatest length of a line, `0` when there is no line. -/
def maxLength (lines : List (List Nat)) : Nat :=
  (lines.map List.length).foldr max 0

/-- A map whose only box stands on its target. -/
def starMap : List Nat := bytes "####\n#@*#\n####\n"

/-- The scans of Go `Level.isValid` all succeed. -/
def Level.scansOk (l : Level) : Prop :=
  (∀ c : Nat, c < l.width.toNat →
      scanUp (fun r => l.lookup (c : Int) r) 0 l.height.toNat = true
      ∧ scanDown (fun r => l.lookup (c : Int) r) l.height.toNat = true)
  ∧ (∀ r : Nat, r < l.height.toNat →
      scanUp (fun c => l.lookup c (r : Int)) 0 l.width.toNat = true
      ∧ scanDown (fun c => l.lookup c (r : Int)) l.width.toNat = true)

instance (l : Level) : Decidable l.scansOk := by
  unfold Level.scansOk
  infer_instance

/-! ## Rendering -/

/-- Go `field.currSymbol`. -/
def field.currSymbol (f : field) : List Nat :=
  match f.curr with
  | .target => [46]
  | .boxOnTarget => [36]
  | .box => [36]
  | .playerOnTarget => [64]
  | .player => [64]
  | .brick => [35]
  | .free => [32]

/-- Go `field.col`: `pos % width` with the remainder of Go, which takes the
sign of `pos`; a zero width is a division by zero, a panic (`none`). -/
def field.col (f : field) (width : Int) : Option Int :=
  if width = 0 then none else some (f.pos.tmod width)

/-- Go `field.row`: `pos / width`, the quotient truncated towards zero. -/
def field.row (f : field) (width : Int) : Option Int :=
  if width = 0 then none else some (f.pos.tdiv width)

/-- The order the sort of Go `Level.String` establishes: no field stands
before one of a smaller position. -/
def field.notAfter (a b : field) : Prop := a.pos ≤ b.pos

instance : DecidableRel field.notAfter := fun a b => inferInstanceAs (Decidable (a.pos ≤ b.pos))

/-- The sort of the fields by position in Go `Level.String`.  The fields come
out of the map in no fixed order, and `sort.Slice` is not stable: where two
fields have the same position Go fixes no order, and the model takes the one
of an insertion sort. -/
def sortFields (ff : List field) : List field :=
  ff.insertionSort field.notAfter

/-- The loop of Go `Level.String` over the sorted fields; `later` says that
the index `i` is positive.  A line break goes in front of a later field in
column zero. -/
def renderLoop (width : Int) : Bool → List field → Option (List Nat)
  | _, [] => some []
  | later, f :: ff =>
    let br : Option (List Nat) :=
      if later = true then
        match f.col width with
        | none => none
        | some c => if c = 0 then some [10] else some []
      else some []
    match br, renderLoop width true ff with
    | some b, some rest => some (b ++ f.currSymbol ++ rest)
    | _, _ => none

/-- The part of Go `Level.String` before the footer. -/
def Level.gridString (l : Level) : Option (List Nat) :=
  renderLoop l.width false (sortFields (l.fields.map Prod.snd))

/-- The verb `%d` of Go `fmt` on a number that is not negative: its decimal digits. -/
def decimal (n : Nat) : List Nat :=
  (Nat.toDigits 10 n).map Char.toNat

/-- The line `currMoves` of Go `Level.String`. -/
def Level.currMoves (l : Level) : List Nat :=
  bytes "curr: " ++ decimal l.moves.length ++ bytes " moves"

/-- The line `bestMoves` of Go `Level.String`. -/
def Level.bestMoves (l : Level) : List Nat :=
  bytes "best: " ++ decimal l.Solution.length ++ bytes " moves"

/-- The value `ident` of Go `Level.String`; the division of Go truncates
towards zero. -/
def Level.ident (l : Level) : Int :=
  (l.width - (l.bestMoves.length : Int)).tdiv 2

/-- Go `Level.String`. -/
def Level.String (l : Level) : Option (List Nat) :=
  match l.gridString with
  | none => none
  | some s =>
    some (s ++ [10, 10] ++ Indent l.currMoves l.ident ++ [10]
      ++ Indent l.bestMoves l.ident ++ [10])

/-- A level 21 fields wide whose solution has 10 moves. -/
def wideMap : List Nat := bytes "#####################\n#@$         .       #\n#####################\n"

/-- The level of `wideMap`, with its solution. -/
def wideLevel : Level :=
  (NewLevel wideMap (bytes "rrrrrrrrrr")).toOption.getD (mkLevel [] 0)

/-- A full grid: no key occurs twice, there is a field at `(c, r)` exactly
for `0 ≤ c < width` and `0 ≤ r < height`, and it has the position
`r * width + c` that `Level.pos` gives it. -/
structure Level.FullGrid (l : Level) : Prop where
  nodup : (l.fields.map Prod.fst).Nodup
  cells : ∀ c r : Int,
    (l.lookup c r).isSome = true ↔ (0 ≤ c ∧ c < l.width ∧ 0 ≤ r ∧ r < l.height)
  positions : ∀ c r f, l.lookup c r = some f → f.pos = l.pos c r

/-- The symbol of the occupant of the cell `(c, r)`. -/
def Level.symbolAt (l : Level) (c r : Int) : List Nat :=
  match l.lookup c r with
  | none => []
  | some f => f.currSymbol

/-- Line `r` of the grid as it should be rendered: the symbols of the cells
`(0, r)`, ..., `(width - 1, r)`. -/
def Level.gridRow (l : Level) (r : Nat) : List Nat :=
  (List.range l.width.toNat).flatMap (fun c => l.symbolAt (c : Int) (r : Int))

/-- The lines of the grid as they should be rendered, from row `0` on. -/
def Level.gridRows (l : Level) : List (List Nat) :=
  (List.range l.height.toNat).map l.gridRow

/-- The field with index `i` in row-major order (a free field where there is none). -/
def Level.cellAt (l : Level) (i : Nat) : field :=
  (l.lookup ((i % l.width.toNat : Nat) : Int) ((i / l.width.toNat : Nat) : Int)).getD
    { kind := .free, curr := .free, pos := 0 }

/-! ## A legal play -/

/-- A legal play on the example level: the push to the right, its undo, the
push again, a reset, and the push once more. -/
def rowPlay : List Call :=
  [.Move .Right, .UndoLastMove, .Move .Right, .Reset, .Move .Right]

/-! ## A level with occupied targets -/

/-- A valid level with a player on a target and a box on a target: next to
the player a box, then a free cell. -/
def plusMap : List Nat := bytes "######\n#+$ *#\n######\n"

/-- The level of `plusMap`. -/
def plusLevel : Level := (NewLevel plusMap (bytes "r")).toOption.getD (mkLevel [] 0)

/-! ## Lookups and assignments -/

theorem lookupField_setCurr (fs : List Entry) (c r : Int) (k : fieldKind) (c1 r1 : Int) :
    lookupField (setCurr fs c r k) c1 r1
      = if (c1, r1) = (c, r) then (lookupField fs c r).map (fun f => { f with curr := k })
        else lookupField fs c1 r1 := by
  induction fs with
  | nil => simp [setCurr, lookupField]
  | cons e es ih =>
    simp only [setCurr, List.map_cons] at ih ⊢
    by_cases he : e.1 = (c, r)
    · by_cases h1 : (c1, r1) = (c, r)
      · simp [lookupField, he, h1]
      · have h2 : ¬ (c, r) = (c1, r1) := fun h => h1 h.symm
        simp only [lookupField, he, h1, h2, if_true, if_false]
        simpa [h1] using ih
    · by_cases h1 : (c1, r1) = (c, r)
      · have h2 : ¬ e.1 = (c1, r1) := by rw [h1]; exact he
        simp only [lookupField, he, h1, h2, if_true, if_false]
        simpa [h1] using ih
      · by_cases h3 : e.1 = (c1, r1)
        · simp [lookupField, he, h1, h3]
        · simp only [lookupField, he, h1, h3, if_true, if_false]
          simpa [h1] using ih

theorem lookupField_mem {fs : List Entry} {c r : Int} {f : field}
    (h : lookupField fs c r = some f) : ((c, r), f) ∈ fs := by
  induction fs with
  | nil => simp [lookupField] at h
  | cons e es ih =>
    by_cases he : e.1 = (c, r)
    · simp only [lookupField, he, if_true, Option.some.injEq] at h
      have : e = ((c, r), f) := Prod.ext he h
      simp [this]
    · simp only [lookupField, he, if_false] at h
      exact List.mem_cons_of_mem _ (ih h)

theorem lookupField_isSome_of_mem {fs : List Entry} {c r : Int} {f : field}
    (h : ((c, r), f) ∈ fs) : ∃ g, lookupField fs c r = some g := by
  induction fs with
  | nil => simp at h
  | cons e es ih =>
    by_cases he : e.1 = (c, r)
    · exact ⟨e.2, by simp [lookupField, he]⟩
    · rcases List.mem_cons.1 h with h1 | h1
      · exact absurd (by rw [← h1]) he
      · obtain ⟨g, hg⟩ := ih h1
        exact ⟨g, by simp [lookupField, he, hg]⟩

theorem CanMove_eq (l : Level) (c : Course) : l.CanMove c = l.isValidMove c := by
  cases c <;> rfl

theorem Move_eq (l : Level) (c : Course) : l.Move c = l.move c := by
  cases c <;> rfl

theorem offset_ne_zero (c : Course) :
    (getRelativeMovement c).1 ≠ 0 ∨ (getRelativeMovement c).2 ≠ 0 := by
  cases c <;> simp [getRelativeMovement]

theorem offset_ne (c : Course) (x y : Int) : ¬ ((x, y) = (x + c.dc, y + c.dr)) := by
  intro h
  have h1 := (Prod.mk.inj h).1
  have h2 := (Prod.mk.inj h).2
  have h3 := offset_ne_zero c
  simp only [Course.dc, Course.dr] at h1 h2
  omega

theorem offset_ne_two (c : Course) (x y : Int) :
    ¬ ((x, y) = (x + c.dc + c.dc, y + c.dr + c.dr)) := by
  intro h
  have h1 := (Prod.mk.inj h).1
  have h2 := (Prod.mk.inj h).2
  have h3 := offset_ne_zero c
  simp only [Course.dc, Course.dr] at h1 h2
  omega

/-- The state `Level.move` returns when the cells it dereferences exist. -/
theorem move_eq_of_lookup (l : Level) (c : Course) (dest src : field)
    (hd : l.lookup (l.pc + c.dc) (l.pr + c.dr) = some dest)
    (hs : l.lookup l.pc l.pr = some src)
    (hb : dest.curr = .box →
      ∃ b, l.lookup (l.pc + c.dc + c.dc) (l.pr + c.dr + c.dr) = some b) :
    l.move c = some { l with
      fields :=
        setCurr
          (setCurr
            (if dest.curr = .box then
              setCurr l.fields (l.pc + c.dc + c.dc) (l.pr + c.dr + c.dr) .box
             else l.fields)
            (l.pc + c.dc) (l.pr + c.dr) .player)
          l.pc l.pr (emptied src.kind)
      pc := l.pc + c.dc
      pr := l.pr + c.dr
      moves := l.moves ++ [{ course := c, movedBox := decide (dest.curr = .box) }] } := by
  have hne := offset_ne c l.pc l.pr
  have hne2 := offset_ne_two c l.pc l.pr
  simp only [Level.lookup] at hd hs hb
  simp only [Level.move, Level.lookup, hd]
  by_cases hbx : dest.curr = .box
  · obtain ⟨b, hbe⟩ := hb hbx
    simp only [hbx, decide_True, if_true, hbe, lookupField_setCurr, hne, hne2, if_false, hs]
  · simp only [hbx, decide_False, if_false, lookupField_setCurr, hne, hs, Bool.false_eq_true]

/-- What a true answer of `isValidMove` says about the cells ahead. -/
theorem isValidMove_true (l : Level) (c : Course) (h : l.isValidMove c = some true) :
    ∃ dest, l.lookup (l.pc + c.dc) (l.pr + c.dr) = some dest ∧ dest.kind ≠ .brick ∧
      (dest.curr = .box →
        ∃ b, l.lookup (l.pc + c.dc + c.dc) (l.pr + c.dr + c.dr) = some b
          ∧ b.curr ≠ .box ∧ b.kind ≠ .brick) := by
  simp only [Level.isValidMove] at h
  cases hd : l.lookup (l.pc + c.dc) (l.pr + c.dr) with
  | none => simp [hd] at h
  | some dest =>
    simp only [hd] at h
    by_cases hk : dest.kind = .brick
    · simp [hk] at h
    · refine ⟨dest, rfl, hk, fun hb => ?_⟩
      simp only [hk, hb, if_true, if_false] at h
      cases hbe : l.lookup (l.pc + c.dc + c.dc) (l.pr + c.dr + c.dr) with
      | none => simp [hbe] at h
      | some b =>
        simp only [hbe] at h
        by_cases hbb : b.curr = .box ∨ b.kind = .brick
        · simp [hbb] at h
        · exact ⟨b, rfl, fun h1 => hbb (Or.inl h1), fun h1 => hbb (Or.inr h1)⟩

theorem rowLevel_loaded : NewLevel rowMap (bytes "r") = .ok rowLevel := rfl

theorem gapLevel_loaded : NewLevel gapMap (bytes "r") = .ok gapLevel := rfl

theorem pushLevel_loaded : NewLevel pushMap (bytes "r") = .ok pushLevel := rfl

/-! ## Legality of a move -/

/-- C3: in a state where the cell two steps ahead exists whenever the cell one
step ahead holds a box, `CanMove c` returns, and it returns true exactly when
the destination cell exists, is not a wall by kind, and, if it holds a box,
the cell beyond it is neither a wall by kind nor holds a box. -/
theorem C3_canMove_iff (l : Level) (c : Course)
    (h : ∀ dest, l.ahead c = some dest → dest.curr = .box → ∃ b, l.beyond c = some b) :
    ∃ ok, l.CanMove c = some ok ∧
      (ok = true ↔
        ∃ dest, l.ahead c = some dest ∧ dest.kind ≠ .brick
          ∧ (dest.curr = .box →
              ∃ b, l.beyond c = some b ∧ b.kind ≠ .brick ∧ b.curr ≠ .box)) := by
  rw [CanMove_eq]
  simp only [Level.isValidMove]
  cases hd : l.lookup (l.pc + (getRelativeMovement c).1) (l.pr + (getRelativeMovement c).2) with
  | none => exact ⟨false, rfl, by simp [Level.ahead, hd]⟩
  | some dest =>
    have hd1 : l.ahead c = some dest := hd
    by_cases hk : dest.kind = .brick
    · exact ⟨false, by simp [hk], by simp [hd1, hk]⟩
    · by_cases hb : dest.curr = .box
      · obtain ⟨b, hbe⟩ := h dest hd hb
        have hbe1 : l.lookup (l.pc + (getRelativeMovement c).1 + (getRelativeMovement c).1)
            (l.pr + (getRelativeMovement c).2 + (getRelativeMovement c).2) = some b := hbe
        by_cases hbb : b.curr = .box ∨ b.kind = .brick
        · refine ⟨false, by simp [hk, hb, hbe1, hbb], ?_⟩
          simp only [Bool.false_eq_true, false_iff, not_exists, not_and]
          intro d hd2 _ hd3
          rw [hd1] at hd2
          cases Option.some.inj hd2
          obtain ⟨b1, hb1, hb2, hb3⟩ := hd3 hb
          rw [hbe] at hb1
          cases Option.some.inj hb1
          rcases hbb with h1 | h1
          · exact hb3 h1
          · exact hb2 h1
        · refine ⟨true, by simp [hk, hb, hbe1, hbb], ?_⟩
          simp only [true_iff]
          refine ⟨dest, hd1, hk, fun _ => ⟨b, hbe, ?_, ?_⟩⟩
          · exact fun h1 => hbb (Or.inr h1)
          · exact fun h1 => hbb (Or.inl h1)
      · refine ⟨true, by simp [hk, hb], ?_⟩
        simp only [true_iff]
        exact ⟨dest, hd1, hk, fun h1 => absurd h1 hb⟩

/-- Witness of C3: the example level and the course `Right`, where the
destination holds the box and the cell beyond it is the target. -/
theorem C3_canMove_iff_witness :
    (∀ dest, rowLevel.ahead .Right = some dest → dest.curr = .box →
        ∃ b, rowLevel.beyond .Right = some b)
    ∧ ∃ ok, rowLevel.CanMove .Right = some ok ∧
      (ok = true ↔
        ∃ dest, rowLevel.ahead .Right = some dest ∧ dest.kind ≠ .brick
          ∧ (dest.curr = .box →
              ∃ b, rowLevel.beyond .Right = some b ∧ b.kind ≠ .brick ∧ b.curr ≠ .box)) :=
  ⟨fun _ _ _ => ⟨_, rfl⟩, C3_canMove_iff rowLevel .Right (fun _ _ _ => ⟨_, rfl⟩)⟩

/-! ## The effect of a move -/

/-- C4: a move issued when `CanMove c` is true, from a player position that is
a cell of the grid, with the destination at the player position plus the
offset of `c` (`Up` is `(0, -1)`, `Right` is `(1, 0)`, `Down` is `(0, 1)`,
`Left` is `(-1, 0)`), returns a state in which the player position is the
destination, the destination holds the player, the vacated cell holds
`target` on a target kind (`target`, `boxOnTarget`, `playerOnTarget`) and
`free` otherwise, the cell beyond the destination holds a box when a box was
pushed, every other cell is as before, and the history has the one record
`(c, movedBox)` appended. -/
theorem C4_move_effect (l : Level) (c : Course) (src : field)
    (hcan : l.CanMove c = some true) (hs : l.playerCell = some src) :
    ((Course.Up.dc, Course.Up.dr) = (0, -1) ∧ (Course.Right.dc, Course.Right.dr) = (1, 0)
      ∧ (Course.Down.dc, Course.Down.dr) = (0, 1) ∧ (Course.Left.dc, Course.Left.dr) = (-1, 0))
    ∧ ∃ dest l1,
      l.ahead c = some dest ∧ l.Move c = some l1
      ∧ l1.PlayerPosition = (l.pc + c.dc, l.pr + c.dr)
      ∧ l1.lookup (l.pc + c.dc) (l.pr + c.dr) = some { dest with curr := .player }
      ∧ l1.lookup l.pc l.pr
          = some { src with curr := if src.kind.isTarget = true then .target else .free }
      ∧ l1.lookup l.pc l.pr
          = some { src with
              curr := if src.kind = .target ∨ src.kind = .boxOnTarget
                  ∨ src.kind = .playerOnTarget then .target else .free }
      ∧ (dest.curr = .box →
          ∃ b, l.beyond c = some b
            ∧ l1.lookup (l.pc + c.dc + c.dc) (l.pr + c.dr + c.dr) = some { b with curr := .box })
      ∧ (∀ x y, (x, y) ≠ (l.pc, l.pr) → (x, y) ≠ (l.pc + c.dc, l.pr + c.dr) →
          (dest.curr = .box → (x, y) ≠ (l.pc + c.dc + c.dc, l.pr + c.dr + c.dr)) →
          l1.lookup x y = l.lookup x y)
      ∧ l1.moves = l.moves ++ [{ course := c, movedBox := decide (dest.curr = .box) }] := by
  refine ⟨⟨rfl, rfl, rfl, rfl⟩, ?_⟩
  rw [CanMove_eq] at hcan
  obtain ⟨dest, hd, _, hb⟩ := isValidMove_true l c hcan
  have hb1 : dest.curr = .box →
      ∃ b, l.lookup (l.pc + c.dc + c.dc) (l.pr + c.dr + c.dr) = some b :=
    fun h => (hb h).imp fun _ hx => hx.1
  have hne := offset_ne c l.pc l.pr
  have hne2 := offset_ne_two c l.pc l.pr
  have hne3 := offset_ne c (l.pc + c.dc) (l.pr + c.dr)
  have hne1 : ¬ ((l.pc + c.dc, l.pr + c.dr) = (l.pc, l.pr)) := fun h => hne h.symm
  have hne4 : ¬ ((l.pc + c.dc + c.dc, l.pr + c.dr + c.dr) = (l.pc, l.pr)) :=
    fun h => hne2 h.symm
  have hne5 : ¬ ((l.pc + c.dc + c.dc, l.pr + c.dr + c.dr) = (l.pc + c.dc, l.pr + c.dr)) :=
    fun h => hne3 h.symm
  have hvac : lookupField
      (setCurr
        (setCurr
          (if dest.curr = .box then
            setCurr l.fields (l.pc + c.dc + c.dc) (l.pr + c.dr + c.dr) .box
           else l.fields)
          (l.pc + c.dc) (l.pr + c.dr) .player)
        l.pc l.pr (emptied src.kind)) l.pc l.pr
      = some { src with curr := if src.kind.isTarget = true then .target else .free } := by
    simp only [Level.playerCell, Level.lookup] at hs
    by_cases hbx : dest.curr = .box
    · simp [lookupField_setCurr, hne, hne2, hs, hbx, emptied]
    · simp [lookupField_setCurr, hne, hs, hbx, emptied]
  refine ⟨dest, _, hd, (Move_eq l c).trans (move_eq_of_lookup l c dest src hd hs hb1), rfl,
    ?_, hvac, ?_, ?_, ?_, rfl⟩
  · simp only [Level.lookup] at hd ⊢
    by_cases hbx : dest.curr = .box
    · simp [lookupField_setCurr, hne1, hne3, hd, hbx]
    · simp [lookupField_setCurr, hne1, hd, hbx]
  · simp only [Level.lookup]
    rw [hvac]
    cases hk : src.kind <;> simp [fieldKind.isTarget]
  · intro hbx
    obtain ⟨b, hbe⟩ := hb1 hbx
    refine ⟨b, hbe, ?_⟩
    simp only [Level.lookup] at hbe ⊢
    simp [lookupField_setCurr, hne4, hne5, hbe, hbx]
  · intro x y h1 h2 h3
    simp only [Level.lookup]
    by_cases hbx : dest.curr = .box
    · simp [lookupField_setCurr, h1, h2, h3 hbx, hbx]
    · simp [lookupField_setCurr, h1, h2, hbx]

/-- Witness of C4: the push to the right in the example level.  The player
goes from `(1, 1)` to `(2, 1)`, the box from `(2, 1)` to the target at
`(3, 1)`, the vacated cell is free, and one record is in the history. -/
theorem C4_move_effect_witness :
    rowLevel.CanMove .Right = some true
    ∧ rowLevel.PlayerPosition = (1, 1)
    ∧ rowLevel.playerCell = some { kind := .player, curr := .player, pos := 6 }
    ∧ rowLevel.ahead .Right = some { kind := .box, curr := .box, pos := 7 }
    ∧ rowLevel.beyond .Right = some { kind := .target, curr := .target, pos := 8 }
    ∧ ∃ l1, rowLevel.Move .Right = some l1
      ∧ l1.PlayerPosition = (2, 1)
      ∧ l1.lookup 2 1 = some { kind := .box, curr := .player, pos := 7 }
      ∧ l1.lookup 1 1 = some { kind := .player, curr := .free, pos := 6 }
      ∧ l1.lookup 3 1 = some { kind := .target, curr := .box, pos := 8 }
      ∧ (∀ x y, (x, y) ≠ (1, 1) → (x, y) ≠ (2, 1) → (x, y) ≠ (3, 1) →
          l1.lookup x y = rowLevel.lookup x y)
      ∧ l1.moves = [{ course := .Right, movedBox := true }] := by
  obtain ⟨_, dest, l1, hd, hm, hp, h1, h2, _, h3, h4, h5⟩ :=
    C4_move_effect rowLevel .Right { kind := .player, curr := .player, pos := 6 } rfl rfl
  have hdest : dest = { kind := .box, curr := .box, pos := 7 } :=
    Option.some.inj (hd.symm.trans rfl)
  subst hdest
  obtain ⟨b, hb, h3b⟩ := h3 rfl
  have hbeq : b = { kind := .target, curr := .target, pos := 8 } :=
    Option.some.inj (hb.symm.trans rfl)
  subst hbeq
  exact ⟨rfl, rfl, rfl, rfl, rfl, l1, hm, hp, h1, h2, h3b,
    fun x y a1 a2 a3 => h4 x y a1 a2 (fun _ => a3), h5⟩

/-! ## Completion -/

/-- C9: `Completed` is true exactly when every field of a target kind
(`target`, `boxOnTarget` or `playerOnTarget`, the kinds `isTarget` accepts)
holds a box.  It is a function of the level that returns only the answer: the
Go method assigns to nothing.  So the example level, whose target is empty,
is not completed, and it is after the push of the box onto the target. -/
theorem C9_completed_iff (l : Level) :
    (l.Completed = true ↔
      ∀ e ∈ l.fields,
        (e.2.kind = .target ∨ e.2.kind = .boxOnTarget ∨ e.2.kind = .playerOnTarget) →
          e.2.curr = .box)
    ∧ (∀ k : fieldKind,
        k.isTarget = true ↔ (k = .target ∨ k = .boxOnTarget ∨ k = .playerOnTarget))
    ∧ rowLevel.Completed = false
    ∧ (rowLevel.Move .Right).map Level.Completed = some true := by
  have hk : ∀ k : fieldKind,
      k.isTarget = true ↔ (k = .target ∨ k = .boxOnTarget ∨ k = .playerOnTarget) := by
    intro k
    cases k <;> simp [fieldKind.isTarget]
  refine ⟨?_, hk, by decide, by decide⟩
  unfold Level.Completed
  induction l.fields with
  | nil => simp [completedLoop]
  | cons e es ih =>
    by_cases h : e.2.curr ≠ .box ∧ e.2.kind.isTarget = true
    · rw [completedLoop, if_pos h]
      simp only [Bool.false_eq_true, false_iff]
      intro hall
      exact h.1 (hall e (List.mem_cons_self _ _) ((hk _).1 h.2))
    · rw [completedLoop, if_neg h, ih]
      simp only [List.forall_mem_cons]
      constructor
      · intro h1
        refine ⟨fun ht => ?_, h1⟩
        by_contra hc
        exact h ⟨hc, (hk _).2 ht⟩
      · exact fun h1 => h1.2

/-! ## A move that is not legal -/

/-- The position, the history and the frame after a `move` that returns. -/
theorem move_some (l l1 : Level) (c : Course) (h : l.move c = some l1) :
    l1.pc = l.pc + c.dc ∧ l1.pr = l.pr + c.dr ∧ l1.moves.length = l.moves.length + 1
      ∧ l1.width = l.width ∧ l1.height = l.height ∧ l1.Solution = l.Solution := by
  simp only [Level.move] at h
  split at h
  · exact absurd h (by simp)
  · split at h
    · exact absurd h (by simp)
    · split at h
      · exact absurd h (by simp)
      · cases Option.some.inj h
        simp

/-- C2, as stated, fails: in the example level `CanMove Up` is false (a wall
is above the player), yet `Move Up` returns a state with another player
position, one more move and the player written onto the wall cell. -/
theorem C2_move_not_refused :
    rowLevel.CanMove .Up = some false
      ∧ ∃ l1, rowLevel.Move .Up = some l1 ∧ l1.PlayerPosition ≠ rowLevel.PlayerPosition
        ∧ l1.MoveCount ≠ rowLevel.MoveCount ∧ l1.lookup 1 0 ≠ rowLevel.lookup 1 0 :=
  ⟨rfl, _, rfl, by decide, by decide, by decide⟩

/-- C2, amended: when `CanMove c` is false the refusal is the caller's: the
arrow key handler, which calls `Move` only on a true answer, returns the state
unchanged.  `Move c` itself checks nothing: whenever it returns, the player
position is the destination and the history is one record longer, and it does
return whenever the cells it dereferences exist. -/
theorem C2_illegal_move (l : Level) (c : Course) (h : l.CanMove c = some false) :
    (∀ replaying hasView, arrowHandler l replaying hasView c = some l)
    ∧ (∀ l1, l.Move c = some l1 →
        l1.PlayerPosition = (l.pc + c.dc, l.pr + c.dr) ∧ l1.MoveCount = l.MoveCount + 1)
    ∧ (∀ dest src, l.ahead c = some dest → l.playerCell = some src →
        (dest.curr = .box → ∃ b, l.beyond c = some b) → ∃ l1, l.Move c = some l1) := by
  refine ⟨?_, ?_, ?_⟩
  · intro replaying hasView
    simp only [arrowHandler, h]
    cases replaying <;> cases hasView <;> cases l.Completed <;> rfl
  · intro l1 h1
    rw [Move_eq] at h1
    obtain ⟨h2, h3, h4, _⟩ := move_some l l1 c h1
    exact ⟨by simp [Level.PlayerPosition, h2, h3], h4⟩
  · intro dest src hd hs hb
    exact ⟨_, (Move_eq l c).trans (move_eq_of_lookup l c dest src hd hs hb)⟩

/-- Witness of the amended C2: the example level and the course `Up`. -/
theorem C2_illegal_move_witness :
    rowLevel.CanMove .Up = some false
    ∧ (∀ replaying hasView, arrowHandler rowLevel replaying hasView .Up = some rowLevel)
    ∧ (∀ l1, rowLevel.Move .Up = some l1 →
        l1.PlayerPosition = (rowLevel.pc + Course.Up.dc, rowLevel.pr + Course.Up.dr)
          ∧ l1.MoveCount = rowLevel.MoveCount + 1)
    ∧ (∀ dest src, rowLevel.ahead .Up = some dest → rowLevel.playerCell = some src →
        (dest.curr = .box → ∃ b, rowLevel.beyond .Up = some b) →
        ∃ l1, rowLevel.Move .Up = some l1) :=
  ⟨rfl, C2_illegal_move rowLevel .Up rfl⟩

/-! ## Validation -/

theorem countKinds_eq (es : List Entry) (n : Counts) :
    countKinds es n =
      { targetCnt := n.targetCnt
          + es.countP (fun e => decide (e.2.kind = .target ∨ e.2.kind = .playerOnTarget))
        boxCnt := n.boxCnt + es.countP (fun e => decide (e.2.kind = .box))
        playerCnt := n.playerCnt + es.countP (fun e => isPlayerKind e.2.kind) } := by
  induction es generalizing n with
  | nil => simp [countKinds]
  | cons e es ih =>
    rw [countKinds, ih]
    cases hk : e.2.kind <;>
      simp [countField, List.countP_cons, hk, isPlayerKind] <;> omega

theorem countP_isTarget (es : List Entry) :
    es.countP (fun e => e.2.kind.isTarget)
      = es.countP (fun e => decide (e.2.kind = .target ∨ e.2.kind = .playerOnTarget))
        + es.countP (fun e => decide (e.2.kind = .boxOnTarget)) := by
  induction es with
  | nil => simp
  | cons e es ih =>
    cases hk : e.2.kind <;>
      simp [List.countP_cons, hk, fieldKind.isTarget] at ih ⊢ <;> omega

theorem scanUp_first (g : Int → Option field) (n : Nat) (i : Int) (h : scanUp g i n = true)
    (j : Nat) (hj : j < n) (f : field) (hf : g (i + j) = some f) (hnf : f.kind ≠ .free)
    (hbefore : ∀ k : Nat, k < j → ∀ f1, g (i + k) = some f1 → f1.kind = .free) :
    f.kind = .brick := by
  induction n generalizing i j with
  | zero => omega
  | succ n ih =>
    cases j with
    | zero =>
      simp only [Nat.cast_zero, add_zero] at hf
      simp only [scanUp, hf, hnf, if_false] at h
      by_contra hc
      simp [hc] at h
    | succ j =>
      have h0 := hbefore 0 (by omega)
      simp only [Nat.cast_zero, add_zero] at h0
      have hrest : scanUp g (i + 1) n = true := by
        simp only [scanUp] at h
        cases hg : g i with
        | none => simpa [hg] using h
        | some f1 => simpa [hg, h0 f1 hg] using h
      refine ih (i + 1) hrest j (by omega) ?_ ?_
      · rw [← hf]; congr 1; push_cast; ring
      · intro k hk f1 hf1
        refine hbefore (k + 1) (by omega) f1 ?_
        rw [← hf1]; congr 1; push_cast; ring

theorem scanDown_first (g : Int → Option field) (n : Nat) (h : scanDown g n = true)
    (j : Nat) (hj : j < n) (f : field) (hf : g j = some f) (hnf : f.kind ≠ .free)
    (hafter : ∀ k : Nat, j < k → k < n → ∀ f1, g k = some f1 → f1.kind = .free) :
    f.kind = .brick := by
  induction n with
  | zero => omega
  | succ n ih =>
    by_cases hjn : j = n
    · subst hjn
      simp only [scanDown, hf, hnf, if_false] at h
      by_contra hc
      simp [hc] at h
    · have h0 := hafter n (by omega) (by omega)
      have hrest : scanDown g n = true := by
        simp only [scanDown] at h
        cases hg : g n with
        | none => simpa [hg] using h
        | some f1 => simpa [hg, h0 f1 hg] using h
      exact ih hrest (by omega) (fun k hk1 hk2 => hafter k hk1 (by omega))

/-- What a true answer of `isValid` says about the counters and the scans. -/
theorem isValid_true (l : Level) (h : l.isValid = true) :
    (countKinds l.fields { targetCnt := 0, boxCnt := 0, playerCnt := 0 }).boxCnt ≠ 0
    ∧ (countKinds l.fields { targetCnt := 0, boxCnt := 0, playerCnt := 0 }).boxCnt
        = (countKinds l.fields { targetCnt := 0, boxCnt := 0, playerCnt := 0 }).targetCnt
    ∧ (countKinds l.fields { targetCnt := 0, boxCnt := 0, playerCnt := 0 }).playerCnt = 1
    ∧ (∀ c : Nat, c < l.width.toNat →
        scanUp (fun r => l.lookup (c : Int) r) 0 l.height.toNat = true
        ∧ scanDown (fun r => l.lookup (c : Int) r) l.height.toNat = true)
    ∧ (∀ r : Nat, r < l.height.toNat →
        scanUp (fun c => l.lookup c (r : Int)) 0 l.width.toNat = true
        ∧ scanDown (fun c => l.lookup c (r : Int)) l.width.toNat = true) := by
  simp only [Level.isValid] at h
  split at h
  · exact absurd h (by simp)
  · rename_i hc
    simp only [not_or, not_not] at hc
    simp only [Bool.and_eq_true, List.all_eq_true, List.mem_range] at h
    exact ⟨hc.1, hc.2.1, hc.2.2, h.1, h.2⟩

/-- A level accepted by `isValid` has exactly one field of a player kind. -/
theorem isValid_player_count (l : Level) (h : l.isValid = true) :
    l.fields.countP (fun e => isPlayerKind e.2.kind) = 1 := by
  obtain ⟨_, _, h3, _, _⟩ := isValid_true l h
  rw [countKinds_eq] at h3
  simpa using h3

/-- C5: a level accepted by `isValid` satisfies the three load invariants:
exactly one field has a player kind; the fields of kind `box` and
`boxOnTarget` are as many as the fields of a target kind, and at least one;
and the level is enclosed (the first field that is not free, in every column
from the top and from the bottom and in every row from the left and from the
right, is a brick). -/
theorem C5_valid_invariants (l : Level) (h : l.isValid = true) :
    l.fields.countP (fun e => isPlayerKind e.2.kind) = 1
    ∧ l.fields.countP (fun e => decide (e.2.kind = .box))
        + l.fields.countP (fun e => decide (e.2.kind = .boxOnTarget))
        = l.fields.countP (fun e => e.2.kind.isTarget)
    ∧ 1 ≤ l.fields.countP (fun e => decide (e.2.kind = .box))
        + l.fields.countP (fun e => decide (e.2.kind = .boxOnTarget))
    ∧ l.Enclosed := by
  obtain ⟨h1, h2, h3, hcol, hrow⟩ := isValid_true l h
  rw [countKinds_eq] at h1 h2 h3
  simp only [zero_add] at h1 h2 h3
  refine ⟨h3, ?_, ?_, ?_⟩
  · rw [countP_isTarget, h2]
  · omega
  · intro c r f hc0 hc1 hr0 hr1 hf hnf
    have hcn : c.toNat < l.width.toNat := by omega
    have hrn : r.toNat < l.height.toNat := by omega
    have hcc : ((c.toNat : Nat) : Int) = c := Int.toNat_of_nonneg hc0
    have hrr : ((r.toNat : Nat) : Int) = r := Int.toNat_of_nonneg hr0
    obtain ⟨hcu, hcd⟩ := hcol c.toNat hcn
    obtain ⟨hru, hrd⟩ := hrow r.toNat hrn
    rw [hcc] at hcu hcd
    rw [hrr] at hru hrd
    refine ⟨fun hb => ?_, fun hb => ?_, fun hb => ?_, fun hb => ?_⟩
    · refine scanUp_first _ _ 0 hcu r.toNat hrn f (by simpa [hrr] using hf) hnf ?_
      intro k hk f1 hf1
      exact hb k f1 (by omega) (by omega) (by simpa using hf1)
    · refine scanDown_first _ _ hcd r.toNat hrn f (by simpa [hrr] using hf) hnf ?_
      intro k hk1 hk2 f1 hf1
      exact hb k f1 (by omega) (by omega) hf1
    · refine scanUp_first _ _ 0 hru c.toNat hcn f (by simpa [hcc] using hf) hnf ?_
      intro k hk f1 hf1
      exact hb k f1 (by omega) (by omega) (by simpa using hf1)
    · refine scanDown_first _ _ hrd c.toNat hcn f (by simpa [hcc] using hf) hnf ?_
      intro k hk1 hk2 f1 hf1
      exact hb k f1 (by omega) (by omega) hf1

/-- Witness of C5: the example level is accepted by `isValid`. -/
theorem C5_valid_invariants_witness :
    rowLevel.isValid = true
    ∧ rowLevel.fields.countP (fun e => isPlayerKind e.2.kind) = 1
    ∧ rowLevel.fields.countP (fun e => decide (e.2.kind = .box))
        + rowLevel.fields.countP (fun e => decide (e.2.kind = .boxOnTarget))
        = rowLevel.fields.countP (fun e => e.2.kind.isTarget)
    ∧ 1 ≤ rowLevel.fields.countP (fun e => decide (e.2.kind = .box))
        + rowLevel.fields.countP (fun e => decide (e.2.kind = .boxOnTarget))
    ∧ rowLevel.Enclosed :=
  ⟨rfl, C5_valid_invariants rowLevel rfl⟩

/-! ## The shape of the grid -/

theorem shape_setCurr (fs : List Entry) (c r : Int) (k : fieldKind) :
    shape (setCurr fs c r k) = shape fs := by
  simp only [shape, setCurr, List.map_map]
  apply List.map_congr_left
  intro e _
  by_cases h : e.1 = (c, r) <;> simp [h]

theorem shape_lookup_kind {fs fs0 : List Entry} (h : shape fs = shape fs0) (c r : Int) :
    (lookupField fs c r).map (fun f => f.kind) = (lookupField fs0 c r).map (fun f => f.kind) := by
  induction fs generalizing fs0 with
  | nil =>
    cases fs0 with
    | nil => rfl
    | cons e0 es0 => simp [shape] at h
  | cons e es ih =>
    cases fs0 with
    | nil => simp [shape] at h
    | cons e0 es0 =>
      simp only [shape, List.map_cons, List.cons.injEq, Prod.mk.injEq] at h
      obtain ⟨⟨hk, hkind, _⟩, hrest⟩ := h
      by_cases he : e.1 = (c, r)
      · simp [lookupField, he, ← hk, hkind]
      · have he0 : ¬ e0.1 = (c, r) := by rw [← hk]; exact he
        simp only [lookupField, he, he0, if_false]
        exact ih hrest

theorem shape_playerScan {fs fs0 : List Entry} (h : shape fs = shape fs0) (p : Int × Int) :
    playerScan fs p = playerScan fs0 p := by
  induction fs generalizing fs0 p with
  | nil =>
    cases fs0 with
    | nil => rfl
    | cons e0 es0 => simp [shape] at h
  | cons e es ih =>
    cases fs0 with
    | nil => simp [shape] at h
    | cons e0 es0 =>
      simp only [shape, List.map_cons, List.cons.injEq, Prod.mk.injEq] at h
      obtain ⟨⟨hk, hkind, _⟩, hrest⟩ := h
      simp only [playerScan, hkind, hk]
      split
      · exact ih hrest _
      · exact ih hrest _

theorem shape_reset {fs fs0 : List Entry} (h : shape fs = shape fs0) :
    fs.map (fun e => (e.1, e.2.reset)) = fs0.map (fun e => (e.1, e.2.reset)) := by
  have key : ∀ gs : List Entry, gs.map (fun e => (e.1, e.2.reset))
      = (shape gs).map (fun t => (t.1, ({ kind := t.2.1, curr := resetCurr t.2.1, pos := t.2.2 } : field))) := by
    intro gs
    simp [shape, List.map_map, Function.comp_def, field.reset]
  rw [key fs, key fs0, h]

theorem shape_countP {fs fs0 : List Entry} (h : shape fs = shape fs0) (p : fieldKind → Bool) :
    fs.countP (fun e => p e.2.kind) = fs0.countP (fun e => p e.2.kind) := by
  have key : ∀ gs : List Entry, gs.countP (fun e => p e.2.kind)
      = (shape gs).countP (fun t => p t.2.1) := by
    intro gs
    simp [shape, List.countP_map, Function.comp_def]
  rw [key fs, key fs0, h]

/-- A field of a player kind, when it is the only one, is where `playerScan` ends. -/
theorem playerScan_unique (fs : List Entry) (p : Int × Int)
    (h : fs.countP (fun e => isPlayerKind e.2.kind) = 1) (e : Entry) (he : e ∈ fs)
    (hk : isPlayerKind e.2.kind = true) : playerScan fs p = e.1 := by
  have none_scan : ∀ (gs : List Entry) (q : Int × Int),
      gs.countP (fun e => isPlayerKind e.2.kind) = 0 → playerScan gs q = q := by
    intro gs
    induction gs with
    | nil => intro q _; rfl
    | cons g gs ih =>
      intro q hq
      rw [List.countP_cons] at hq
      have hg : isPlayerKind g.2.kind = false := by
        cases hx : isPlayerKind g.2.kind
        · rfl
        · simp [hx] at hq
      have hg1 : ¬ (g.2.kind = .player ∨ g.2.kind = .playerOnTarget) := by
        simpa [isPlayerKind] using hg
      simp only [playerScan, hg1, if_false]
      exact ih q (by omega)
  induction fs generalizing p with
  | nil => simp at he
  | cons g gs ih =>
    rw [List.countP_cons] at h
    by_cases hg : isPlayerKind g.2.kind = true
    · have hg1 : g.2.kind = .player ∨ g.2.kind = .playerOnTarget := by
        simpa [isPlayerKind] using hg
      have h0 : gs.countP (fun e => isPlayerKind e.2.kind) = 0 := by
        simp only [hg, if_true] at h
        omega
      simp only [playerScan, hg1, if_true]
      rw [none_scan gs g.1 h0]
      rcases List.mem_cons.1 he with h1 | h1
      · rw [h1]
      · exfalso
        have hpos : 0 < gs.countP (fun e => isPlayerKind e.2.kind) :=
          List.countP_pos_iff.2 ⟨e, h1, hk⟩
        omega
    · have hg1 : ¬ (g.2.kind = .player ∨ g.2.kind = .playerOnTarget) := by
        simpa [isPlayerKind] using hg
      have h1 : gs.countP (fun e => isPlayerKind e.2.kind) = 1 := by
        simpa [hg] using h
      simp only [playerScan, hg1, if_false]
      rcases List.mem_cons.1 he with h2 | h2
      · rw [h2] at hk; exact absurd hk hg
      · exact ih p h1 h2

/-- The frame of a level: what `Move`, `UndoLastMove` and `Reset` leave alone. -/
theorem move_frame (l l1 : Level) (c : Course) (h : l.move c = some l1) :
    shape l1.fields = shape l.fields ∧ l1.width = l.width ∧ l1.height = l.height
      ∧ l1.Solution = l.Solution := by
  simp only [Level.move] at h
  split at h
  · exact absurd h (by simp)
  · rename_i dest hd
    split at h
    · exact absurd h (by simp)
    · rename_i fs1 hfs1
      have hs1 : shape fs1 = shape l.fields := by
        by_cases hb : dest.curr = .box
        · simp only [hb, decide_True, if_true] at hfs1
          split at hfs1
          · exact absurd hfs1 (by simp)
          · cases Option.some.inj hfs1
            exact shape_setCurr _ _ _ _
        · simp only [hb, decide_False, if_false, Bool.false_eq_true] at hfs1
          cases Option.some.inj hfs1
          rfl
      split at h
      · exact absurd h (by simp)
      · cases Option.some.inj h
        simp [shape_setCurr, hs1]

theorem undo_frame (l l1 : Level) (h : l.UndoLastMove = some l1) :
    shape l1.fields = shape l.fields ∧ l1.width = l.width ∧ l1.height = l.height
      ∧ l1.Solution = l.Solution := by
  simp only [Level.UndoLastMove] at h
  split at h
  · cases Option.some.inj h
    simp
  · split at h
    · exact absurd h (by simp)
    · split at h
      · exact absurd h (by simp)
      · split at h
        · exact absurd h (by simp)
        · cases Option.some.inj h
          refine ⟨?_, rfl, rfl, rfl⟩
          simp only [shape_setCurr]
          split <;> simp [shape_setCurr]

theorem reset_frame (l : Level) :
    shape l.Reset.fields = shape l.fields ∧ l.Reset.width = l.width
      ∧ l.Reset.height = l.height ∧ l.Reset.Solution = l.Solution := by
  refine ⟨?_, rfl, rfl, rfl⟩
  simp [Level.Reset, shape, List.map_map, Function.comp_def, field.reset]

theorem calls_frame (ks : List Call) (l l1 : Level) (h : l.calls ks = some l1) :
    shape l1.fields = shape l.fields ∧ l1.width = l.width ∧ l1.height = l.height
      ∧ l1.Solution = l.Solution := by
  induction ks generalizing l with
  | nil =>
    cases Option.some.inj h
    exact ⟨rfl, rfl, rfl, rfl⟩
  | cons k ks ih =>
    simp only [Level.calls] at h
    split at h
    · exact absurd h (by simp)
    · rename_i l2 hl2
      obtain ⟨a1, a2, a3, a4⟩ := ih l2 h
      have hstep : shape l2.fields = shape l.fields ∧ l2.width = l.width
          ∧ l2.height = l.height ∧ l2.Solution = l.Solution := by
        cases k with
        | Move c => exact move_frame l l2 c ((Move_eq l c).symm.trans hl2)
        | UndoLastMove => exact undo_frame l l2 hl2
        | Reset =>
          cases Option.some.inj hl2
          exact reset_frame l
      exact ⟨a1.trans hstep.1, a2.trans hstep.2.1, a3.trans hstep.2.2.1, a4.trans hstep.2.2.2⟩

/-- What a successful `NewLevel` returns. -/
theorem NewLevel_ok (mapText solutionText : List Nat) (l0 : Level)
    (h : NewLevel mapText solutionText = .ok l0) :
    ∃ lines w cs, l0 = { mkLevel lines w with Solution := cs }
      ∧ (mkLevel lines w).isValid = true := by
  simp only [NewLevel] at h
  split at h
  · exact absurd h (by simp)
  · rename_i hv
    split at h
    · exact absurd h (by simp)
    · rename_i cs _
      cases Except.ok.inj h
      exact ⟨_, _, cs, rfl, by simpa using hv⟩

theorem buildRows_reset (w : Nat) (lines : List (List Nat)) (r : Nat) :
    ∀ e ∈ buildRows w r lines, e.2.curr = resetCurr e.2.kind := by
  induction lines generalizing r with
  | nil => simp [buildRows]
  | cons line rest ih =>
    intro e he
    simp only [buildRows, List.mem_append] at he
    rcases he with h1 | h1
    · simp only [rowFields, List.mem_map, List.mem_range] at h1
      obtain ⟨c, _, hc⟩ := h1
      rw [← hc]
      rfl
    · exact ih (r + 1) e h1

theorem map_reset_of_reset (fs : List Entry) (h : ∀ e ∈ fs, e.2.curr = resetCurr e.2.kind) :
    fs.map (fun e => (e.1, e.2.reset)) = fs := by
  conv_rhs => rw [← List.map_id fs]
  apply List.map_congr_left
  intro e he
  have := h e he
  cases e with
  | mk k f =>
    cases f with
    | mk kind curr pos =>
      simp only [field.reset, id]
      simp only at this
      rw [this]

/-! ## Reset -/

/-- The facts about a freshly loaded level that `Reset` relies on: every
field holds the occupant its kind starts with, exactly one field has a player
kind, and the player position is its key. -/
theorem loaded_facts (mapText solutionText : List Nat) (l0 : Level)
    (h0 : NewLevel mapText solutionText = .ok l0) :
    (∀ e ∈ l0.fields, e.2.curr = resetCurr e.2.kind)
    ∧ l0.fields.countP (fun e => isPlayerKind e.2.kind) = 1
    ∧ (∀ e ∈ l0.fields, isPlayerKind e.2.kind = true → (l0.pc, l0.pr) = e.1)
    ∧ l0.moves = [] := by
  obtain ⟨lines, w, cs, hl0, hv⟩ := NewLevel_ok mapText solutionText l0 h0
  have hcnt : l0.fields.countP (fun e => isPlayerKind e.2.kind) = 1 := by
    rw [hl0]; exact isValid_player_count _ hv
  refine ⟨?_, hcnt, ?_, ?_⟩
  · rw [hl0]; exact buildRows_reset w lines 0
  · intro e he hk
    have := playerScan_unique l0.fields (0, 0) hcnt e he hk
    rw [← this, hl0]
    rfl
  · rw [hl0]; rfl

/-- A level with the frame of a loaded level is reset to that loaded level. -/
theorem reset_eq_loaded (mapText solutionText : List Nat) (l0 l : Level)
    (h0 : NewLevel mapText solutionText = .ok l0)
    (f1 : shape l.fields = shape l0.fields) (f2 : l.width = l0.width)
    (f3 : l.height = l0.height) (f4 : l.Solution = l0.Solution) : l.Reset = l0 := by
  obtain ⟨hres0, hcnt, hpos0, hm⟩ := loaded_facts mapText solutionText l0 h0
  have hfields : l.Reset.fields = l0.fields := by
    simp only [Level.Reset]
    rw [shape_reset f1, map_reset_of_reset _ hres0]
  have hex : ∃ e ∈ l0.fields, isPlayerKind e.2.kind = true := by
    have : 0 < l0.fields.countP (fun e => isPlayerKind e.2.kind) := by omega
    exact List.countP_pos_iff.1 this
  obtain ⟨e, he, hk⟩ := hex
  have hp : playerScan l.fields (l.pc, l.pr) = e.1 := by
    rw [shape_playerScan f1]
    exact playerScan_unique _ _ hcnt e he hk
  have hp0 := hpos0 e he hk
  have hpc : l.Reset.pc = l0.pc := by
    simp only [Level.Reset, hp]
    exact (congrArg Prod.fst hp0).symm
  have hpr : l.Reset.pr = l0.pr := by
    simp only [Level.Reset, hp]
    exact (congrArg Prod.snd hp0).symm
  cases l0
  cases l
  simp only [Level.Reset, Level.mk.injEq] at *
  exact ⟨f2, f3, hfields, hpc, hpr, hm.symm, f4⟩

/-- C10: from a level `NewLevel` returned, after any sequence of `Move`,
`UndoLastMove` and `Reset` calls that returns, `Reset` gives back the freshly
loaded level: every field holds the occupant of its kind (a box for the kinds
`box` and `boxOnTarget`, the player for `player` and `playerOnTarget`,
`target` for `target`, a brick for `brick`, `free` for `free`), exactly one
field has the kind `player` or `playerOnTarget` and the player position is
its key, and the history is empty. -/
theorem C10_reset_restores (mapText solutionText : List Nat) (l0 l : Level) (ks : List Call)
    (h0 : NewLevel mapText solutionText = .ok l0) (hr : l0.calls ks = some l) :
    l.Reset = l0
    ∧ (∀ e ∈ l.Reset.fields, e.2.curr = resetCurr e.2.kind)
    ∧ (∀ e ∈ l.Reset.fields,
        ((e.2.kind = .box ∨ e.2.kind = .boxOnTarget) → e.2.curr = .box)
        ∧ ((e.2.kind = .player ∨ e.2.kind = .playerOnTarget) → e.2.curr = .player)
        ∧ (e.2.kind = .target → e.2.curr = .target)
        ∧ (e.2.kind = .brick → e.2.curr = .brick)
        ∧ (e.2.kind = .free → e.2.curr = .free))
    ∧ l.Reset.fields.countP (fun e => isPlayerKind e.2.kind) = 1
    ∧ l.Reset.fields.countP
        (fun e => decide (e.2.kind = .player ∨ e.2.kind = .playerOnTarget)) = 1
    ∧ (∀ e ∈ l.Reset.fields, isPlayerKind e.2.kind = true → l.Reset.PlayerPosition = e.1)
    ∧ (∀ e ∈ l.Reset.fields, (e.2.kind = .player ∨ e.2.kind = .playerOnTarget) →
        l.Reset.PlayerPosition = e.1)
    ∧ l.Reset.MoveCount = 0 := by
  obtain ⟨f1, f2, f3, f4⟩ := calls_frame ks l0 l hr
  have heq : l.Reset = l0 := reset_eq_loaded mapText solutionText l0 l h0 f1 f2 f3 f4
  obtain ⟨hres0, hcnt, hpos0, _⟩ := loaded_facts mapText solutionText l0 h0
  have hpk : ∀ k : fieldKind, isPlayerKind k = true ↔ (k = .player ∨ k = .playerOnTarget) := by
    intro k
    cases k <;> simp [isPlayerKind]
  refine ⟨heq, ?_, ?_, ?_, ?_, ?_, ?_, rfl⟩
  · rw [heq]; exact hres0
  · rw [heq]
    intro e he
    have hc := hres0 e he
    rw [hc]
    cases hk : e.2.kind <;> simp [resetCurr]
  · rw [heq]; exact hcnt
  · rw [heq, ← hcnt]
    congr 1
    funext e
    cases hk : e.2.kind <;> simp [isPlayerKind]
  · rw [heq]
    intro e he hk
    exact hpos0 e he hk
  · rw [heq]
    intro e he hk
    exact hpos0 e he ((hpk _).2 hk)

/-- Witness of C10: the level of `plusMap`, whose player starts on a target
and which has a box on a target, after the push to the right.  The reset
puts the player back on `(1, 1)`, the box on `(2, 1)`, and leaves the box of
the kind `boxOnTarget` on `(4, 1)`. -/
theorem C10_reset_restores_witness :
    NewLevel plusMap (bytes "r") = .ok plusLevel
    ∧ ∃ l, plusLevel.calls [.Move .Right] = some l
      ∧ l.PlayerPosition = (2, 1) ∧ l.MoveCount = 1
      ∧ l.lookup 1 1 = some { kind := .playerOnTarget, curr := .target, pos := 7 }
      ∧ l.lookup 2 1 = some { kind := .box, curr := .player, pos := 8 }
      ∧ l.lookup 3 1 = some { kind := .free, curr := .box, pos := 9 }
      ∧ l.Reset = plusLevel
      ∧ l.Reset.PlayerPosition = (1, 1) ∧ l.Reset.MoveCount = 0
      ∧ l.Reset.lookup 0 1 = some { kind := .brick, curr := .brick, pos := 6 }
      ∧ l.Reset.lookup 1 1 = some { kind := .playerOnTarget, curr := .player, pos := 7 }
      ∧ l.Reset.lookup 2 1 = some { kind := .box, curr := .box, pos := 8 }
      ∧ l.Reset.lookup 3 1 = some { kind := .free, curr := .free, pos := 9 }
      ∧ l.Reset.lookup 4 1 = some { kind := .boxOnTarget, curr := .box, pos := 10 }
      ∧ (∀ e ∈ l.Reset.fields,
          ((e.2.kind = .box ∨ e.2.kind = .boxOnTarget) → e.2.curr = .box)
          ∧ ((e.2.kind = .player ∨ e.2.kind = .playerOnTarget) → e.2.curr = .player)
          ∧ (e.2.kind = .target → e.2.curr = .target)
          ∧ (e.2.kind = .brick → e.2.curr = .brick)
          ∧ (e.2.kind = .free → e.2.curr = .free)) :=
  ⟨rfl, _, rfl, by decide, by decide, by decide, by decide, by decide,
    (C10_reset_restores plusMap (bytes "r") plusLevel _ [.Move .Right] rfl rfl).1,
    by decide, by decide, by decide, by decide, by decide, by decide, by decide,
    (C10_reset_restores plusMap (bytes "r") plusLevel _ [.Move .Right] rfl rfl).2.2.1⟩

/-! ## The grid `NewLevel` builds -/

theorem lookupField_append (a b : List Entry) (c r : Int) :
    lookupField (a ++ b) c r
      = match lookupField a c r with
        | some f => some f
        | none => lookupField b c r := by
  induction a with
  | nil => simp [lookupField]
  | cons e es ih =>
    by_cases he : e.1 = (c, r)
    · simp [lookupField, he]
    · simp only [List.cons_append, lookupField, he, if_false]
      exact ih

/-- The field `NewLevel` builds at column `c` of row `r`. -/
theorem lookupField_rowFields (w r : Nat) (line : List Nat) (c1 r1 : Int) :
    lookupField (rowFields w r line) c1 r1
      = if r1 = (r : Int) ∧ 0 ≤ c1 ∧ c1 < (w : Int) then
          some (newField (line.getD c1.toNat 32) ((r : Int) * (w : Int) + c1))
        else none := by
  have key : ∀ n : Nat, lookupField
      ((List.range n).map (fun (c : Nat) =>
        ((((c : Int), (r : Int)), newField (line.getD c 32) ((r : Int) * (w : Int) + (c : Int))) : Entry)))
      c1 r1
      = if r1 = (r : Int) ∧ 0 ≤ c1 ∧ c1 < (n : Int) then
          some (newField (line.getD c1.toNat 32) ((r : Int) * (w : Int) + c1))
        else none := by
    intro n
    induction n with
    | zero =>
      have : ¬ (r1 = (r : Int) ∧ 0 ≤ c1 ∧ c1 < ((0 : Nat) : Int)) := by
        intro h; have := h.2.2; omega
      rw [if_neg this]
      rfl
    | succ n ih =>
      rw [List.range_succ, List.map_append, lookupField_append, ih]
      by_cases h1 : r1 = (r : Int) ∧ 0 ≤ c1 ∧ c1 < (n : Int)
      · have h2 : r1 = (r : Int) ∧ 0 ≤ c1 ∧ c1 < ((n + 1 : Nat) : Int) :=
          ⟨h1.1, h1.2.1, by have := h1.2.2; omega⟩
        simp only [h1, h2, and_self, if_true]
      · simp only [h1, if_false]
        by_cases h3 : r1 = (r : Int) ∧ c1 = (n : Int)
        · have h2 : r1 = (r : Int) ∧ 0 ≤ c1 ∧ c1 < ((n + 1 : Nat) : Int) :=
            ⟨h3.1, by omega, by omega⟩
          obtain ⟨h4, h5⟩ := h3
          subst h4 h5
          simp [lookupField]
        · have h2 : ¬ (r1 = (r : Int) ∧ 0 ≤ c1 ∧ c1 < ((n + 1 : Nat) : Int)) := by
            intro h
            apply h3
            refine ⟨h.1, ?_⟩
            by_contra hc
            apply h1
            refine ⟨h.1, h.2.1, ?_⟩
            have := h.2.2
            omega
          have h4 : ¬ (((n : Int), (r : Int)) = (c1, r1)) := by
            intro h
            have a := (Prod.mk.inj h).1
            have b := (Prod.mk.inj h).2
            exact h3 ⟨b.symm, a.symm⟩
          rw [if_neg h2]
          simp [lookupField, h4]
  exact key w

/-- The field `NewLevel` builds at `(c, r)`: the grid is full, and outside of
it there is no field. -/
theorem lookupField_buildRows (w : Nat) (lines : List (List Nat)) (r0 : Nat) (c1 r1 : Int) :
    lookupField (buildRows w r0 lines) c1 r1
      = if 0 ≤ c1 ∧ c1 < (w : Int) ∧ (r0 : Int) ≤ r1 ∧ r1 < (r0 : Int) + (lines.length : Int) then
          some (newField ((lines.getD (r1 - (r0 : Int)).toNat []).getD c1.toNat 32)
            (r1 * (w : Int) + c1))
        else none := by
  induction lines generalizing r0 with
  | nil =>
    have : ¬ (0 ≤ c1 ∧ c1 < (w : Int) ∧ (r0 : Int) ≤ r1
        ∧ r1 < (r0 : Int) + (([] : List (List Nat)).length : Int)) := by
      intro h; have := h.2.2; simp at this; omega
    simp only [buildRows, lookupField, this, if_false]
  | cons line rest ih =>
    rw [buildRows, lookupField_append, lookupField_rowFields, ih]
    by_cases h1 : r1 = (r0 : Int) ∧ 0 ≤ c1 ∧ c1 < (w : Int)
    · have h2 : 0 ≤ c1 ∧ c1 < (w : Int) ∧ (r0 : Int) ≤ r1
          ∧ r1 < (r0 : Int) + ((line :: rest).length : Int) := by
        refine ⟨h1.2.1, h1.2.2, by omega, ?_⟩
        simp only [List.length_cons]; push_cast; omega
      obtain ⟨h3, _, _⟩ := h1
      subst h3
      simp [h2]
    · simp only [h1, if_false]
      by_cases h2 : 0 ≤ c1 ∧ c1 < (w : Int) ∧ ((r0 + 1 : Nat) : Int) ≤ r1
          ∧ r1 < ((r0 + 1 : Nat) : Int) + (rest.length : Int)
      · have h3 : 0 ≤ c1 ∧ c1 < (w : Int) ∧ (r0 : Int) ≤ r1
            ∧ r1 < (r0 : Int) + ((line :: rest).length : Int) := by
          refine ⟨h2.1, h2.2.1, by have := h2.2.2.1; omega, ?_⟩
          have := h2.2.2.2
          simp only [List.length_cons]; push_cast at this ⊢; omega
        simp only [h2, h3, and_self, if_true]
        have h4 : (r1 - (r0 : Int)).toNat = (r1 - ((r0 + 1 : Nat) : Int)).toNat + 1 := by
          have := h2.2.2.1; push_cast at this ⊢; omega
        rw [h4]
        simp [List.getD_cons_succ]
      · have h3 : ¬ (0 ≤ c1 ∧ c1 < (w : Int) ∧ (r0 : Int) ≤ r1
            ∧ r1 < (r0 : Int) + ((line :: rest).length : Int)) := by
          intro h
          apply h2
          refine ⟨h.1, h.2.1, ?_, ?_⟩
          · by_contra hc
            apply h1
            refine ⟨?_, h.1, h.2.1⟩
            have := h.2.2.1; push_cast at hc; omega
          · have := h.2.2.2
            simp only [List.length_cons] at this; push_cast at this ⊢; omega
        simp only [h2, h3, if_false]

theorem mem_buildRows (w : Nat) (lines : List (List Nat)) (r0 : Nat) (e : Entry)
    (he : e ∈ buildRows w r0 lines) :
    lookupField (buildRows w r0 lines) e.1.1 e.1.2 = some e.2 := by
  have hmem : ∀ (ls : List (List Nat)) (q : Nat), e ∈ buildRows w q ls →
      ∃ c r : Nat, c < w ∧ q ≤ r ∧ r < q + ls.length
        ∧ e = ((((c : Int), (r : Int)),
            newField ((ls.getD (r - q) []).getD c 32) ((r : Int) * (w : Int) + (c : Int))) : Entry) := by
    intro ls
    induction ls with
    | nil => intro q h; simp [buildRows] at h
    | cons line rest ih =>
      intro q h
      simp only [buildRows, List.mem_append] at h
      rcases h with h1 | h1
      · simp only [rowFields, List.mem_map, List.mem_range] at h1
        obtain ⟨c, hc, hce⟩ := h1
        refine ⟨c, q, hc, le_refl _, by simp, ?_⟩
        rw [← hce]
        simp
      · obtain ⟨c, r, hc, hr1, hr2, hre⟩ := ih (q + 1) h1
        refine ⟨c, r, hc, by omega, by simp only [List.length_cons]; omega, ?_⟩
        rw [hre]
        have : r - q = (r - (q + 1)) + 1 := by omega
        rw [this]
        simp [List.getD_cons_succ]
  obtain ⟨c, r, hc, hr1, hr2, hre⟩ := hmem lines r0 he
  rw [lookupField_buildRows, hre]
  have hcond : 0 ≤ (c : Int) ∧ (c : Int) < (w : Int) ∧ (r0 : Int) ≤ (r : Int)
      ∧ (r : Int) < (r0 : Int) + (lines.length : Int) := by
    refine ⟨by omega, by omega, by omega, by omega⟩
  simp only [hcond, and_self, if_true]
  have h1 : ((r : Int) - (r0 : Int)).toNat = r - r0 := by omega
  simp [h1]

theorem scanUp_wall (g : Int → Option field) (n : Nat) (i : Int) (h : scanUp g i n = true)
    (j : Nat) (hj : j < n) (f : field) (hf : g (i + j) = some f) (hnf : f.kind ≠ .free)
    (hnb : f.kind ≠ .brick) :
    ∃ k : Nat, k < j ∧ ∃ f1, g (i + k) = some f1 ∧ f1.kind = .brick := by
  induction n generalizing i j with
  | zero => omega
  | succ n ih =>
    cases j with
    | zero =>
      simp only [Nat.cast_zero, add_zero] at hf
      simp [scanUp, hf, hnf, hnb] at h
    | succ j =>
      have hstep : (∃ f1, g i = some f1 ∧ f1.kind = .brick) ∨ scanUp g (i + 1) n = true := by
        simp only [scanUp] at h
        cases hg : g i with
        | none => right; simpa [hg] using h
        | some f1 =>
          by_cases h1 : f1.kind = .free
          · right; simpa [hg, h1] using h
          · by_cases h2 : f1.kind = .brick
            · left; exact ⟨f1, rfl, h2⟩
            · simp [hg, h1, h2] at h
      rcases hstep with ⟨f1, hf1, hb⟩ | hrest
      · exact ⟨0, by omega, f1, by simpa using hf1, hb⟩
      · have hf2 : g (i + 1 + (j : Int)) = some f := by
          rw [← hf]; congr 1; push_cast; ring
        obtain ⟨k, hk, f1, hf1, hb⟩ := ih (i + 1) hrest j (by omega) hf2
        refine ⟨k + 1, by omega, f1, ?_, hb⟩
        rw [← hf1]; congr 1; push_cast; ring

theorem scanDown_wall (g : Int → Option field) (n : Nat) (h : scanDown g n = true)
    (j : Nat) (hj : j < n) (f : field) (hf : g j = some f) (hnf : f.kind ≠ .free)
    (hnb : f.kind ≠ .brick) :
    ∃ k : Nat, j < k ∧ k < n ∧ ∃ f1, g k = some f1 ∧ f1.kind = .brick := by
  induction n with
  | zero => omega
  | succ n ih =>
    by_cases hjn : j = n
    · subst hjn
      simp [scanDown, hf, hnf, hnb] at h
    · have hstep : (∃ f1, g n = some f1 ∧ f1.kind = .brick) ∨ scanDown g n = true := by
        simp only [scanDown] at h
        cases hg : g n with
        | none => right; simpa [hg] using h
        | some f1 =>
          by_cases h1 : f1.kind = .free
          · right; simpa [hg, h1] using h
          · by_cases h2 : f1.kind = .brick
            · left; exact ⟨f1, rfl, h2⟩
            · simp [hg, h1, h2] at h
      rcases hstep with ⟨f1, hf1, hb⟩ | hrest
      · exact ⟨n, by omega, by omega, f1, hf1, hb⟩
      · obtain ⟨k, hk1, hk2, hk3⟩ := ih hrest (by omega)
        exact ⟨k, hk1, by omega, hk3⟩

/-! ## Enclosure and the player -/

/-- Legal moves keep the shape of the grid and keep the player on a cell of
the grid that is not a brick by kind. -/
theorem legalMoves_inv (cs : List Course) (l l1 : Level) (h : l.legalMoves cs = some l1)
    (hp : ∃ f, l.playerCell = some f ∧ f.kind ≠ .brick) :
    shape l1.fields = shape l.fields ∧ l1.width = l.width ∧ l1.height = l.height
      ∧ ∃ f, l1.playerCell = some f ∧ f.kind ≠ .brick := by
  induction cs generalizing l with
  | nil =>
    cases Option.some.inj h
    exact ⟨rfl, rfl, rfl, hp⟩
  | cons c cs ih =>
    simp only [Level.legalMoves] at h
    split at h
    · rename_i hcan
      split at h
      · exact absurd h (by simp)
      · rename_i l2 hl2
        rw [Move_eq] at hl2
        rw [CanMove_eq] at hcan
        obtain ⟨dest, hd, hk, _⟩ := isValidMove_true l c hcan
        obtain ⟨m1, m2, _, _⟩ := move_some l l2 c hl2
        obtain ⟨g1, g2, g3, _⟩ := move_frame l l2 c hl2
        have hp2 : ∃ f, l2.playerCell = some f ∧ f.kind ≠ .brick := by
          have hkind := shape_lookup_kind g1 (l.pc + c.dc) (l.pr + c.dr)
          simp only [Level.lookup] at hd
          rw [hd] at hkind
          simp only [Level.playerCell, Level.lookup, m1, m2]
          cases hx : lookupField l2.fields (l.pc + c.dc) (l.pr + c.dr) with
          | none => simp [hx] at hkind
          | some f =>
            simp only [hx, Option.map_some', Option.some.injEq] at hkind
            exact ⟨f, rfl, by rw [hkind]; exact hk⟩
        obtain ⟨a1, a2, a3, a4⟩ := ih l2 h hp2
        exact ⟨a1.trans g1, a2.trans g2, a3.trans g3, a4⟩
    · exact absurd h (by simp)

/-- The player of a freshly loaded level stands on the field of a player kind. -/
theorem loaded_player (lines : List (List Nat)) (w : Nat) (hv : (mkLevel lines w).isValid = true) :
    ∃ f, (mkLevel lines w).playerCell = some f ∧ isPlayerKind f.kind = true := by
  have hcnt := isValid_player_count _ hv
  have hex : ∃ e ∈ (mkLevel lines w).fields, isPlayerKind e.2.kind = true := by
    have : 0 < (mkLevel lines w).fields.countP (fun e => isPlayerKind e.2.kind) := by omega
    exact List.countP_pos_iff.1 this
  obtain ⟨e, he, hk⟩ := hex
  have hpos : playerScan (mkLevel lines w).fields (0, 0) = e.1 :=
    playerScan_unique _ _ hcnt e he hk
  refine ⟨e.2, ?_, hk⟩
  have hl := mem_buildRows w lines 0 e he
  simp only [Level.playerCell, Level.lookup]
  have h1 : (mkLevel lines w).pc = e.1.1 := congrArg Prod.fst hpos
  have h2 : (mkLevel lines w).pr = e.1.2 := congrArg Prod.snd hpos
  rw [h1, h2]
  exact hl

theorem shape_lookup_transfer {fs fs0 : List Entry} (h : shape fs = shape fs0) (c r : Int)
    (f0 : field) (h0 : lookupField fs0 c r = some f0) :
    ∃ f, lookupField fs c r = some f ∧ f.kind = f0.kind := by
  have hkind := shape_lookup_kind h c r
  rw [h0] at hkind
  cases hx : lookupField fs c r with
  | none => simp [hx] at hkind
  | some f =>
    simp only [hx, Option.map_some', Option.some.injEq] at hkind
    exact ⟨f, rfl, hkind⟩

/-- C6, amended: in every state reached from a loaded level by legal moves
the player stands on a cell of the grid whose kind is not brick; and when the
kind of that cell is not free (as in the initial state), a cell of kind brick
lies inside the grid in each of the four directions from it, so the player is
not on the first or last row or column.  (On cells of kind free nothing of
the sort is guaranteed.) -/
theorem C6_player_walled_in (mapText solutionText : List Nat) (l0 l : Level) (cs : List Course)
    (h0 : NewLevel mapText solutionText = .ok l0) (hr : l0.legalMoves cs = some l) :
    ∃ f, l.playerCell = some f ∧ f.kind ≠ .brick
      ∧ (f.kind ≠ .free →
          l.WalledIn ∧ 0 < l.pc ∧ l.pc < l.width - 1 ∧ 0 < l.pr ∧ l.pr < l.height - 1) := by
  obtain ⟨lines, w, sol, hl0, hv⟩ := NewLevel_ok mapText solutionText l0 h0
  have hp0 : ∃ f, l0.playerCell = some f ∧ f.kind ≠ .brick := by
    obtain ⟨f, hf, hk⟩ := loaded_player lines w hv
    refine ⟨f, by rw [hl0]; exact hf, ?_⟩
    intro hb
    rw [hb] at hk
    simp [isPlayerKind] at hk
  obtain ⟨sh, hw, hh, f, hf, hk⟩ := legalMoves_inv cs l0 l hr hp0
  refine ⟨f, hf, hk, fun hnf => ?_⟩
  have hfields : l0.fields = buildRows w 0 lines := by rw [hl0]; rfl
  have hwidth : l.width = (w : Int) := by rw [hw, hl0]; rfl
  have hheight : l.height = (lines.length : Int) := by rw [hh, hl0]; rfl
  rw [hfields] at sh
  -- the player's cell in the loaded grid
  obtain ⟨f0, hf0, hk0⟩ := shape_lookup_transfer sh.symm l.pc l.pr f hf
  have hrange : 0 ≤ l.pc ∧ l.pc < (w : Int) ∧ ((0 : Nat) : Int) ≤ l.pr
      ∧ l.pr < ((0 : Nat) : Int) + (lines.length : Int) := by
    rw [lookupField_buildRows] at hf0
    by_contra hc
    rw [if_neg hc] at hf0
    exact absurd hf0 (by simp)
  obtain ⟨hc0, hc1, hr0, hr1⟩ := hrange
  simp only [Nat.cast_zero, zero_add] at hr0 hr1
  obtain ⟨_, _, _, hcol, hrow⟩ := isValid_true _ hv
  have hmw : (mkLevel lines w).width.toNat = w := by simp [mkLevel]
  have hmh : (mkLevel lines w).height.toNat = lines.length := by simp [mkLevel]
  rw [hmw] at hcol hrow
  rw [hmh] at hcol hrow
  have hcc : ((l.pc.toNat : Nat) : Int) = l.pc := Int.toNat_of_nonneg hc0
  have hrr : ((l.pr.toNat : Nat) : Int) = l.pr := Int.toNat_of_nonneg hr0
  obtain ⟨hcu, hcd⟩ := hcol l.pc.toNat (by omega)
  obtain ⟨hru, hrd⟩ := hrow l.pr.toNat (by omega)
  rw [hcc] at hcu hcd
  rw [hrr] at hru hrd
  have hnf0 : f0.kind ≠ .free := by rw [hk0]; exact hnf
  have hnb0 : f0.kind ≠ .brick := by rw [hk0]; exact hk
  have hml : ∀ c r, (mkLevel lines w).lookup c r = lookupField (buildRows w 0 lines) c r :=
    fun _ _ => rfl
  -- the four walls
  obtain ⟨k1, hk1, g1, hg1, hb1⟩ := scanUp_wall _ _ 0 hcu l.pr.toNat (by omega) f0
    (by simpa [hrr, hml] using hf0) hnf0 hnb0
  obtain ⟨k2, hk2, hk2', g2, hg2, hb2⟩ := scanDown_wall _ _ hcd l.pr.toNat (by omega) f0
    (by simpa [hrr, hml] using hf0) hnf0 hnb0
  obtain ⟨k3, hk3, g3, hg3, hb3⟩ := scanUp_wall _ _ 0 hru l.pc.toNat (by omega) f0
    (by simpa [hcc, hml] using hf0) hnf0 hnb0
  obtain ⟨k4, hk4, hk4', g4, hg4, hb4⟩ := scanDown_wall _ _ hrd l.pc.toNat (by omega) f0
    (by simpa [hcc, hml] using hf0) hnf0 hnb0
  simp only [zero_add, hml] at hg1 hg3
  simp only [hml] at hg2 hg4
  obtain ⟨e1, he1, hke1⟩ := shape_lookup_transfer sh _ _ g1 hg1
  obtain ⟨e2, he2, hke2⟩ := shape_lookup_transfer sh _ _ g2 hg2
  obtain ⟨e3, he3, hke3⟩ := shape_lookup_transfer sh _ _ g3 hg3
  obtain ⟨e4, he4, hke4⟩ := shape_lookup_transfer sh _ _ g4 hg4
  refine ⟨⟨⟨k1, e1, by omega, by omega, he1, hke1.trans hb1⟩,
    ⟨k2, e2, by omega, by omega, he2, hke2.trans hb2⟩,
    ⟨k3, e3, by omega, by omega, he3, hke3.trans hb3⟩,
    ⟨k4, e4, by omega, by omega, he4, hke4.trans hb4⟩⟩, ?_, ?_, ?_, ?_⟩ <;> omega

/-- Witness of the amended C6: the example level after the push to the right,
where the player stands on the cell of kind box. -/
theorem C6_player_walled_in_witness :
    NewLevel rowMap (bytes "r") = .ok rowLevel
    ∧ ∃ l, rowLevel.legalMoves [.Right] = some l
      ∧ ∃ f, l.playerCell = some f ∧ f.kind ≠ .brick
        ∧ (f.kind ≠ .free →
            l.WalledIn ∧ 0 < l.pc ∧ l.pc < l.width - 1 ∧ 0 < l.pr ∧ l.pr < l.height - 1) :=
  ⟨rfl, _, rfl, C6_player_walled_in rowMap (bytes "r") rowLevel _ [.Right] rfl rfl⟩

/-- C6, as stated, fails: `gapMap` is accepted by the validation, and after
the legal moves right and down the player stands on the last row, with no
cell of the grid below. -/
theorem C6_player_reaches_border :
    NewLevel gapMap (bytes "r") = .ok gapLevel
    ∧ gapLevel.legalMoves [.Right, .Down] = some gapBorder
    ∧ gapBorder.pr = gapBorder.height - 1
    ∧ ¬ gapBorder.WalledIn := by
  refine ⟨rfl, rfl, by decide, ?_⟩
  rintro ⟨_, ⟨r, f, h1, h2, _⟩, _⟩
  have e1 : gapBorder.pr = 2 := by decide
  have e2 : gapBorder.height = 3 := by decide
  omega

/-! ## Missing cells -/

/-- C1 at its failing input: in the level of `gapMap`, after the legal move
right, `CanMove Down` is true and `Move Down` returns, but the `UndoLastMove`
that follows panics: it reads the cell below the last row. -/
theorem C1_undo_after_move_panics :
    NewLevel gapMap (bytes "r") = .ok gapLevel
    ∧ ∃ l, gapLevel.legalMoves [.Right] = some l
      ∧ l.CanMove .Down = some true
      ∧ ∃ l1, l.Move .Down = some l1 ∧ l1.UndoLastMove = none :=
  ⟨rfl, _, rfl, rfl, _, rfl, rfl⟩

/-- C7 at its failing input: in the level of `pushMap`, after the legal moves
right, up, right and down, the cell below the player exists, is not a brick
and holds the box, the cell two steps below does not exist, and `CanMove Down`
panics instead of answering false. -/
theorem C7_canMove_panics :
    NewLevel pushMap (bytes "r") = .ok pushLevel
    ∧ pushLevel.legalMoves [.Right, .Up, .Right, .Down] = some pushBorder
    ∧ (∃ dest, pushBorder.ahead .Down = some dest ∧ dest.kind ≠ .brick ∧ dest.curr = .box)
    ∧ pushBorder.beyond .Down = none
    ∧ pushBorder.CanMove .Down = none :=
  ⟨rfl, rfl, ⟨_, rfl, by decide, by decide⟩, rfl, rfl⟩

/-- C8 at its failing input: in the level of `gapMap`, after the legal moves
right and down, the last record is the move down, the cell one step below the
player does not exist, and `UndoLastMove` panics. -/
theorem C8_undo_lookup_fails :
    NewLevel gapMap (bytes "r") = .ok gapLevel
    ∧ gapLevel.legalMoves [.Right, .Down] = some gapBorder
    ∧ gapBorder.moves.getLast? = some { course := .Down, movedBox := false }
    ∧ gapBorder.lookup (gapBorder.pc + Course.Down.dc) (gapBorder.pr + Course.Down.dr) = none
    ∧ gapBorder.UndoLastMove = none :=
  ⟨rfl, rfl, rfl, rfl, rfl⟩

/-! ## Undoing a move -/

theorem opposite_offset (c : Course) :
    c.dc + (opposite c).dc = 0 ∧ c.dr + (opposite c).dr = 0 := by
  cases c <;> simp [opposite, Course.dc, Course.dr, getRelativeMovement]

/-- The state `Level.UndoLastMove` returns when the history is not empty and
the cells it dereferences exist. -/
theorem undo_eq_of_lookup (l : Level) (ms : List move) (m : move) (behindFrom src back : field)
    (hm : l.moves = ms ++ [m])
    (h1 : l.lookup (l.pc + m.course.dc) (l.pr + m.course.dr) = some behindFrom)
    (h2 : l.lookup l.pc l.pr = some src)
    (h3 : l.lookup (l.pc + (opposite m.course).dc) (l.pr + (opposite m.course).dr) = some back) :
    l.UndoLastMove = some { l with
      fields :=
        setCurr
          (if behindFrom.curr = .box ∧ m.movedBox = true then
            setCurr (setCurr l.fields l.pc l.pr .box) (l.pc + m.course.dc) (l.pr + m.course.dr)
              (emptied behindFrom.kind)
           else setCurr l.fields l.pc l.pr (emptied src.kind))
          (l.pc + (opposite m.course).dc) (l.pr + (opposite m.course).dr) .player
      pc := l.pc + (opposite m.course).dc
      pr := l.pr + (opposite m.course).dr
      moves := ms } := by
  have hlast : l.moves.getLast? = some m := by rw [hm]; simp
  have hdrop : l.moves.dropLast = ms := by rw [hm]; simp
  simp only [Level.lookup] at h1 h2 h3
  have hback : ∀ fs1 : List Entry, shape fs1 = shape l.fields →
      ∃ g, lookupField fs1 (l.pc + (opposite m.course).dc) (l.pr + (opposite m.course).dr)
        = some g := by
    intro fs1 hsh
    obtain ⟨g, hg, _⟩ := shape_lookup_transfer hsh _ _ back h3
    exact ⟨g, hg⟩
  simp only [Level.UndoLastMove, hlast, Level.lookup, h1, h2, hdrop]
  by_cases hc : behindFrom.curr = .box ∧ m.movedBox = true
  · simp only [hc, and_self, if_true]
    obtain ⟨g, hg⟩ := hback (setCurr (setCurr l.fields l.pc l.pr .box) (l.pc + m.course.dc)
      (l.pr + m.course.dr) (emptied behindFrom.kind)) (by simp [shape_setCurr])
    simp only [Course.dc, Course.dr] at hg
    simp only [hg]
  · simp only [hc, if_false]
    obtain ⟨g, hg⟩ := hback (setCurr l.fields l.pc l.pr (emptied src.kind))
      (by simp [shape_setCurr])
    simp only [Course.dc, Course.dr] at hg
    simp only [hg]

theorem keyed_setCurr (fs : List Entry) (c r : Int) (k : fieldKind) (h : Keyed fs) :
    Keyed (setCurr fs c r k) := by
  intro e1 he1
  rw [lookupField_setCurr]
  simp only [setCurr, List.mem_map] at he1
  obtain ⟨e, he, hee⟩ := he1
  have hl := h e he
  by_cases h1 : e.1 = (c, r)
  · rw [if_pos h1] at hee
    subst hee
    have h2 : e.1.1 = c := congrArg Prod.fst h1
    have h3 : e.1.2 = r := congrArg Prod.snd h1
    simp only [h2, h3, if_true]
    rw [h2, h3] at hl
    rw [hl]
    rfl
  · rw [if_neg h1] at hee
    subst hee
    have h2 : ¬ ((e.1.1, e.1.2) = (c, r)) := h1
    rw [if_neg h2]
    exact hl

theorem fields_ext (fs gs : List Entry) (hs : shape gs = shape fs) (hk : Keyed fs)
    (hk1 : Keyed gs) (hl : ∀ c r, lookupField gs c r = lookupField fs c r) : gs = fs := by
  have hlen : gs.length = fs.length := by
    have := congrArg List.length hs
    simpa [shape] using this
  apply List.ext_getElem hlen
  intro i h1 h2
  have hkeys : (gs[i]).1 = (fs[i]).1 := by
    have h3 : (shape gs)[i]? = (shape fs)[i]? := by rw [hs]
    simp only [shape, List.getElem?_map, List.getElem?_eq_getElem h1,
      List.getElem?_eq_getElem h2, Option.map_some', Option.some.injEq, Prod.mk.injEq] at h3
    exact h3.1
  have a := hk1 gs[i] (List.getElem_mem h1)
  have b := hk fs[i] (List.getElem_mem h2)
  rw [hkeys, hl, b] at a
  exact Prod.ext hkeys (Option.some.inj a).symm

/-- In a consistent state, a legal move whose cell beyond the destination
exists is undone exactly by `UndoLastMove`. -/
theorem undo_move_roundtrip (l : Level) (c : Course) (hI : l.Consistent)
    (hcan : l.CanMove c = some true) (hB : ∃ b, l.beyond c = some b) :
    ∃ l1, l.Move c = some l1 ∧ l1.UndoLastMove = some l := by
  rw [CanMove_eq] at hcan
  obtain ⟨dest, hd, hk, hb⟩ := isValidMove_true l c hcan
  obtain ⟨src, hs, hsc, hsk⟩ := hI.player
  obtain ⟨b, hbe⟩ := hB
  have hb1 : dest.curr = .box →
      ∃ b, l.lookup (l.pc + c.dc + c.dc) (l.pr + c.dr + c.dr) = some b := fun _ => ⟨b, hbe⟩
  have hne := offset_ne c l.pc l.pr
  have hne2 := offset_ne_two c l.pc l.pr
  have hne3 := offset_ne c (l.pc + c.dc) (l.pr + c.dr)
  have hne1 : ¬ ((l.pc + c.dc, l.pr + c.dr) = (l.pc, l.pr)) := fun h => hne h.symm
  have hne4 : ¬ ((l.pc + c.dc + c.dc, l.pr + c.dr + c.dr) = (l.pc, l.pr)) :=
    fun h => hne2 h.symm
  have hne5 : ¬ ((l.pc + c.dc + c.dc, l.pr + c.dr + c.dr) = (l.pc + c.dc, l.pr + c.dr)) :=
    fun h => hne3 h.symm
  obtain ⟨ho1, ho2⟩ := opposite_offset c
  have hpc : l.pc + c.dc + (opposite c).dc = l.pc := by omega
  have hpr : l.pr + c.dr + (opposite c).dr = l.pr := by omega
  have hd' : lookupField l.fields (l.pc + c.dc) (l.pr + c.dr) = some dest := hd
  have hs' : lookupField l.fields l.pc l.pr = some src := hs
  have hbe' : lookupField l.fields (l.pc + c.dc + c.dc) (l.pr + c.dr + c.dr) = some b := hbe
  -- occupants before the move
  have hdest_np : dest.curr ≠ .player := fun h => hne1 (hI.onlyPlayer _ _ _ hd h)
  have hb_np : b.curr ≠ .player := fun h => hne4 (hI.onlyPlayer _ _ _ hbe h)
  have hdest_c : dest.curr ≠ .box → dest.curr = emptied dest.kind := by
    intro h
    rcases hI.canonical _ _ _ hd with h1 | ⟨_, h1 | h1 | h1⟩
    · exact absurd h1.1 hk
    · exact h1
    · exact absurd h1 h
    · exact absurd h1 hdest_np
  have hb_c : dest.curr = .box → b.curr = emptied b.kind := by
    intro hbx
    obtain ⟨b2, hb2, hb3, hb4⟩ := hb hbx
    have hbb : b2 = b := by
      have h1 : lookupField l.fields (l.pc + c.dc + c.dc) (l.pr + c.dr + c.dr) = some b2 := hb2
      rw [hbe'] at h1
      exact (Option.some.inj h1).symm
    subst hbb
    rcases hI.canonical _ _ _ hbe with h1 | ⟨_, h1 | h1 | h1⟩
    · exact absurd h1.1 hb4
    · exact h1
    · exact absurd h1 hb3
    · exact absurd h1 hb_np
  have hfield : ∀ (f : field) (k : fieldKind), f.curr = k → ({ f with curr := k } : field) = f := by
    intro f k h
    obtain ⟨kind, curr, pos⟩ := f
    simp only at h
    subst h
    rfl
  refine ⟨_, (Move_eq l c).trans (move_eq_of_lookup l c dest src hd hs hb1), ?_⟩
  by_cases hbx : dest.curr = .box
  · have hbc := hb_c hbx
    rw [undo_eq_of_lookup _ l.moves { course := c, movedBox := decide (dest.curr = .box) }
      { b with curr := .box } { dest with curr := .player } { src with curr := emptied src.kind }
      rfl
      (by simp only [Level.lookup, lookupField_setCurr, hbx, hne4, hne5, hbe', if_true, if_false,
            Option.map_some'])
      (by simp only [Level.lookup, lookupField_setCurr, hbx, hne1, hne3, hd', if_true, if_false,
            Option.map_some'])
      (by simp only [Level.lookup, lookupField_setCurr, hbx, hpc, hpr, hs', hne, hne2, if_true,
            if_false, Option.map_some'])]
    congr 1
    obtain ⟨width, height, fields, pc, pr, moves, Solution⟩ := l
    simp only [Level.mk.injEq, true_and, and_true, hbx, decide_True, and_self, if_true]
    simp only at hpc hpr hd' hs' hbe' hne hne1 hne2 hne3 hne4 hne5
    refine ⟨?_, hpc, hpr⟩
    rw [hpc, hpr]
    apply fields_ext
    · simp only [shape_setCurr]
    · exact hI.keyed
    · exact keyed_setCurr _ _ _ _ (keyed_setCurr _ _ _ _ (keyed_setCurr _ _ _ _
        (keyed_setCurr _ _ _ _ (keyed_setCurr _ _ _ _ (keyed_setCurr _ _ _ _ hI.keyed)))))
    · intro x y
      by_cases h1 : (x, y) = (pc, pr)
      · have hx : x = pc := congrArg Prod.fst h1
        have hy : y = pr := congrArg Prod.snd h1
        subst hx hy
        simp only [lookupField_setCurr, if_true, if_false, hne, hne2, hs', Option.map_some',
          hfield src _ hsc]
      · by_cases h2 : (x, y) = (pc + c.dc, pr + c.dr)
        · have hx : x = pc + c.dc := congrArg Prod.fst h2
          have hy : y = pr + c.dr := congrArg Prod.snd h2
          subst hx hy
          simp only [lookupField_setCurr, if_true, if_false, hne1, hne3, hd', Option.map_some']
          rw [← hbx]
        · by_cases h3 : (x, y) = (pc + c.dc + c.dc, pr + c.dr + c.dr)
          · have hx : x = pc + c.dc + c.dc := congrArg Prod.fst h3
            have hy : y = pr + c.dr + c.dr := congrArg Prod.snd h3
            subst hx hy
            simp only [lookupField_setCurr, if_true, if_false, hne4, hne5, hbe',
              Option.map_some']
            rw [← hbc]
          · simp only [lookupField_setCurr, h1, h2, h3, if_false]
  · have hdc := hdest_c hbx
    rw [undo_eq_of_lookup _ l.moves { course := c, movedBox := decide (dest.curr = .box) }
      b { dest with curr := .player } { src with curr := emptied src.kind }
      rfl
      (by simp only [Level.lookup, lookupField_setCurr, hbx, hne4, hne5, hbe', if_true, if_false,
            Option.map_some'])
      (by simp only [Level.lookup, lookupField_setCurr, hbx, hne1, hne3, hd', if_true, if_false,
            Option.map_some'])
      (by simp only [Level.lookup, lookupField_setCurr, hbx, hpc, hpr, hs', hne, hne2, if_true,
            if_false, Option.map_some'])]
    congr 1
    obtain ⟨width, height, fields, pc, pr, moves, Solution⟩ := l
    simp only [Level.mk.injEq, true_and, and_true, hbx, decide_False, and_false, if_false,
      Bool.false_eq_true]
    simp only at hpc hpr hd' hs' hbe' hne hne1 hne2 hne3 hne4 hne5
    refine ⟨?_, hpc, hpr⟩
    rw [hpc, hpr]
    apply fields_ext
    · simp only [shape_setCurr]
    · exact hI.keyed
    · exact keyed_setCurr _ _ _ _ (keyed_setCurr _ _ _ _ (keyed_setCurr _ _ _ _
        (keyed_setCurr _ _ _ _ hI.keyed)))
    · intro x y
      by_cases h1 : (x, y) = (pc, pr)
      · have hx : x = pc := congrArg Prod.fst h1
        have hy : y = pr := congrArg Prod.snd h1
        subst hx hy
        simp only [lookupField_setCurr, if_true, if_false, hne, hne2, hs', Option.map_some',
          hfield src _ hsc]
      · by_cases h2 : (x, y) = (pc + c.dc, pr + c.dr)
        · have hx : x = pc + c.dc := congrArg Prod.fst h2
          have hy : y = pr + c.dr := congrArg Prod.snd h2
          subst hx hy
          simp only [lookupField_setCurr, if_true, if_false, hne1, hne3, hd', Option.map_some']
          rw [← hdc]
        · simp only [lookupField_setCurr, h1, h2, if_false]

/-! ## Consistency in legal play -/

theorem emptied_ne (k : fieldKind) :
    emptied k ≠ .player ∧ emptied k ≠ .box ∧ emptied k ≠ .brick := by
  unfold emptied
  split <;> simp

/-- A legal move keeps a consistent state consistent. -/
theorem consistent_move (l l1 : Level) (c : Course) (hI : l.Consistent)
    (hcan : l.isValidMove c = some true) (hm : l.move c = some l1) : l1.Consistent := by
  obtain ⟨dest, hd, hk, hb⟩ := isValidMove_true l c hcan
  obtain ⟨src, hs, hsc, hsk⟩ := hI.player
  have hb1 : dest.curr = .box →
      ∃ b, l.lookup (l.pc + c.dc + c.dc) (l.pr + c.dr + c.dr) = some b :=
    fun h => (hb h).imp fun _ hx => hx.1
  have hne := offset_ne c l.pc l.pr
  have hne2 := offset_ne_two c l.pc l.pr
  have hne3 := offset_ne c (l.pc + c.dc) (l.pr + c.dr)
  have hne1 : ¬ ((l.pc + c.dc, l.pr + c.dr) = (l.pc, l.pr)) := fun h => hne h.symm
  have hd' : lookupField l.fields (l.pc + c.dc) (l.pr + c.dr) = some dest := hd
  have hs' : lookupField l.fields l.pc l.pr = some src := hs
  rw [move_eq_of_lookup l c dest src hd hs hb1] at hm
  cases Option.some.inj hm
  -- the lookups after the move
  have hlook : ∀ x y f,
      lookupField (setCurr (setCurr (if dest.curr = .box then
          setCurr l.fields (l.pc + c.dc + c.dc) (l.pr + c.dr + c.dr) .box else l.fields)
          (l.pc + c.dc) (l.pr + c.dr) .player) l.pc l.pr (emptied src.kind)) x y = some f →
      ((x, y) = (l.pc, l.pr) ∧ f.curr = emptied src.kind ∧ f.kind = src.kind)
      ∨ ((x, y) = (l.pc + c.dc, l.pr + c.dr) ∧ f.curr = .player ∧ f.kind = dest.kind)
      ∨ ((x, y) ≠ (l.pc, l.pr) ∧ (x, y) ≠ (l.pc + c.dc, l.pr + c.dr) ∧ f.curr = .box
          ∧ f.kind ≠ .brick)
      ∨ ((x, y) ≠ (l.pc, l.pr) ∧ (x, y) ≠ (l.pc + c.dc, l.pr + c.dr)
          ∧ lookupField l.fields x y = some f) := by
    intro x y f hf
    by_cases h1 : (x, y) = (l.pc, l.pr)
    · left
      have hx : x = l.pc := congrArg Prod.fst h1
      have hy : y = l.pr := congrArg Prod.snd h1
      subst hx hy
      by_cases hbx : dest.curr = .box
      · simp only [lookupField_setCurr, hbx, if_true, if_false, hne, hne2, hs',
          Option.map_some', Option.some.injEq] at hf
        subst hf
        exact ⟨rfl, rfl, rfl⟩
      · simp only [lookupField_setCurr, hbx, if_true, if_false, hne, hs',
          Option.map_some', Option.some.injEq] at hf
        subst hf
        exact ⟨rfl, rfl, rfl⟩
    · right
      by_cases h2 : (x, y) = (l.pc + c.dc, l.pr + c.dr)
      · left
        have hx : x = l.pc + c.dc := congrArg Prod.fst h2
        have hy : y = l.pr + c.dr := congrArg Prod.snd h2
        subst hx hy
        by_cases hbx : dest.curr = .box
        · simp only [lookupField_setCurr, hbx, if_true, if_false, hne1, hne3, hd',
            Option.map_some', Option.some.injEq] at hf
          subst hf
          exact ⟨rfl, rfl, rfl⟩
        · simp only [lookupField_setCurr, hbx, if_true, if_false, hne1, hd',
            Option.map_some', Option.some.injEq] at hf
          subst hf
          exact ⟨rfl, rfl, rfl⟩
      · right
        by_cases hbx : dest.curr = .box
        · by_cases h3 : (x, y) = (l.pc + c.dc + c.dc, l.pr + c.dr + c.dr)
          · left
            obtain ⟨b, hbe, _, hbk⟩ := hb hbx
            have hbe' : lookupField l.fields (l.pc + c.dc + c.dc) (l.pr + c.dr + c.dr)
                = some b := hbe
            have hx : x = l.pc + c.dc + c.dc := congrArg Prod.fst h3
            have hy : y = l.pr + c.dr + c.dr := congrArg Prod.snd h3
            subst hx hy
            simp only [lookupField_setCurr, hbx, if_true, if_false, h1, h2, hbe',
              Option.map_some', Option.some.injEq] at hf
            subst hf
            exact ⟨h1, h2, rfl, hbk⟩
          · right
            simp only [lookupField_setCurr, hbx, if_true, if_false, h1, h2, h3] at hf
            exact ⟨h1, h2, hf⟩
        · right
          simp only [lookupField_setCurr, hbx, if_false, h1, h2] at hf
          exact ⟨h1, h2, hf⟩
  refine ⟨?_, ?_, ?_, ?_⟩
  · show Keyed _
    by_cases hbx : dest.curr = .box
    · simp only [hbx, if_true]
      exact keyed_setCurr _ _ _ _ (keyed_setCurr _ _ _ _ (keyed_setCurr _ _ _ _ hI.keyed))
    · simp only [hbx, if_false]
      exact keyed_setCurr _ _ _ _ (keyed_setCurr _ _ _ _ hI.keyed)
  · refine ⟨{ dest with curr := .player }, ?_, rfl, hk⟩
    simp only [Level.playerCell, Level.lookup]
    by_cases hbx : dest.curr = .box
    · simp only [lookupField_setCurr, hbx, if_true, if_false, hne1, hne3, hd', Option.map_some']
    · simp only [lookupField_setCurr, hbx, if_true, if_false, hne1, hd', Option.map_some']
  · intro x y f hf hp
    rcases hlook x y f hf with h | h | h | h
    · exact absurd (h.2.1 ▸ hp) (emptied_ne src.kind).1
    · exact h.1
    · rw [h.2.2.1] at hp; exact absurd hp (by simp)
    · exact absurd (hI.onlyPlayer x y f h.2.2 hp) h.1
  · intro x y f hf
    rcases hlook x y f hf with h | h | h | h
    · exact Or.inr ⟨by rw [h.2.2]; exact hsk, Or.inl (by rw [h.2.1, h.2.2])⟩
    · exact Or.inr ⟨by rw [h.2.2]; exact hk, Or.inr (Or.inr h.2.1)⟩
    · exact Or.inr ⟨h.2.2.2, Or.inr (Or.inl h.2.2.1)⟩
    · exact hI.canonical x y f h.2.2

theorem histOk_shape {fs gs : List Entry} (h : shape gs = shape fs) (ms : List move)
    (p : Int × Int) (hh : histOk fs p ms) : histOk gs p ms := by
  induction ms generalizing p with
  | nil => trivial
  | cons m ms ih =>
    obtain ⟨⟨f, hf, hk⟩, hrest⟩ := hh
    obtain ⟨g, hg, hgk⟩ := shape_lookup_transfer h _ _ f hf
    exact ⟨⟨g, hg, by rw [hgk]; exact hk⟩, ih _ hrest⟩

theorem undo_empty (l : Level) (h : l.moves = []) : l.UndoLastMove = some l := by
  simp [Level.UndoLastMove, h]

theorem undo_none_of_behind (l : Level) (ms : List move) (m : move) (hm : l.moves = ms ++ [m])
    (h : l.lookup (l.pc + m.course.dc) (l.pr + m.course.dr) = none) :
    l.UndoLastMove = none := by
  have hlast : l.moves.getLast? = some m := by rw [hm]; simp
  simp only [Level.lookup] at h
  simp only [Level.UndoLastMove, hlast, Level.lookup, h]

theorem opposite_ne (c : Course) (x y : Int) :
    ¬ ((x + c.dc, y + c.dr) = (x + (opposite c).dc, y + (opposite c).dr)) := by
  intro h
  have h1 := (Prod.mk.inj h).1
  have h2 := (Prod.mk.inj h).2
  have h3 := offset_ne_zero c
  have h4 := opposite_offset c
  simp only [Course.dc, Course.dr] at h1 h2 h4
  omega

/-- An undo keeps a consistent state with a sound history consistent. -/
theorem consistent_undo (l l1 : Level) (hI : l.Consistent)
    (hH : histOk l.fields (l.pc, l.pr) l.moves.reverse) (hu : l.UndoLastMove = some l1) :
    l1.Consistent ∧ histOk l1.fields (l1.pc, l1.pr) l1.moves.reverse := by
  rcases List.eq_nil_or_concat l.moves with hnil | ⟨ms, m, hm⟩
  · rw [undo_empty l hnil] at hu
    cases Option.some.inj hu
    exact ⟨hI, hH⟩
  · have hm1 : l.moves = ms ++ [m] := by simpa using hm
    rw [hm1] at hH
    simp only [List.reverse_append, List.reverse_singleton, List.singleton_append] at hH
    obtain ⟨⟨back, hback, hbackk⟩, hrest⟩ := hH
    obtain ⟨src, hs, hsc, hsk⟩ := hI.player
    cases hbf : l.lookup (l.pc + m.course.dc) (l.pr + m.course.dr) with
    | none =>
      rw [undo_none_of_behind l ms m hm1 hbf] at hu
      exact absurd hu (by simp)
    | some bf =>
      rw [undo_eq_of_lookup l ms m bf src back hm1 hbf hs hback] at hu
      cases Option.some.inj hu
      have hs' : lookupField l.fields l.pc l.pr = some src := hs
      have hbf' : lookupField l.fields (l.pc + m.course.dc) (l.pr + m.course.dr) = some bf := hbf
      have nSB := offset_ne m.course l.pc l.pr
      have nSK := offset_ne (opposite m.course) l.pc l.pr
      have nBK := opposite_ne m.course l.pc l.pr
      have nBS : ¬ ((l.pc + m.course.dc, l.pr + m.course.dr) = (l.pc, l.pr)) :=
        fun h => nSB h.symm
      have nKS : ¬ ((l.pc + (opposite m.course).dc, l.pr + (opposite m.course).dr)
          = (l.pc, l.pr)) := fun h => nSK h.symm
      have nKB : ¬ ((l.pc + (opposite m.course).dc, l.pr + (opposite m.course).dr)
          = (l.pc + m.course.dc, l.pr + m.course.dr)) := fun h => nBK h.symm
      have hlook : ∀ x y f,
          lookupField (setCurr
            (if bf.curr = .box ∧ m.movedBox = true then
              setCurr (setCurr l.fields l.pc l.pr .box) (l.pc + m.course.dc)
                (l.pr + m.course.dr) (emptied bf.kind)
             else setCurr l.fields l.pc l.pr (emptied src.kind))
            (l.pc + (opposite m.course).dc) (l.pr + (opposite m.course).dr) .player) x y
            = some f →
          ((x, y) = (l.pc + (opposite m.course).dc, l.pr + (opposite m.course).dr)
              ∧ f.curr = .player ∧ f.kind = back.kind)
          ∨ ((x, y) ≠ (l.pc + (opposite m.course).dc, l.pr + (opposite m.course).dr)
              ∧ f.kind ≠ .brick ∧ (f.curr = .box ∨ f.curr = emptied f.kind))
          ∨ ((x, y) ≠ (l.pc + (opposite m.course).dc, l.pr + (opposite m.course).dr)
              ∧ (x, y) ≠ (l.pc, l.pr) ∧ lookupField l.fields x y = some f) := by
        intro x y f hf
        by_cases h1 : (x, y) = (l.pc + (opposite m.course).dc, l.pr + (opposite m.course).dr)
        · left
          have hx : x = l.pc + (opposite m.course).dc := congrArg Prod.fst h1
          have hy : y = l.pr + (opposite m.course).dr := congrArg Prod.snd h1
          subst hx hy
          have hback' : lookupField l.fields (l.pc + (opposite m.course).dc)
              (l.pr + (opposite m.course).dr) = some back := hback
          by_cases hc : bf.curr = .box ∧ m.movedBox = true
          · simp only [lookupField_setCurr, hc, and_self, if_true, if_false, nKS, nKB, hback',
              Option.map_some', Option.some.injEq] at hf
            subst hf
            exact ⟨rfl, rfl, rfl⟩
          · simp only [lookupField_setCurr, hc, if_true, if_false, nKS, hback',
              Option.map_some', Option.some.injEq] at hf
            subst hf
            exact ⟨rfl, rfl, rfl⟩
        · right
          by_cases h2 : (x, y) = (l.pc, l.pr)
          · left
            have hx : x = l.pc := congrArg Prod.fst h2
            have hy : y = l.pr := congrArg Prod.snd h2
            subst hx hy
            by_cases hc : bf.curr = .box ∧ m.movedBox = true
            · simp only [lookupField_setCurr, hc, and_self, if_true, if_false, nSK, nSB, hs',
                Option.map_some', Option.some.injEq] at hf
              subst hf
              exact ⟨h1, hsk, Or.inl rfl⟩
            · simp only [lookupField_setCurr, hc, if_true, if_false, nSK, hs',
                Option.map_some', Option.some.injEq] at hf
              subst hf
              exact ⟨h1, hsk, Or.inr rfl⟩
          · by_cases hc : bf.curr = .box ∧ m.movedBox = true
            · by_cases h3 : (x, y) = (l.pc + m.course.dc, l.pr + m.course.dr)
              · left
                have hx : x = l.pc + m.course.dc := congrArg Prod.fst h3
                have hy : y = l.pr + m.course.dr := congrArg Prod.snd h3
                subst hx hy
                simp only [lookupField_setCurr, hc, and_self, if_true, if_false, nBK, nBS, hbf',
                  Option.map_some', Option.some.injEq] at hf
                subst hf
                have hbk : bf.kind ≠ .brick := by
                  rcases hI.canonical _ _ _ hbf with h | h
                  · rw [hc.1] at h; exact absurd h.2 (by simp)
                  · exact h.1
                exact ⟨h1, hbk, Or.inr rfl⟩
              · right
                simp only [lookupField_setCurr, hc, and_self, if_true, if_false, h1, h2, h3]
                  at hf
                exact ⟨h1, h2, hf⟩
            · right
              simp only [lookupField_setCurr, hc, if_false, h1, h2] at hf
              exact ⟨h1, h2, hf⟩
      have hshape : shape (setCurr
            (if bf.curr = .box ∧ m.movedBox = true then
              setCurr (setCurr l.fields l.pc l.pr .box) (l.pc + m.course.dc)
                (l.pr + m.course.dr) (emptied bf.kind)
             else setCurr l.fields l.pc l.pr (emptied src.kind))
            (l.pc + (opposite m.course).dc) (l.pr + (opposite m.course).dr) .player)
          = shape l.fields := by
        split <;> simp only [shape_setCurr]
      refine ⟨⟨?_, ?_, ?_, ?_⟩, histOk_shape hshape _ _ hrest⟩
      · show Keyed _
        split
        · exact keyed_setCurr _ _ _ _ (keyed_setCurr _ _ _ _ (keyed_setCurr _ _ _ _ hI.keyed))
        · exact keyed_setCurr _ _ _ _ (keyed_setCurr _ _ _ _ hI.keyed)
      · obtain ⟨g, hg, hgk⟩ := shape_lookup_transfer hshape _ _ back hback
        refine ⟨g, hg, ?_, by rw [hgk]; exact hbackk⟩
        rcases hlook _ _ g hg with h | h | h
        · exact h.2.1
        · exact absurd rfl h.1
        · exact absurd rfl h.1
      · intro x y f hf hp
        rcases hlook x y f hf with h | h | h
        · exact h.1
        · rcases h.2.2 with h3 | h3
          · rw [h3] at hp; exact absurd hp (by simp)
          · rw [h3] at hp; exact absurd hp (emptied_ne f.kind).1
        · exact absurd (hI.onlyPlayer x y f h.2.2 hp) h.2.1
      · intro x y f hf
        rcases hlook x y f hf with h | h | h
        · exact Or.inr ⟨by rw [h.2.2]; exact hbackk, Or.inr (Or.inr h.2.1)⟩
        · rcases h.2.2 with h3 | h3
          · exact Or.inr ⟨h.2.1, Or.inr (Or.inl h3)⟩
          · exact Or.inr ⟨h.2.1, Or.inl h3⟩
        · exact hI.canonical x y f h.2.2

/-- A freshly loaded level is consistent. -/
theorem consistent_loaded (mapText solutionText : List Nat) (l0 : Level)
    (h0 : NewLevel mapText solutionText = .ok l0) : l0.Consistent := by
  obtain ⟨hres0, hcnt, hpos0, _⟩ := loaded_facts mapText solutionText l0 h0
  obtain ⟨lines, w, cs, hl0, hv⟩ := NewLevel_ok mapText solutionText l0 h0
  have hkeyed : Keyed l0.fields := by
    rw [hl0]
    intro e he
    exact mem_buildRows w lines 0 e he
  refine ⟨hkeyed, ?_, ?_, ?_⟩
  · obtain ⟨f, hf, hk⟩ := loaded_player lines w hv
    have hf0 : l0.playerCell = some f := by rw [hl0]; exact hf
    have hmem := lookupField_mem hf0
    have hc := hres0 _ hmem
    simp only at hc
    refine ⟨f, hf0, ?_, ?_⟩
    · rw [hc]
      cases hkind : f.kind <;> simp [hkind, isPlayerKind, resetCurr] at hk ⊢
    · intro hb
      rw [hb] at hk
      simp [isPlayerKind] at hk
  · intro c r f hf hp
    have hmem := lookupField_mem hf
    have hc := hres0 _ hmem
    simp only at hc
    have hk : isPlayerKind f.kind = true := by
      rw [hp] at hc
      cases hkind : f.kind <;> simp [hkind, isPlayerKind, resetCurr] at hc ⊢
    exact (hpos0 _ hmem hk).symm
  · intro c r f hf
    have hmem := lookupField_mem hf
    have hc := hres0 _ hmem
    simp only at hc
    rw [hc]
    cases hkind : f.kind <;> simp [resetCurr, emptied, fieldKind.isTarget]

/-- Legal play is a sequence of calls. -/
theorem play_calls (ks : List Call) (l l1 : Level) (h : l.play ks = some l1) :
    l.calls ks = some l1 := by
  induction ks generalizing l with
  | nil => exact h
  | cons k ks ih =>
    cases k with
    | Move c =>
      simp only [Level.play] at h
      split at h
      · split at h
        · exact absurd h (by simp)
        · rename_i l2 hl2
          simp only [Level.calls, Level.call, hl2]
          exact ih l2 h
      · exact absurd h (by simp)
    | UndoLastMove =>
      simp only [Level.play] at h
      split at h
      · exact absurd h (by simp)
      · rename_i l2 hl2
        simp only [Level.calls, Level.call, hl2]
        exact ih l2 h
    | Reset =>
      simp only [Level.play] at h
      simp only [Level.calls, Level.call]
      exact ih _ h

/-- Every state of legal play from a loaded level is consistent, its history
leads back over cells the player can stand on, and it has the frame of the
loaded level. -/
theorem play_consistent (mapText solutionText : List Nat) (l0 : Level)
    (h0 : NewLevel mapText solutionText = .ok l0) (ks : List Call) (l : Level)
    (hp : l0.play ks = some l) :
    l.Consistent ∧ histOk l.fields (l.pc, l.pr) l.moves.reverse := by
  have hstart : l0.Consistent ∧ histOk l0.fields (l0.pc, l0.pr) l0.moves.reverse := by
    refine ⟨consistent_loaded mapText solutionText l0 h0, ?_⟩
    rw [(loaded_facts mapText solutionText l0 h0).2.2.2]
    trivial
  have hframe0 : shape l0.fields = shape l0.fields ∧ l0.width = l0.width
      ∧ l0.height = l0.height ∧ l0.Solution = l0.Solution := ⟨rfl, rfl, rfl, rfl⟩
  have key : ∀ (ks : List Call) (a : Level),
      (a.Consistent ∧ histOk a.fields (a.pc, a.pr) a.moves.reverse) →
      (shape a.fields = shape l0.fields ∧ a.width = l0.width
        ∧ a.height = l0.height ∧ a.Solution = l0.Solution) →
      a.play ks = some l →
      l.Consistent ∧ histOk l.fields (l.pc, l.pr) l.moves.reverse := by
    intro ks
    induction ks with
    | nil =>
      intro a ha _ h
      cases Option.some.inj h
      exact ha
    | cons k ks ih =>
      intro a ha hfr h
      cases k with
      | Move c =>
        simp only [Level.play] at h
        split at h
        · rename_i hcan
          split at h
          · exact absurd h (by simp)
          · rename_i a1 ha1
            rw [Move_eq] at ha1
            rw [CanMove_eq] at hcan
            have hc1 := consistent_move a a1 c ha.1 hcan ha1
            obtain ⟨g1, g2, g3, g4⟩ := move_frame a a1 c ha1
            obtain ⟨dest, hd, _, hb⟩ := isValidMove_true a c hcan
            obtain ⟨src, hs, _, hsk⟩ := ha.1.player
            have hb1 : dest.curr = .box →
                ∃ b, a.lookup (a.pc + c.dc + c.dc) (a.pr + c.dr + c.dr) = some b :=
              fun h => (hb h).imp fun _ hx => hx.1
            have hexp := move_eq_of_lookup a c dest src hd hs hb1
            rw [hexp] at ha1
            have hh : histOk a1.fields (a1.pc, a1.pr) a1.moves.reverse := by
              obtain ⟨o1, o2⟩ := opposite_offset c
              have e1 : a.pc + c.dc + (opposite c).dc = a.pc := by omega
              have e2 : a.pr + c.dr + (opposite c).dr = a.pr := by omega
              have hold := histOk_shape g1 _ _ ha.2
              obtain ⟨s1, hs1, hsk1⟩ := shape_lookup_transfer g1 _ _ src hs
              cases Option.some.inj ha1
              simp only [List.reverse_append, List.reverse_singleton, List.singleton_append,
                histOk, e1, e2]
              exact ⟨⟨s1, hs1, by rw [hsk1]; exact hsk⟩, hold⟩
            exact ih a1 ⟨hc1, hh⟩
              ⟨g1.trans hfr.1, g2.trans hfr.2.1, g3.trans hfr.2.2.1, g4.trans hfr.2.2.2⟩ h
        · exact absurd h (by simp)
      | UndoLastMove =>
        simp only [Level.play] at h
        split at h
        · exact absurd h (by simp)
        · rename_i a1 ha1
          obtain ⟨g1, g2, g3, g4⟩ := undo_frame a a1 ha1
          exact ih a1 (consistent_undo a a1 ha.1 ha.2 ha1)
            ⟨g1.trans hfr.1, g2.trans hfr.2.1, g3.trans hfr.2.2.1, g4.trans hfr.2.2.2⟩ h
      | Reset =>
        simp only [Level.play] at h
        have hre := reset_eq_loaded mapText solutionText l0 a h0 hfr.1 hfr.2.1 hfr.2.2.1 hfr.2.2.2
        rw [hre] at h
        exact ih l0 hstart hframe0 h
  exact key ks l0 hstart hframe0 hp

/-- In every state of legal play from a loaded level, a legal move whose cell
beyond the destination exists is undone exactly by `UndoLastMove`: all fields,
the player position and the history are those before the move. -/
theorem play_undo_move (mapText solutionText : List Nat) (l0 : Level)
    (h0 : NewLevel mapText solutionText = .ok l0) (ks : List Call) (l : Level)
    (hp : l0.play ks = some l) (c : Course) (hcan : l.CanMove c = some true)
    (hB : ∃ b, l.beyond c = some b) :
    ∃ l1, l.Move c = some l1 ∧ l1.UndoLastMove = some l :=
  undo_move_roundtrip l c (play_consistent mapText solutionText l0 h0 ks l hp).1 hcan hB

/-! ## The frame and the empty history -/

/-- Levels of the same shape have, at every key, fields of the same kind and position. -/
theorem shape_lookup_frame {fs fs0 : List Entry} (h : shape fs = shape fs0) (c r : Int) :
    (lookupField fs c r).map (fun f => (f.kind, f.pos))
      = (lookupField fs0 c r).map (fun f => (f.kind, f.pos)) := by
  induction fs generalizing fs0 with
  | nil =>
    cases fs0 with
    | nil => rfl
    | cons e0 es0 => simp [shape] at h
  | cons e es ih =>
    cases fs0 with
    | nil => simp [shape] at h
    | cons e0 es0 =>
      simp only [shape, List.map_cons, List.cons.injEq, Prod.mk.injEq] at h
      obtain ⟨⟨hk, hkind, hpos⟩, hrest⟩ := h
      by_cases he : e.1 = (c, r)
      · simp [lookupField, he, ← hk, hkind, hpos]
      · have he0 : ¬ e0.1 = (c, r) := by rw [← hk]; exact he
        simp only [lookupField, he, he0, if_false]
        exact ih hrest

/-- C15: with an empty history `UndoLastMove` returns, and the state it
returns is the state it was given: every field, the player position and the
history are unchanged. -/
theorem C15_undo_empty_history (l : Level) (h : l.moves = []) : l.UndoLastMove = some l := by
  unfold Level.UndoLastMove
  rw [h]
  rfl

/-- Witness of C15: the freshly loaded example level. -/
theorem C15_undo_empty_history_witness :
    rowLevel.moves = [] ∧ rowLevel.UndoLastMove = some rowLevel :=
  ⟨rfl, C15_undo_empty_history rowLevel rfl⟩

/-- C16: each of the three calls by itself returns a level with the frame of
the level it was given: a `Move` issued with `CanMove` true, an
`UndoLastMove`, and a `Reset`.  The frame is the fields with their keys,
kinds and positions, the width, the height and the solution; so at every key
the cell exists after the call exactly if it did before, with the same kind
and position.  Only occupants, player position and history may differ. -/
theorem C16_frame (l : Level) :
    (∀ c l1, l.CanMove c = some true → l.Move c = some l1 →
      (l.SameFrame l1
        ∧ l1.fields.map (fun e => (e.1, e.2.kind, e.2.pos))
            = l.fields.map (fun e => (e.1, e.2.kind, e.2.pos))
        ∧ l1.width = l.width ∧ l1.height = l.height ∧ l1.Solution = l.Solution)
      ∧ ∀ x y, ((l1.lookup x y).isSome = (l.lookup x y).isSome)
        ∧ (l1.lookup x y).map (fun f => (f.kind, f.pos))
            = (l.lookup x y).map (fun f => (f.kind, f.pos)))
    ∧ (∀ l2, l.UndoLastMove = some l2 →
      (l.SameFrame l2
        ∧ l2.fields.map (fun e => (e.1, e.2.kind, e.2.pos))
            = l.fields.map (fun e => (e.1, e.2.kind, e.2.pos))
        ∧ l2.width = l.width ∧ l2.height = l.height ∧ l2.Solution = l.Solution)
      ∧ ∀ x y, ((l2.lookup x y).isSome = (l.lookup x y).isSome)
        ∧ (l2.lookup x y).map (fun f => (f.kind, f.pos))
            = (l.lookup x y).map (fun f => (f.kind, f.pos)))
    ∧ ((l.SameFrame l.Reset
        ∧ l.Reset.fields.map (fun e => (e.1, e.2.kind, e.2.pos))
            = l.fields.map (fun e => (e.1, e.2.kind, e.2.pos))
        ∧ l.Reset.width = l.width ∧ l.Reset.height = l.height
        ∧ l.Reset.Solution = l.Solution)
      ∧ ∀ x y, ((l.Reset.lookup x y).isSome = (l.lookup x y).isSome)
        ∧ (l.Reset.lookup x y).map (fun f => (f.kind, f.pos))
            = (l.lookup x y).map (fun f => (f.kind, f.pos))) := by
  have key : ∀ l1 : Level, l.SameFrame l1 →
      (l.SameFrame l1
        ∧ l1.fields.map (fun e => (e.1, e.2.kind, e.2.pos))
            = l.fields.map (fun e => (e.1, e.2.kind, e.2.pos))
        ∧ l1.width = l.width ∧ l1.height = l.height ∧ l1.Solution = l.Solution)
      ∧ ∀ x y, ((l1.lookup x y).isSome = (l.lookup x y).isSome)
        ∧ (l1.lookup x y).map (fun f => (f.kind, f.pos))
            = (l.lookup x y).map (fun f => (f.kind, f.pos)) := by
    intro l1 h
    refine ⟨⟨h, h.1, h.2.1, h.2.2.1, h.2.2.2⟩, fun x y => ?_⟩
    have hm := shape_lookup_frame h.1 x y
    refine ⟨?_, hm⟩
    have := congrArg Option.isSome hm
    simpa [Level.lookup] using this
  exact ⟨fun c l1 _ hm => key l1 (move_frame l l1 c ((Move_eq l c).symm.trans hm)),
    fun l2 hu => key l2 (undo_frame l l2 hu), key _ (reset_frame l)⟩

/-- Witness of C16: the level of `farMap` after the push to the right, where
a further push to the right is legal and the undo takes back a move: each of
the three calls by itself keeps the frame. -/
theorem C16_frame_witness :
    farDone.moves = [{ course := .Right, movedBox := true }]
    ∧ farDone.CanMove .Right = some true
    ∧ ∃ l1 l2, farDone.Move .Right = some l1 ∧ farDone.UndoLastMove = some l2
      ∧ l1 ≠ farDone ∧ l2 ≠ farDone ∧ farDone.Reset ≠ farDone
      ∧ farDone.SameFrame l1 ∧ farDone.SameFrame l2 ∧ farDone.SameFrame farDone.Reset
      ∧ (∀ x y, (l1.lookup x y).isSome = (farDone.lookup x y).isSome)
      ∧ (∀ x y, (l2.lookup x y).isSome = (farDone.lookup x y).isSome)
      ∧ (∀ x y, (farDone.Reset.lookup x y).isSome = (farDone.lookup x y).isSome) :=
  ⟨rfl, rfl, _, _, rfl, rfl, by decide, by decide, by decide,
    ((C16_frame farDone).1 .Right _ rfl rfl).1.1,
    ((C16_frame farDone).2.1 _ rfl).1.1,
    (C16_frame farDone).2.2.1.1,
    fun x y => (((C16_frame farDone).1 .Right _ rfl rfl).2 x y).1,
    fun x y => (((C16_frame farDone).2.1 _ rfl).2 x y).1,
    fun x y => ((C16_frame farDone).2.2.2 x y).1⟩

/-! ## Pushing a box off its target -/

/-- A target-kind field that does not hold a box makes the loop answer false. -/
theorem completedLoop_false (fs : List Entry) (e : Entry) (he : e ∈ fs)
    (hk : e.2.kind.isTarget = true) (hc : e.2.curr ≠ .box) : completedLoop fs = false := by
  induction fs with
  | nil => simp at he
  | cons g gs ih =>
    by_cases hg : g.2.curr ≠ .box ∧ g.2.kind.isTarget = true
    · rw [completedLoop, if_pos hg]
    · rw [completedLoop, if_neg hg]
      rcases List.mem_cons.1 he with h1 | h1
      · rw [h1] at hk hc; exact absurd ⟨hc, hk⟩ hg
      · exact ih h1

/-- A `move` that returns found the player on a cell of the grid. -/
theorem move_some_src (l l1 : Level) (c : Course) (h : l.move c = some l1) :
    ∃ src, l.playerCell = some src := by
  simp only [Level.move] at h
  split at h
  · exact absurd h (by simp)
  · rename_i dest hd
    split at h
    · exact absurd h (by simp)
    · rename_i fs1 hfs1
      have hs1 : shape fs1 = shape l.fields := by
        by_cases hb : dest.curr = .box
        · simp only [hb, decide_True, if_true] at hfs1
          split at hfs1
          · exact absurd hfs1 (by simp)
          · cases Option.some.inj hfs1
            exact shape_setCurr _ _ _ _
        · simp only [hb, decide_False, if_false, Bool.false_eq_true] at hfs1
          cases Option.some.inj hfs1
          rfl
      split at h
      · exact absurd h (by simp)
      · rename_i src hsrc
        have hsh : shape l.fields = shape (setCurr fs1 (l.pc + (getRelativeMovement c).1)
            (l.pr + (getRelativeMovement c).2) .player) := by
          rw [shape_setCurr, hs1]
        obtain ⟨g, hg, _⟩ := shape_lookup_transfer hsh _ _ src hsrc
        exact ⟨g, hg⟩

/-- C11: in a completed state, with `CanMove c` true and the destination a
target-kind cell that holds a box, every state `Move c` returns is not
completed; and `Move c` does return when the player stands on a cell of the
grid. -/
theorem C11_push_off_target (l : Level) (c : Course) (dest : field)
    (_hcomp : l.Completed = true)
    (hcan : l.CanMove c = some true) (hd : l.ahead c = some dest) (hbox : dest.curr = .box)
    (htk : dest.kind.isTarget = true) :
    (∀ l1, l.Move c = some l1 → l1.Completed = false)
    ∧ (∀ src, l.playerCell = some src → ∃ l1, l.Move c = some l1 ∧ l1.Completed = false) := by
  rw [CanMove_eq] at hcan
  obtain ⟨dest1, hd1, _, hb⟩ := isValidMove_true l c hcan
  have hdd : dest1 = dest := by
    have h1 : l.ahead c = some dest1 := hd1
    rw [hd] at h1
    exact (Option.some.inj h1).symm
  subst hdd
  have hb1 : dest1.curr = .box →
      ∃ b, l.lookup (l.pc + c.dc + c.dc) (l.pr + c.dr + c.dr) = some b :=
    fun h => (hb h).imp fun _ hx => hx.1
  have hne1 : ¬ ((l.pc + c.dc, l.pr + c.dr) = (l.pc, l.pr)) :=
    fun h => offset_ne c l.pc l.pr h.symm
  have hne3 := offset_ne c (l.pc + c.dc) (l.pr + c.dr)
  have hd' : lookupField l.fields (l.pc + c.dc) (l.pr + c.dr) = some dest1 := hd
  have main : ∀ src, l.playerCell = some src →
      ∃ l1, l.Move c = some l1 ∧ l1.Completed = false := by
    intro src hs
    refine ⟨_, (Move_eq l c).trans (move_eq_of_lookup l c dest1 src hd hs hb1), ?_⟩
    refine completedLoop_false _ ((l.pc + c.dc, l.pr + c.dr), { dest1 with curr := .player })
      ?_ htk (by simp)
    apply lookupField_mem
    simp only [hbox, if_true, lookupField_setCurr, hne1, hne3, if_false, hd', Option.map_some']
  refine ⟨fun l1 hm => ?_, main⟩
  obtain ⟨src, hs⟩ := move_some_src l l1 c ((Move_eq l c).symm.trans hm)
  obtain ⟨l2, hl2, hc2⟩ := main src hs
  rw [hm] at hl2
  cases Option.some.inj hl2
  exact hc2

/-- Witness of C11: the level of `farMap` once the box is on the target,
and a second push to the right. -/
theorem C11_push_off_target_witness :
    farDone.Completed = true ∧ farDone.CanMove .Right = some true
    ∧ farDone.ahead .Right = some { kind := .target, curr := .box, pos := 9 }
    ∧ (∀ l1, farDone.Move .Right = some l1 → l1.Completed = false)
    ∧ (∀ src, farDone.playerCell = some src →
        ∃ l1, farDone.Move .Right = some l1 ∧ l1.Completed = false) :=
  ⟨rfl, rfl, rfl, C11_push_off_target farDone .Right _ rfl rfl rfl rfl rfl⟩

/-! ## Parsing the solution -/

theorem parseCourse_isSome (b : Nat) :
    (parseCourse b).isSome = true ↔ (b = 117 ∨ b = 114 ∨ b = 100 ∨ b = 108) := by
  unfold parseCourse
  by_cases h1 : b = 117
  · simp [h1]
  · by_cases h2 : b = 114
    · simp [h2]
    · by_cases h3 : b = 100
      · simp [h3]
      · by_cases h4 : b = 108
        · simp [h4]
        · simp [h1, h2, h3, h4]

theorem parseSolution_isSome (t : List Nat) :
    (parseSolution t).isSome = true
      ↔ ∀ b ∈ t, b = 13 ∨ b = 10 ∨ b = 117 ∨ b = 114 ∨ b = 100 ∨ b = 108 := by
  induction t with
  | nil => simp [parseSolution]
  | cons b bs ih =>
    simp only [List.forall_mem_cons, ← ih]
    by_cases hb : b = 13 ∨ b = 10
    · rw [parseSolution, if_pos hb]
      constructor
      · intro h
        exact ⟨by rcases hb with h1 | h1 <;> simp [h1], h⟩
      · exact fun h => h.2
    · rw [parseSolution, if_neg hb]
      have hpc := parseCourse_isSome b
      cases hc : parseCourse b with
      | none =>
        rw [hc] at hpc
        simp only [Option.isSome_none, Bool.false_eq_true, false_iff] at hpc ⊢
        intro h
        rcases h.1 with h1 | h1 | h1
        · exact hb (Or.inl h1)
        · exact hb (Or.inr h1)
        · exact hpc h1
      | some c =>
        rw [hc] at hpc
        have hok := hpc.1 rfl
        cases hs : parseSolution bs with
        | none => simp
        | some cs =>
          simp only [Option.isSome_some, true_iff]
          exact ⟨Or.inr (Or.inr hok), trivial⟩

theorem parseSolution_courses (t : List Nat) (cs : List Course) (h : parseSolution t = some cs) :
    (t.filter (fun b => decide (b ≠ 13 ∧ b ≠ 10))).map parseCourse = cs.map some := by
  induction t generalizing cs with
  | nil =>
    simp only [parseSolution, Option.some.injEq] at h
    subst h
    rfl
  | cons b bs ih =>
    by_cases hb : b = 13 ∨ b = 10
    · rw [parseSolution, if_pos hb] at h
      have hf : decide (b ≠ 13 ∧ b ≠ 10) = false := by
        rcases hb with h1 | h1 <;> simp [h1]
      rw [List.filter_cons, if_neg (by simp [hf])]
      exact ih cs h
    · rw [parseSolution, if_neg hb] at h
      have hf : decide (b ≠ 13 ∧ b ≠ 10) = true := by
        simp only [not_or] at hb
        simp [hb.1, hb.2]
      rw [List.filter_cons, if_pos hf]
      cases hc : parseCourse b with
      | none => simp [hc] at h
      | some c =>
        cases hs : parseSolution bs with
        | none => simp [hc, hs] at h
        | some cs1 =>
          simp only [hc, hs, Option.some.injEq] at h
          subst h
          simp only [List.map_cons, hc, ih cs1 hs]

/-- C12: the solution text parses exactly when each of its bytes is a line
break (`\r`, `\n`) or one of `u`, `r`, `d`, `l`; the courses it parses to
are those of the bytes that are not line breaks, in their order (`u` is
`Up`, `r` is `Right`, `d` is `Down`, `l` is `Left`); `NewLevel` returns a
level only with the parsed solution, returns it whenever the map is valid and
the solution parses, and fails whenever the solution does not parse, as for
a text with the byte `x`. -/
theorem C12_solution_parsing (t : List Nat) :
    ((parseSolution t).isSome = true
        ↔ ∀ b ∈ t, b = 13 ∨ b = 10 ∨ b = 117 ∨ b = 114 ∨ b = 100 ∨ b = 108)
    ∧ (∀ cs, parseSolution t = some cs →
        (t.filter (fun b => decide (b ≠ 13 ∧ b ≠ 10))).map parseCourse = cs.map some)
    ∧ (parseCourse 117 = some .Up ∧ parseCourse 114 = some .Right
        ∧ parseCourse 100 = some .Down ∧ parseCourse 108 = some .Left)
    ∧ (∀ mapText l0, NewLevel mapText t = .ok l0 → parseSolution t = some l0.Solution)
    ∧ (∀ mapText cs, (builtLevel mapText).isValid = true → parseSolution t = some cs →
        NewLevel mapText t = .ok { builtLevel mapText with Solution := cs })
    ∧ (∀ mapText, parseSolution t = none → ∃ e, NewLevel mapText t = .error e)
    ∧ NewLevel rowMap (bytes "rxl") = .error .invalidSolution := by
  refine ⟨parseSolution_isSome t, parseSolution_courses t, ⟨rfl, rfl, rfl, rfl⟩, ?_, ?_, ?_,
    rfl⟩
  · intro mapText l0 h
    simp only [NewLevel] at h
    split at h
    · exact absurd h (by simp)
    · split at h
      · exact absurd h (by simp)
      · rename_i cs hcs
        cases Except.ok.inj h
        exact hcs
  · intro mapText cs hv hp
    simp only [builtLevel] at hv
    simp only [NewLevel, hv, hp, builtLevel]
    rfl
  · intro mapText hp
    simp only [NewLevel, hp]
    split
    · exact ⟨_, rfl⟩
    · exact ⟨_, rfl⟩

/-! ## The moves as text -/

theorem moves_foldl (ms : List move) (acc : List Nat) :
    ms.foldl (fun s m => s ++ m.course.String) acc
      = acc ++ (ms.map (fun m => m.course)).flatMap Course.String := by
  induction ms generalizing acc with
  | nil => simp
  | cons m ms ih =>
    rw [List.foldl_cons, ih]
    simp [List.flatMap_cons, List.append_assoc]

theorem course_string (c : Course) : ∃ b, c.String = [b] ∧ parseCourse b = some c
    ∧ b ≠ 13 ∧ b ≠ 10 := by
  cases c
  · exact ⟨117, rfl, rfl, by decide, by decide⟩
  · exact ⟨114, rfl, rfl, by decide, by decide⟩
  · exact ⟨100, rfl, rfl, by decide, by decide⟩
  · exact ⟨108, rfl, rfl, by decide, by decide⟩

theorem parseSolution_strings (cs : List Course) :
    parseSolution (cs.flatMap Course.String) = some cs := by
  induction cs with
  | nil => rfl
  | cons c cs ih =>
    obtain ⟨b, hb, hp, h13, h10⟩ := course_string c
    have hnb : ¬ (b = 13 ∨ b = 10) := fun h => h.elim h13 h10
    rw [List.flatMap_cons, hb, List.singleton_append, parseSolution, if_neg hnb, hp, ih]

theorem strings_length (cs : List Course) :
    (cs.flatMap Course.String).length = cs.length := by
  induction cs with
  | nil => rfl
  | cons c cs ih =>
    rw [List.flatMap_cons, List.length_append, ih]
    cases c <;> simp [Course.String] <;> omega

/-- C17: `Moves` is the concatenation, in order, of the one-byte codes of the
recorded courses (`u`, `r`, `d`, `l`), so it is as long as `MoveCount`; the
solution parser accepts it and returns the recorded courses (`parseCourse`
inverts `Course.String`); and it is what `PrintSolution` writes on a
completed level, which writes nothing otherwise. -/
theorem C17_moves_text (l : Level) :
    l.Moves = (l.moves.map (fun m => m.course)).flatMap Course.String
    ∧ l.Moves.length = l.MoveCount
    ∧ parseSolution l.Moves = some (l.moves.map (fun m => m.course))
    ∧ (∀ c : Course, ∃ b, c.String = [b] ∧ parseCourse b = some c)
    ∧ (Course.Up.String = bytes "u" ∧ Course.Right.String = bytes "r"
        ∧ Course.Down.String = bytes "d" ∧ Course.Left.String = bytes "l")
    ∧ (l.Completed = true → l.PrintSolution = some l.Moves)
    ∧ (l.Completed = false → l.PrintSolution = none) := by
  have hm : l.Moves = (l.moves.map (fun m => m.course)).flatMap Course.String := by
    unfold Level.Moves
    rw [moves_foldl]
    rfl
  refine ⟨hm, ?_, ?_, ?_, ⟨by decide, by decide, by decide, by decide⟩, ?_, ?_⟩
  · rw [hm, strings_length, List.length_map]
    rfl
  · rw [hm]
    exact parseSolution_strings _
  · intro c
    obtain ⟨b, hb, hp, _⟩ := course_string c
    exact ⟨b, hb, hp⟩
  · intro h
    simp [Level.PrintSolution, h]
  · intro h
    simp [Level.PrintSolution, h]

/-! ## Lines and indentation -/

theorem splitLines_ne_nil (s : List Nat) : splitLines s ≠ [] := by
  cases s with
  | nil => simp [splitLines]
  | cons b bs =>
    rw [splitLines]
    split
    · simp
    · split <;> simp

theorem splitLines_no_break (s : List Nat) : ∀ line ∈ splitLines s, 10 ∉ line := by
  induction s with
  | nil => simp [splitLines]
  | cons b bs ih =>
    intro line hl
    rw [splitLines] at hl
    by_cases hb : b = 10
    · rw [if_pos hb] at hl
      rcases List.mem_cons.1 hl with h | h
      · rw [h]; simp
      · exact ih line h
    · rw [if_neg hb] at hl
      cases hs : splitLines bs with
      | nil => exact absurd hs (splitLines_ne_nil bs)
      | cons x xs =>
        rw [hs] at hl ih
        rcases List.mem_cons.1 hl with h | h
        · rw [h]
          intro hm
          rcases List.mem_cons.1 hm with h1 | h1
          · exact hb h1.symm
          · exact ih x (List.mem_cons_self _ _) h1
        · exact ih line (List.mem_cons_of_mem _ h)

theorem splitLines_line (x : List Nat) (hx : 10 ∉ x) : splitLines x = [x] := by
  induction x with
  | nil => rfl
  | cons b bs ih =>
    have hb : ¬ b = 10 := fun h => hx (by rw [h]; exact List.mem_cons_self _ _)
    have hbs : 10 ∉ bs := fun h => hx (List.mem_cons_of_mem _ h)
    rw [splitLines, if_neg hb, ih hbs]

theorem splitLines_append (x rest : List Nat) (hx : 10 ∉ x) :
    splitLines (x ++ 10 :: rest) = x :: splitLines rest := by
  induction x with
  | nil => simp [splitLines]
  | cons b bs ih =>
    have hb : ¬ b = 10 := fun h => hx (by rw [h]; exact List.mem_cons_self _ _)
    have hbs : 10 ∉ bs := fun h => hx (List.mem_cons_of_mem _ h)
    rw [List.cons_append, splitLines, if_neg hb, ih hbs]

theorem joinLines_splitLines (s : List Nat) : joinLines (splitLines s) = s := by
  induction s with
  | nil => rfl
  | cons b bs ih =>
    rw [splitLines]
    by_cases hb : b = 10
    · rw [if_pos hb]
      cases hs : splitLines bs with
      | nil => exact absurd hs (splitLines_ne_nil bs)
      | cons x xs =>
        rw [hs] at ih
        rw [joinLines, ih, hb]
        rfl
    · rw [if_neg hb]
      cases hs : splitLines bs with
      | nil => exact absurd hs (splitLines_ne_nil bs)
      | cons x xs =>
        rw [hs] at ih
        cases xs with
        | nil =>
          simp only [joinLines] at ih ⊢
          rw [ih]
        | cons y ys =>
          simp only [joinLines] at ih ⊢
          rw [← ih]
          rfl

theorem splitLines_joinLines (ls : List (List Nat)) (hne : ls ≠ [])
    (hl : ∀ line ∈ ls, 10 ∉ line) : splitLines (joinLines ls) = ls := by
  induction ls with
  | nil => exact absurd rfl hne
  | cons x xs ih =>
    cases xs with
    | nil =>
      rw [joinLines]
      exact splitLines_line x (hl x (List.mem_cons_self _ _))
    | cons y ys =>
      rw [joinLines, splitLines_append x _ (hl x (List.mem_cons_self _ _)),
        ih (by simp) (fun line h => hl line (List.mem_cons_of_mem _ h))]

/-- C18: `Indent s n` has the lines of `s`, as many as `s` has, each with
`max n 0` spaces in front; with `n` not positive it is `s` itself. -/
theorem C18_indent_lines (s : List Nat) (n : Int) :
    splitLines (Indent s n)
        = (splitLines s).map (fun line => List.replicate (max n 0).toNat 32 ++ line)
    ∧ (splitLines (Indent s n)).length = (splitLines s).length
    ∧ (n ≤ 0 → Indent s n = s) := by
  have hmax : (max n 0).toNat = n.toNat := by
    rcases le_total n 0 with h | h
    · rw [max_eq_right h]
      simp [Int.toNat_eq_zero.2 h]
    · rw [max_eq_left h]
  have h1 : splitLines (Indent s n)
      = (splitLines s).map (fun line => List.replicate (max n 0).toNat 32 ++ line) := by
    rw [hmax]
    unfold Indent
    apply splitLines_joinLines
    · simpa using splitLines_ne_nil s
    · intro line hline
      simp only [List.mem_map] at hline
      obtain ⟨x, hx, hxe⟩ := hline
      rw [← hxe]
      intro hm
      rcases List.mem_append.1 hm with h | h
      · have := (List.mem_replicate.1 h).2
        omega
      · exact splitLines_no_break s x hx h
  refine ⟨h1, by rw [h1, List.length_map], ?_⟩
  intro hn
  unfold Indent
  have h0 : n.toNat = 0 := Int.toNat_eq_zero.2 hn
  rw [h0]
  simp only [List.replicate_zero, List.nil_append, List.map_id']
  exact joinLines_splitLines s

/-! ## The grid of a map text -/

theorem trimLines_eq (ls : List (List Nat)) :
    trimLines ls = (ls.filter (fun line => !blankLine line),
      maxLength (ls.filter (fun line => !blankLine line))) := by
  induction ls with
  | nil => rfl
  | cons line rest ih =>
    rw [trimLines]
    by_cases hb : blankLine line = true
    · simp only [hb, if_true, ih]
      rw [List.filter_cons, if_neg (by simp [hb])]
    · have hb1 : blankLine line = false := by simpa using hb
      have hb2 : (!blankLine line) = true := by simp [hb1]
      rw [if_neg hb, ih, List.filter_cons, if_pos hb2]
      simp only [maxLength, List.map_cons, List.foldr_cons, Prod.mk.injEq, true_and]
      by_cases h : List.foldr max 0 (List.map List.length
          (List.filter (fun line => !blankLine line) rest)) < line.length
      · rw [if_pos h]
        exact (max_eq_left (le_of_lt h)).symm
      · rw [if_neg h]
        exact (max_eq_right (not_lt.1 h)).symm

theorem builtLevel_eq (mapText : List Nat) :
    builtLevel mapText = mkLevel (keptLines mapText) (maxLength (keptLines mapText)) := by
  unfold builtLevel keptLines
  rw [trimLines_eq]

theorem kindOfSymbol_free (b : Nat)
    (h : b ≠ 35 ∧ b ≠ 46 ∧ b ≠ 36 ∧ b ≠ 42 ∧ b ≠ 64 ∧ b ≠ 43) : kindOfSymbol b = .free := by
  obtain ⟨h1, h2, h3, h4, h5, h6⟩ := h
  simp [kindOfSymbol, h1, h2, h3, h4, h5, h6]

/-- C13: the level `NewLevel` builds from a map text has the greatest length
of a kept line (a line that is not white space only) as width and the number
of kept lines as height; its fields are keyed without repetition, and there
is a field at `(c, r)` exactly for `0 ≤ c < width` and `0 ≤ r < height`; the
kind of that field is the kind of byte `c` of kept line `r` (`#` brick, `.`
target, `$` box, `*` box on target, `@` player, `+` player on target, any
other byte free), and free when the line is too short; the player position
is the key of the field of a player kind when there is exactly one; and a
level `NewLevel` returns is this level, with exactly one such field. -/
theorem C13_built_grid (mapText : List Nat) :
    (builtLevel mapText).width = (maxLength (keptLines mapText) : Int)
    ∧ (builtLevel mapText).height = ((keptLines mapText).length : Int)
    ∧ Keyed (builtLevel mapText).fields
    ∧ (∀ c r : Int, ((builtLevel mapText).lookup c r).isSome = true
        ↔ (0 ≤ c ∧ c < (builtLevel mapText).width ∧ 0 ≤ r ∧ r < (builtLevel mapText).height))
    ∧ (∀ c r : Nat, c < maxLength (keptLines mapText) → r < (keptLines mapText).length →
        ∃ f, (builtLevel mapText).lookup (c : Int) (r : Int) = some f
          ∧ f.kind = (if c < ((keptLines mapText).getD r []).length then
                kindOfSymbol (((keptLines mapText).getD r []).getD c 0)
              else .free)
          ∧ f.curr = resetCurr f.kind
          ∧ f.pos = (r : Int) * (builtLevel mapText).width + (c : Int))
    ∧ (kindOfSymbol 35 = .brick ∧ kindOfSymbol 46 = .target ∧ kindOfSymbol 36 = .box
        ∧ kindOfSymbol 42 = .boxOnTarget ∧ kindOfSymbol 64 = .player
        ∧ kindOfSymbol 43 = .playerOnTarget
        ∧ ∀ b, (b ≠ 35 ∧ b ≠ 46 ∧ b ≠ 36 ∧ b ≠ 42 ∧ b ≠ 64 ∧ b ≠ 43) → kindOfSymbol b = .free)
    ∧ ((builtLevel mapText).fields.countP (fun e => isPlayerKind e.2.kind) = 1 →
        ∀ e ∈ (builtLevel mapText).fields, isPlayerKind e.2.kind = true →
          (builtLevel mapText).PlayerPosition = e.1)
    ∧ (∀ solutionText l0, NewLevel mapText solutionText = .ok l0 →
        l0 = { builtLevel mapText with Solution := l0.Solution }
          ∧ (builtLevel mapText).fields.countP (fun e => isPlayerKind e.2.kind) = 1) := by
  have hb := builtLevel_eq mapText
  have hfields : (builtLevel mapText).fields
      = buildRows (maxLength (keptLines mapText)) 0 (keptLines mapText) := by rw [hb]; rfl
  have hw : (builtLevel mapText).width = (maxLength (keptLines mapText) : Int) := by rw [hb]; rfl
  have hh : (builtLevel mapText).height = ((keptLines mapText).length : Int) := by rw [hb]; rfl
  refine ⟨hw, hh, ?_, ?_, ?_, ⟨rfl, rfl, rfl, rfl, rfl, rfl, kindOfSymbol_free⟩, ?_, ?_⟩
  · rw [hfields]
    intro e he
    exact mem_buildRows _ _ 0 e he
  · intro c r
    simp only [Level.lookup, hfields, hw, hh, lookupField_buildRows, Nat.cast_zero, zero_add]
    split
    · rename_i h
      simp [h.1, h.2.1, h.2.2.1, h.2.2.2]
    · rename_i h
      simp only [Option.isSome_none, Bool.false_eq_true, false_iff]
      exact h
  · intro c r hc hr
    have hcond : 0 ≤ (c : Int) ∧ (c : Int) < (maxLength (keptLines mapText) : Int)
        ∧ ((0 : Nat) : Int) ≤ (r : Int)
        ∧ (r : Int) < ((0 : Nat) : Int) + ((keptLines mapText).length : Int) := by
      refine ⟨by omega, by omega, by omega, by omega⟩
    refine ⟨newField (((keptLines mapText).getD ((r : Int) - ((0 : Nat) : Int)).toNat []).getD
        (c : Int).toNat 32) ((r : Int) * (maxLength (keptLines mapText) : Int) + (c : Int)),
      ?_, ?_, rfl, ?_⟩
    · simp only [Level.lookup, hfields, lookupField_buildRows]
      rw [if_pos hcond]
    · simp only [Nat.cast_zero, sub_zero, Int.toNat_ofNat, newField, field.reset]
      split
      · rename_i h
        congr 1
        rw [List.getD_eq_getElem _ _ h, List.getD_eq_getElem _ _ h]
      · rename_i h
        rw [List.getD_eq_default _ _ (not_lt.1 h)]
        rfl
    · simp only [newField, field.reset, hw]
  · intro hcnt e he hk
    have := playerScan_unique (builtLevel mapText).fields (0, 0) hcnt e he hk
    rw [← this, hb]
    rfl
  · intro solutionText l0 h0
    simp only [NewLevel] at h0
    split at h0
    · exact absurd h0 (by simp)
    · rename_i hv
      split at h0
      · exact absurd h0 (by simp)
      · cases Except.ok.inj h0
        refine ⟨rfl, ?_⟩
        exact isValid_player_count _ (by simpa [builtLevel] using hv)

/-! ## ASCII text -/

theorem utf8_ascii (ch : Char) (h : ch.toNat < 128) :
    (String.utf8EncodeChar ch).map UInt8.toNat = [ch.toNat] := by
  have h1 : ch.val.toNat ≤ 127 := by
    have : ch.toNat = ch.val.toNat := rfl
    omega
  have h2 : ch.val ≤ 127 := by
    show ch.val.toNat ≤ 127
    exact h1
  rw [String.utf8EncodeChar]
  simp only [h2, if_true, List.map_cons, List.map_nil, List.cons.injEq, and_true]
  show ch.val.toNat % 256 = ch.val.toNat
  omega

theorem bytes_ascii_list (cs : List Char) (h : ∀ ch ∈ cs, ch.toNat < 128) :
    (cs.flatMap String.utf8EncodeChar).map UInt8.toNat = cs.map Char.toNat := by
  induction cs with
  | nil => rfl
  | cons ch rest ih =>
    rw [List.flatMap_cons, List.map_append, utf8_ascii ch (h ch (List.mem_cons_self _ _)),
      ih (fun c hc => h c (List.mem_cons_of_mem _ hc))]
    rfl

/-- The bytes of an ASCII text are its characters. -/
theorem bytes_ascii (s : String) (h : ∀ ch ∈ s.toList, ch.toNat < 128) :
    bytes s = s.toList.map Char.toNat :=
  bytes_ascii_list s.toList h

/-! ## What validation accepts -/

theorem scanUp_of_first (g : Int → Option field) (n : Nat) (i : Int)
    (h : ∀ j : Nat, j < n → ∀ f, g (i + j) = some f → f.kind ≠ .free →
      (∀ k : Nat, k < j → ∀ f1, g (i + k) = some f1 → f1.kind = .free) → f.kind = .brick) :
    scanUp g i n = true := by
  induction n generalizing i with
  | zero => rfl
  | succ n ih =>
    have hrest : (∀ f, g i = some f → f.kind = .free) → scanUp g (i + 1) n = true := by
      intro h0
      apply ih
      intro j hj f hf hnf hbefore
      refine h (j + 1) (by omega) f (by rw [← hf]; congr 1; push_cast; ring) hnf ?_
      intro k hk f1 hf1
      cases k with
      | zero => exact h0 f1 (by simpa using hf1)
      | succ k =>
        refine hbefore k (by omega) f1 ?_
        rw [← hf1]; congr 1; push_cast; ring
    rw [scanUp]
    cases hg : g i with
    | none => exact hrest (fun f hf => by rw [hg] at hf; exact absurd hf (by simp))
    | some f =>
      by_cases hfree : f.kind = .free
      · simp only [hfree, if_true]
        exact hrest (fun f1 hf1 => by rw [hg] at hf1; cases Option.some.inj hf1; exact hfree)
      · have hb := h 0 (by omega) f (by simpa using hg) hfree (fun k hk => by omega)
        simp [hb]

theorem scanDown_of_first (g : Int → Option field) (n : Nat)
    (h : ∀ j : Nat, j < n → ∀ f, g j = some f → f.kind ≠ .free →
      (∀ k : Nat, j < k → k < n → ∀ f1, g k = some f1 → f1.kind = .free) → f.kind = .brick) :
    scanDown g n = true := by
  induction n with
  | zero => rfl
  | succ n ih =>
    have hrest : (∀ f, g n = some f → f.kind = .free) → scanDown g n = true := by
      intro h0
      apply ih
      intro j hj f hf hnf hafter
      refine h j (by omega) f hf hnf ?_
      intro k hk1 hk2 f1 hf1
      by_cases hkn : k = n
      · subst hkn; exact h0 f1 hf1
      · exact hafter k hk1 (by omega) f1 hf1
    rw [scanDown]
    cases hg : g n with
    | none => exact hrest (fun f hf => by rw [hg] at hf; exact absurd hf (by simp))
    | some f =>
      by_cases hfree : f.kind = .free
      · simp only [hfree, if_true]
        exact hrest (fun f1 hf1 => by rw [hg] at hf1; cases Option.some.inj hf1; exact hfree)
      · have hb := h n (by omega) f hg hfree (fun k hk1 hk2 => by omega)
        simp [hb]

/-- The enclosure invariant makes every scan of `isValid` succeed. -/
theorem scansOk_of_enclosed (l : Level) (h : l.Enclosed) : l.scansOk := by
  constructor
  · intro c hc
    have hc1 : (c : Int) < l.width := by omega
    constructor
    · apply scanUp_of_first
      intro j hj f hf hnf hbefore
      simp only [zero_add] at hf
      refine (h c j f (by omega) hc1 (by omega) (by omega) hf hnf).1 ?_
      intro r1 f1 h1 h2 hf1
      refine hbefore r1.toNat (by omega) f1 ?_
      simp only [zero_add]
      rw [Int.toNat_of_nonneg h1]
      exact hf1
    · apply scanDown_of_first
      intro j hj f hf hnf hafter
      refine (h c j f (by omega) hc1 (by omega) (by omega) hf hnf).2.1 ?_
      intro r1 f1 h1 h2 hf1
      refine hafter r1.toNat (by omega) (by omega) f1 ?_
      rw [Int.toNat_of_nonneg (by omega)]
      exact hf1
  · intro r hr
    have hr1 : (r : Int) < l.height := by omega
    constructor
    · apply scanUp_of_first
      intro j hj f hf hnf hbefore
      simp only [zero_add] at hf
      refine (h j r f (by omega) (by omega) (by omega) hr1 hf hnf).2.2.1 ?_
      intro c1 f1 h1 h2 hf1
      refine hbefore c1.toNat (by omega) f1 ?_
      simp only [zero_add]
      rw [Int.toNat_of_nonneg h1]
      exact hf1
    · apply scanDown_of_first
      intro j hj f hf hnf hafter
      refine (h j r f (by omega) (by omega) (by omega) hr1 hf hnf).2.2.2 ?_
      intro c1 f1 h1 h2 hf1
      refine hafter c1.toNat (by omega) (by omega) f1 ?_
      rw [Int.toNat_of_nonneg (by omega)]
      exact hf1

/-- Scans that all succeed give the enclosure invariant. -/
theorem enclosed_of_scansOk (l : Level) (h : l.scansOk) : l.Enclosed := by
  obtain ⟨hcol, hrow⟩ := h
  intro c r f hc0 hc1 hr0 hr1 hf hnf
  have hcn : c.toNat < l.width.toNat := by omega
  have hrn : r.toNat < l.height.toNat := by omega
  have hcc : ((c.toNat : Nat) : Int) = c := Int.toNat_of_nonneg hc0
  have hrr : ((r.toNat : Nat) : Int) = r := Int.toNat_of_nonneg hr0
  obtain ⟨hcu, hcd⟩ := hcol c.toNat hcn
  obtain ⟨hru, hrd⟩ := hrow r.toNat hrn
  rw [hcc] at hcu hcd
  rw [hrr] at hru hrd
  refine ⟨fun hb => ?_, fun hb => ?_, fun hb => ?_, fun hb => ?_⟩
  · refine scanUp_first _ _ 0 hcu r.toNat hrn f (by simpa [hrr] using hf) hnf ?_
    intro k hk f1 hf1
    exact hb k f1 (by omega) (by omega) (by simpa using hf1)
  · refine scanDown_first _ _ hcd r.toNat hrn f (by simpa [hrr] using hf) hnf ?_
    intro k hk1 hk2 f1 hf1
    exact hb k f1 (by omega) (by omega) hf1
  · refine scanUp_first _ _ 0 hru c.toNat hcn f (by simpa [hcc] using hf) hnf ?_
    intro k hk f1 hf1
    exact hb k f1 (by omega) (by omega) (by simpa using hf1)
  · refine scanDown_first _ _ hrd c.toNat hcn f (by simpa [hcc] using hf) hnf ?_
    intro k hk1 hk2 f1 hf1
    exact hb k f1 (by omega) (by omega) hf1

/-- C14, amended: a level with exactly one field of a player kind, with at
least one field of kind `box`, with as many fields of kind `box` and
`boxOnTarget` as fields of a target kind, and enclosed, is accepted by
`isValid`. -/
theorem C14_valid_of_invariants (l : Level)
    (h1 : l.fields.countP (fun e => isPlayerKind e.2.kind) = 1)
    (h2 : l.fields.countP (fun e => decide (e.2.kind = .box))
        + l.fields.countP (fun e => decide (e.2.kind = .boxOnTarget))
        = l.fields.countP (fun e => e.2.kind.isTarget))
    (h3 : 1 ≤ l.fields.countP (fun e => decide (e.2.kind = .box)))
    (h4 : l.Enclosed) : l.isValid = true := by
  obtain ⟨hcol, hrow⟩ := scansOk_of_enclosed l h4
  rw [countP_isTarget] at h2
  have hcounts : ¬ ((countKinds l.fields { targetCnt := 0, boxCnt := 0, playerCnt := 0 }).boxCnt = 0
      ∨ (countKinds l.fields { targetCnt := 0, boxCnt := 0, playerCnt := 0 }).boxCnt
          ≠ (countKinds l.fields { targetCnt := 0, boxCnt := 0, playerCnt := 0 }).targetCnt
      ∨ (countKinds l.fields { targetCnt := 0, boxCnt := 0, playerCnt := 0 }).playerCnt ≠ 1) := by
    rw [countKinds_eq]
    simp only [zero_add]
    omega
  simp only [Level.isValid]
  rw [if_neg hcounts]
  simp only [Bool.and_eq_true, List.all_eq_true, List.mem_range]
  exact ⟨hcol, hrow⟩

/-- C14, as stated, fails: the level of `starMap`, whose only box stands on
its target, has exactly one player field, one box in all for one target
field, and is enclosed, and `isValid` rejects it: its count of boxes leaves
out the kind `boxOnTarget`. -/
theorem C14_rejects_box_on_target :
    (builtLevel starMap).fields.countP (fun e => isPlayerKind e.2.kind) = 1
    ∧ (builtLevel starMap).fields.countP (fun e => decide (e.2.kind = .box))
        + (builtLevel starMap).fields.countP (fun e => decide (e.2.kind = .boxOnTarget))
        = (builtLevel starMap).fields.countP (fun e => e.2.kind.isTarget)
    ∧ 1 ≤ (builtLevel starMap).fields.countP (fun e => decide (e.2.kind = .box))
        + (builtLevel starMap).fields.countP (fun e => decide (e.2.kind = .boxOnTarget))
    ∧ (builtLevel starMap).Enclosed
    ∧ (builtLevel starMap).isValid = false
    ∧ NewLevel starMap (bytes "") = .error .invalidLevel :=
  ⟨by decide, by decide, by decide, enclosed_of_scansOk _ (by decide), by decide, rfl⟩

/-- Witness of the amended C14: the example level. -/
theorem C14_valid_of_invariants_witness :
    rowLevel.fields.countP (fun e => isPlayerKind e.2.kind) = 1
    ∧ rowLevel.fields.countP (fun e => decide (e.2.kind = .box))
        + rowLevel.fields.countP (fun e => decide (e.2.kind = .boxOnTarget))
        = rowLevel.fields.countP (fun e => e.2.kind.isTarget)
    ∧ 1 ≤ rowLevel.fields.countP (fun e => decide (e.2.kind = .box))
    ∧ rowLevel.Enclosed
    ∧ rowLevel.isValid = true :=
  ⟨by decide, by decide, by decide, enclosed_of_scansOk _ (by decide),
    C14_valid_of_invariants rowLevel (by decide) (by decide) (by decide) (enclosed_of_scansOk _ (by decide))⟩

/-! ## The footer of `String` -/

theorem digitChar_digit (d : Nat) (h : d < 10) :
    48 ≤ (Nat.digitChar d).toNat ∧ (Nat.digitChar d).toNat ≤ 57 := by
  interval_cases d <;> decide

theorem toDigitsCore_digit (fuel n : Nat) (ds : List Char)
    (h : ∀ ch ∈ ds, 48 ≤ ch.toNat ∧ ch.toNat ≤ 57) :
    ∀ ch ∈ Nat.toDigitsCore 10 fuel n ds, 48 ≤ ch.toNat ∧ ch.toNat ≤ 57 := by
  induction fuel generalizing n ds with
  | zero => simpa [Nat.toDigitsCore] using h
  | succ fuel ih =>
    have hd := digitChar_digit (n % 10) (Nat.mod_lt _ (by decide))
    have hcons : ∀ ch ∈ Nat.digitChar (n % 10) :: ds, 48 ≤ ch.toNat ∧ ch.toNat ≤ 57 := by
      intro ch hch
      rcases List.mem_cons.1 hch with h1 | h1
      · rw [h1]; exact hd
      · exact h ch h1
    rw [Nat.toDigitsCore]
    split
    · exact hcons
    · exact ih _ _ hcons

/-- The decimal digits of a number are bytes from `0` to `9`. -/
theorem decimal_digit (n : Nat) : ∀ b ∈ decimal n, 48 ≤ b ∧ b ≤ 57 := by
  intro b hb
  simp only [decimal, List.mem_map] at hb
  obtain ⟨ch, hch, hbe⟩ := hb
  rw [← hbe]
  exact toDigitsCore_digit _ _ [] (by simp) ch hch

/-- `Indent` puts the spaces in front of a text without line break. -/
theorem indent_line (line : List Nat) (n : Int) (h : 10 ∉ line) :
    Indent line n = List.replicate n.toNat 32 ++ line := by
  unfold Indent
  rw [splitLines_line line h]
  rfl

theorem footer_no_break (pre : List Nat) (n : Nat) (hpre : 10 ∉ pre) :
    10 ∉ pre ++ decimal n ++ bytes " moves" := by
  intro h
  rcases List.mem_append.1 h with h1 | h1
  · rcases List.mem_append.1 h1 with h2 | h2
    · exact hpre h2
    · have := decimal_digit n 10 h2
      omega
  · revert h1
    decide

/-- C20, amended: `String` is the grid part followed by an empty line and the
two footer lines `curr: N moves` (`N` the move count) and `best: M moves`
(`M` the length of the solution), each followed by a line break and both
indented by the same number of spaces: half the difference between the width
and the length of the `best` line, truncated towards zero, and none when that
is negative. -/
theorem C20_footer (l : Level) :
    l.String = l.gridString.map (fun g =>
      g ++ [10, 10]
        ++ List.replicate ((l.width - (l.bestMoves.length : Int)).tdiv 2).toNat 32 ++ l.currMoves
        ++ [10]
        ++ List.replicate ((l.width - (l.bestMoves.length : Int)).tdiv 2).toNat 32 ++ l.bestMoves
        ++ [10])
    ∧ l.currMoves = bytes "curr: " ++ decimal l.MoveCount ++ bytes " moves"
    ∧ l.bestMoves = bytes "best: " ++ decimal l.Solution.length ++ bytes " moves" := by
  refine ⟨?_, rfl, rfl⟩
  have hc : 10 ∉ l.currMoves := footer_no_break _ _ (by decide)
  have hb : 10 ∉ l.bestMoves := footer_no_break _ _ (by decide)
  unfold Level.String
  cases l.gridString with
  | none => rfl
  | some g =>
    simp only [Option.map_some', indent_line _ _ hc, indent_line _ _ hb, Level.ident,
      List.append_assoc]

/-- C20, as stated, fails: in the level of `wideMap` (width 21, no move made,
a solution of 10 moves) the line `curr: 0 moves` of length 13 is indented by
3 spaces, the indentation of the `best` line of length 14, and not by
`(21 - 13) / 2 = 4`. -/
theorem C20_curr_line_not_centered :
    NewLevel wideMap (bytes "rrrrrrrrrr") = .ok wideLevel
    ∧ wideLevel.width = 21
    ∧ wideLevel.currMoves = bytes "curr: 0 moves" ∧ wideLevel.currMoves.length = 13
    ∧ wideLevel.bestMoves = bytes "best: 10 moves" ∧ wideLevel.bestMoves.length = 14
    ∧ ∃ g, wideLevel.gridString = some g
      ∧ wideLevel.String = some (g ++ [10, 10]
          ++ List.replicate 3 32 ++ bytes "curr: 0 moves" ++ [10]
          ++ List.replicate 3 32 ++ bytes "best: 10 moves" ++ [10])
      ∧ wideLevel.String ≠ some (g ++ [10, 10]
          ++ List.replicate ((21 - 13) / 2) 32 ++ bytes "curr: 0 moves" ++ [10]
          ++ List.replicate ((21 - 14) / 2) 32 ++ bytes "best: 10 moves" ++ [10]) :=
  ⟨rfl, by decide, by decide, by decide, by decide, by decide, _, rfl, by decide, by decide⟩

/-! ## The grid part of `String` -/

theorem keyed_of_nodup (fs : List Entry) (h : (fs.map Prod.fst).Nodup) : Keyed fs := by
  induction fs with
  | nil => intro e he; simp at he
  | cons g gs ih =>
    rw [List.map_cons, List.nodup_cons] at h
    intro e he
    rcases List.mem_cons.1 he with h1 | h1
    · rw [h1]
      simp [lookupField]
    · have hne : ¬ g.1 = (e.1.1, e.1.2) := by
        intro hg
        apply h.1
        rw [hg]
        exact List.mem_map_of_mem Prod.fst h1
      rw [lookupField, if_neg hne]
      exact ih h.2 e h1

/-- Two cells of a row-major grid with the same position are the same cell. -/
theorem pos_unique (w c1 r1 c2 r2 : Int) (h1 : 0 ≤ c1) (h2 : c1 < w) (h3 : 0 ≤ c2)
    (h4 : c2 < w) (h : r1 * w + c1 = r2 * w + c2) : c1 = c2 ∧ r1 = r2 := by
  have hw : 0 < w := by omega
  have e1 : (r1 * w + c1) % w = c1 := by
    rw [add_comm, Int.add_mul_emod_self, Int.emod_eq_of_lt h1 h2]
  have e2 : (r2 * w + c2) % w = c2 := by
    rw [add_comm, Int.add_mul_emod_self, Int.emod_eq_of_lt h3 h4]
  have hc : c1 = c2 := by rw [← e1, ← e2, h]
  refine ⟨hc, ?_⟩
  subst hc
  have : r1 * w = r2 * w := by omega
  exact Int.eq_of_mul_eq_mul_right (by omega) this

/-- The key and the position of an entry of a full grid. -/
theorem fullGrid_entry (l : Level) (hg : l.FullGrid) (e : Entry) (he : e ∈ l.fields) :
    0 ≤ e.1.1 ∧ e.1.1 < l.width ∧ 0 ≤ e.1.2 ∧ e.1.2 < l.height
      ∧ e.2.pos = e.1.2 * l.width + e.1.1 := by
  have hl := keyed_of_nodup _ hg.nodup e he
  have hs : (l.lookup e.1.1 e.1.2).isSome = true := by
    simp only [Level.lookup, hl, Option.isSome_some]
  obtain ⟨a, b, c, d⟩ := (hg.cells _ _).1 hs
  exact ⟨a, b, c, d, hg.positions _ _ _ hl⟩

theorem fullGrid_pos_inj (l : Level) (hg : l.FullGrid) (e1 e2 : Entry) (h1 : e1 ∈ l.fields)
    (h2 : e2 ∈ l.fields) (h : e1.2.pos = e2.2.pos) : e1 = e2 := by
  obtain ⟨a1, b1, _, _, p1⟩ := fullGrid_entry l hg e1 h1
  obtain ⟨a2, b2, _, _, p2⟩ := fullGrid_entry l hg e2 h2
  rw [p1, p2] at h
  obtain ⟨hc, hr⟩ := pos_unique _ _ _ _ _ a1 b1 a2 b2 h
  have hk : e1.1 = e2.1 := Prod.ext hc hr
  have l1 := keyed_of_nodup _ hg.nodup e1 h1
  have l2 := keyed_of_nodup _ hg.nodup e2 h2
  rw [hc, hr, l2] at l1
  exact Prod.ext hk (Option.some.inj l1).symm

/-- The field with index `i` of a full grid. -/
theorem fullGrid_cellAt (l : Level) (hg : l.FullGrid) (hw : 1 ≤ l.width) (i : Nat)
    (hi : i < l.height.toNat * l.width.toNat) :
    l.lookup ((i % l.width.toNat : Nat) : Int) ((i / l.width.toNat : Nat) : Int)
        = some (l.cellAt i)
      ∧ (l.cellAt i).pos = (i : Int)
      ∧ i % l.width.toNat < l.width.toNat ∧ i / l.width.toNat < l.height.toNat := by
  have hW : 0 < l.width.toNat := by omega
  have hc : i % l.width.toNat < l.width.toNat := Nat.mod_lt _ hW
  have hr : i / l.width.toNat < l.height.toNat := by
    rw [Nat.div_lt_iff_lt_mul hW]; exact hi
  have hs : (l.lookup ((i % l.width.toNat : Nat) : Int)
      ((i / l.width.toNat : Nat) : Int)).isSome = true := by
    rw [hg.cells]
    have h1 : ((i % l.width.toNat : Nat) : Int) < (l.width.toNat : Int) := Int.ofNat_lt.2 hc
    have h2 : ((l.width.toNat : Nat) : Int) = l.width := Int.toNat_of_nonneg (by omega)
    have h3 : ((i / l.width.toNat : Nat) : Int) < (l.height.toNat : Int) := Int.ofNat_lt.2 hr
    have h4 : ((l.height.toNat : Nat) : Int) = l.height := by
      apply Int.toNat_of_nonneg
      by_contra hneg
      have hz : l.height.toNat = 0 := Int.toNat_eq_zero.2 (le_of_lt (not_le.1 hneg))
      rw [hz] at hr
      exact absurd hr (Nat.not_lt_zero _)
    exact ⟨Int.ofNat_nonneg _, lt_of_lt_of_le h1 (le_of_eq h2), Int.ofNat_nonneg _,
      lt_of_lt_of_le h3 (le_of_eq h4)⟩
  obtain ⟨f, hf⟩ := Option.isSome_iff_exists.1 hs
  have hcell : l.cellAt i = f := by
    unfold Level.cellAt
    rw [hf]
    rfl
  refine ⟨by rw [hcell]; exact hf, ?_, hc, hr⟩
  rw [hcell, hg.positions _ _ _ hf, Level.pos]
  have hwi : l.width = (l.width.toNat : Int) := (Int.toNat_of_nonneg (by omega)).symm
  have := Nat.div_add_mod i l.width.toNat
  rw [hwi]
  have h2 : ((i / l.width.toNat : Nat) : Int) * ((l.width.toNat : Nat) : Int)
      + ((i % l.width.toNat : Nat) : Int) = ((l.width.toNat * (i / l.width.toNat)
        + i % l.width.toNat : Nat) : Int) := by
    push_cast; ring
  simp only [Int.toNat_ofNat]
  rw [h2, this]

theorem map_inj_on {α β : Type} (f : α → β) (xs ys : List α) (h : xs.map f = ys.map f)
    (hinj : ∀ a ∈ xs, ∀ b ∈ ys, f a = f b → a = b) : xs = ys := by
  induction xs generalizing ys with
  | nil =>
    cases ys with
    | nil => rfl
    | cons y ys => simp at h
  | cons x xs ih =>
    cases ys with
    | nil => simp at h
    | cons y ys =>
      simp only [List.map_cons, List.cons.injEq] at h
      have hxy := hinj x (List.mem_cons_self _ _) y (List.mem_cons_self _ _) h.1
      rw [hxy, ih ys h.2 (fun a ha b hb =>
        hinj a (List.mem_cons_of_mem _ ha) b (List.mem_cons_of_mem _ hb))]

/-- The sort of `String` puts the fields of a full grid in row-major order. -/
theorem fullGrid_sorted (l : Level) (hg : l.FullGrid) (hw : 1 ≤ l.width) :
    sortFields (l.fields.map Prod.snd)
      = (List.range (l.height.toNat * l.width.toNat)).map l.cellAt := by
  haveI : IsTotal field field.notAfter := ⟨fun a b => le_total a.pos b.pos⟩
  haveI : IsTrans field field.notAfter := ⟨fun a b c h1 h2 => le_trans h1 h2⟩
  have hnd : l.fields.Nodup := List.Nodup.of_map _ hg.nodup
  -- the positions of the fields are the numbers below `height * width`
  have hposnd : (l.fields.map (fun e => e.2.pos)).Nodup :=
    List.Nodup.map_on (fun a ha b hb h => fullGrid_pos_inj l hg a b ha hb h) hnd
  have hmem : ∀ p : Int, p ∈ l.fields.map (fun e => e.2.pos)
      ↔ p ∈ (List.range (l.height.toNat * l.width.toNat)).map (fun i : Nat => (i : Int)) := by
    intro p
    simp only [List.mem_map, List.mem_range]
    constructor
    · rintro ⟨e, he, hp⟩
      obtain ⟨a, b, c, d, hpos⟩ := fullGrid_entry l hg e he
      refine ⟨e.1.2.toNat * l.width.toNat + e.1.1.toNat, ?_, ?_⟩
      · have h1 : e.1.1.toNat < l.width.toNat := by omega
        have h2 : e.1.2.toNat < l.height.toNat := by omega
        calc e.1.2.toNat * l.width.toNat + e.1.1.toNat
            < e.1.2.toNat * l.width.toNat + l.width.toNat := by omega
          _ = (e.1.2.toNat + 1) * l.width.toNat := by ring
          _ ≤ l.height.toNat * l.width.toNat := Nat.mul_le_mul_right _ h2
      · rw [← hp, hpos]
        push_cast
        rw [Int.toNat_of_nonneg a, Int.toNat_of_nonneg c, Int.toNat_of_nonneg (by omega)]
    · rintro ⟨i, hi, hp⟩
      obtain ⟨hl, hpos, _, _⟩ := fullGrid_cellAt l hg hw i hi
      exact ⟨_, lookupField_mem hl, by rw [← hp]; exact hpos⟩
  have hrange_nd : ((List.range (l.height.toNat * l.width.toNat)).map
      (fun i : Nat => (i : Int))).Nodup :=
    List.Nodup.map (fun a b h => Int.ofNat_inj.1 h) (List.nodup_range _)
  have hperm : (l.fields.map (fun e => e.2.pos)).Perm
      ((List.range (l.height.toNat * l.width.toNat)).map (fun i : Nat => (i : Int))) :=
    (List.perm_ext_iff_of_nodup hposnd hrange_nd).2 hmem
  -- the sorted positions
  have hsperm : ((sortFields (l.fields.map Prod.snd)).map (fun f => f.pos)).Perm
      ((List.range (l.height.toNat * l.width.toNat)).map (fun i : Nat => (i : Int))) := by
    refine List.Perm.trans ?_ hperm
    have h1 := (List.perm_insertionSort field.notAfter (l.fields.map Prod.snd)).map
      (fun f => f.pos)
    simpa [sortFields, List.map_map, Function.comp_def] using h1
  have hssorted : ((sortFields (l.fields.map Prod.snd)).map (fun f => f.pos)).Sorted (· ≤ ·) := by
    have h1 := List.sorted_insertionSort field.notAfter (l.fields.map Prod.snd)
    rw [List.Sorted, List.pairwise_map]
    exact h1
  have hrsorted : ((List.range (l.height.toNat * l.width.toNat)).map
      (fun i : Nat => (i : Int))).Sorted (· ≤ ·) := by
    rw [List.Sorted, List.pairwise_map]
    exact (List.pairwise_lt_range _).imp (fun h => by omega)
  have hpos_eq := List.eq_of_perm_of_sorted hsperm hssorted hrsorted
  -- from the positions to the fields
  apply map_inj_on (fun f => f.pos)
  · rw [hpos_eq, List.map_map]
    apply List.map_congr_left
    intro i hi
    exact ((fullGrid_cellAt l hg hw i (List.mem_range.1 hi)).2.1).symm
  · intro a ha b hb hab
    have ha1 : a ∈ l.fields.map Prod.snd :=
      (List.perm_insertionSort field.notAfter _).subset ha
    obtain ⟨ea, hea, hae⟩ := List.mem_map.1 ha1
    obtain ⟨i, hi, hbi⟩ := List.mem_map.1 hb
    obtain ⟨hl, _, _, _⟩ := fullGrid_cellAt l hg hw i (List.mem_range.1 hi)
    have heb := lookupField_mem hl
    rw [hbi] at heb
    have := fullGrid_pos_inj l hg ea _ hea heb (by rw [hae]; exact hab)
    rw [← hae, this]

theorem joinLines_cons (x : List Nat) (xs : List (List Nat)) :
    joinLines (x :: xs) = x ++ xs.flatMap (fun y => 10 :: y) := by
  induction xs generalizing x with
  | nil => simp [joinLines]
  | cons y ys ih =>
    rw [joinLines, ih y]
    simp [List.flatMap_cons]

/-- What the loop of `String` does with the field of index `i` of a full grid. -/
theorem fullGrid_cell_render (l : Level) (hg : l.FullGrid) (hw : 1 ≤ l.width) (i : Nat)
    (hi : i < l.height.toNat * l.width.toNat) :
    (l.cellAt i).col l.width = some ((i % l.width.toNat : Nat) : Int)
      ∧ (l.cellAt i).currSymbol
          = l.symbolAt ((i % l.width.toNat : Nat) : Int) ((i / l.width.toNat : Nat) : Int) := by
  obtain ⟨hl, hpos, _, _⟩ := fullGrid_cellAt l hg hw i hi
  constructor
  · have hwi : l.width = (l.width.toNat : Int) := (Int.toNat_of_nonneg (by omega)).symm
    have hne : ¬ l.width = 0 := by omega
    rw [field.col, if_neg hne, hpos, Int.ofNat_tmod]
    congr 2
  · unfold Level.symbolAt
    rw [hl]

/-- The loop of `String` over the fields `c0`, ..., `c0 + m - 1` of row `r`,
none of them the first of the row. -/
theorem render_row_tail (l : Level) (hg : l.FullGrid) (hw : 1 ≤ l.width) (r : Nat)
    (hr : r < l.height.toNat) (rest : List field) (out : List Nat)
    (hrest : renderLoop l.width true rest = some out) (m c0 : Nat) (h1 : 1 ≤ c0)
    (h2 : c0 + m ≤ l.width.toNat) :
    renderLoop l.width true ((List.range' (r * l.width.toNat + c0) m).map l.cellAt ++ rest)
      = some ((List.range' c0 m).flatMap (fun c => l.symbolAt (c : Int) (r : Int)) ++ out) := by
  induction m generalizing c0 with
  | zero => simpa using hrest
  | succ m ih =>
    have hi : r * l.width.toNat + c0 < l.height.toNat * l.width.toNat := by
      calc r * l.width.toNat + c0 < r * l.width.toNat + l.width.toNat := by omega
        _ = (r + 1) * l.width.toNat := by ring
        _ ≤ l.height.toNat * l.width.toNat := Nat.mul_le_mul_right _ hr
    obtain ⟨hcol, hsym⟩ := fullGrid_cell_render l hg hw _ hi
    have hmod : (r * l.width.toNat + c0) % l.width.toNat = c0 := by
      rw [Nat.add_comm, Nat.add_mul_mod_self_right, Nat.mod_eq_of_lt (by omega)]
    have hdiv : (r * l.width.toNat + c0) / l.width.toNat = r := by
      rw [Nat.add_comm, Nat.add_mul_div_right _ _ (by omega), Nat.div_eq_of_lt (by omega)]
      omega
    rw [hmod] at hcol
    rw [hmod, hdiv] at hsym
    have hc0 : ¬ ((c0 : Int) = 0) := by omega
    have hnext := ih (c0 + 1) (by omega) (by omega)
    rw [← Nat.add_assoc] at hnext
    rw [List.range'_succ, List.map_cons, List.cons_append, renderLoop]
    simp only [if_true, hcol, hc0, if_false, hnext, hsym]
    rw [List.range'_succ, List.flatMap_cons]
    simp [List.append_assoc]

/-- The loop of `String` over row `r` of a full grid. -/
theorem render_row (l : Level) (hg : l.FullGrid) (hw : 1 ≤ l.width) (r : Nat)
    (hr : r < l.height.toNat) (rest : List field) (out : List Nat)
    (hrest : renderLoop l.width true rest = some out) (later : Bool) :
    renderLoop l.width later ((List.range' (r * l.width.toNat) l.width.toNat).map l.cellAt
        ++ rest)
      = some ((if later = true then [10] else []) ++ l.gridRow r ++ out) := by
  obtain ⟨W, hW⟩ : ∃ W, l.width.toNat = W + 1 := ⟨l.width.toNat - 1, by omega⟩
  have hi : r * l.width.toNat < l.height.toNat * l.width.toNat := by
    calc r * l.width.toNat < r * l.width.toNat + l.width.toNat := by omega
      _ = (r + 1) * l.width.toNat := by ring
      _ ≤ l.height.toNat * l.width.toNat := Nat.mul_le_mul_right _ hr
  obtain ⟨hcol, hsym⟩ := fullGrid_cell_render l hg hw _ hi
  have hmod : (r * l.width.toNat) % l.width.toNat = 0 := Nat.mul_mod_left _ _
  have hdiv : (r * l.width.toNat) / l.width.toNat = r := Nat.mul_div_cancel _ (by omega)
  rw [hmod] at hcol
  rw [hmod, hdiv] at hsym
  have htail := render_row_tail l hg hw r hr rest out hrest W 1 (le_refl _) (by omega)
  have hrow : l.gridRow r = l.symbolAt ((0 : Nat) : Int) (r : Int)
      ++ (List.range' 1 W).flatMap (fun c => l.symbolAt (c : Int) (r : Int)) := by
    unfold Level.gridRow
    rw [hW, List.range_eq_range', List.range'_succ, List.flatMap_cons]
  have hhead : ∀ s n : Nat, n = W + 1 → List.range' s n = s :: List.range' (s + 1) W := by
    intro s n hn
    rw [hn, List.range'_succ]
  rw [hhead _ _ hW, List.map_cons, List.cons_append, renderLoop, htail, hrow]
  cases later
  · simp [hsym, List.append_assoc]
  · simp [hcol, hsym, List.append_assoc]

/-- The loop of `String` over the rows `r`, ..., `r + k - 1` of a full grid. -/
theorem render_rows (l : Level) (hg : l.FullGrid) (hw : 1 ≤ l.width) (k r : Nat)
    (hr : r + k ≤ l.height.toNat) (later : Bool) :
    renderLoop l.width later
        ((List.range' (r * l.width.toNat) (k * l.width.toNat)).map l.cellAt)
      = some (if later = true then ((List.range' r k).map l.gridRow).flatMap (fun y => 10 :: y)
          else joinLines ((List.range' r k).map l.gridRow)) := by
  induction k generalizing r later with
  | zero =>
    simp only [Nat.zero_mul, List.range'_zero, List.map_nil, renderLoop, List.flatMap_nil,
      joinLines, ite_self]
  | succ k ih =>
    have hsplit : List.range' (r * l.width.toNat) ((k + 1) * l.width.toNat)
        = List.range' (r * l.width.toNat) l.width.toNat
          ++ List.range' ((r + 1) * l.width.toNat) (k * l.width.toNat) := by
      have h1 : (k + 1) * l.width.toNat = k * l.width.toNat + l.width.toNat := by ring
      have h2 : (r + 1) * l.width.toNat = r * l.width.toNat + l.width.toNat := by ring
      rw [h1, h2, List.range'_append_1]
    have hnext := ih (r + 1) (by omega) true
    simp only [if_true] at hnext
    rw [hsplit, List.map_append, render_row l hg hw r (by omega) _ _ hnext later,
      List.range'_succ, List.map_cons]
    cases later
    · simp [joinLines_cons, List.append_assoc]
    · simp [List.flatMap_cons, List.append_assoc]

theorem mem_buildRows_key (w : Nat) (lines : List (List Nat)) (r0 : Nat) (e : Entry)
    (he : e ∈ buildRows w r0 lines) :
    ∃ c r : Nat, c < w ∧ r0 ≤ r ∧ r < r0 + lines.length ∧ e.1 = ((c : Int), (r : Int)) := by
  induction lines generalizing r0 with
  | nil => simp [buildRows] at he
  | cons line rest ih =>
    simp only [buildRows, List.mem_append] at he
    rcases he with h1 | h1
    · simp only [rowFields, List.mem_map, List.mem_range] at h1
      obtain ⟨c, hc, hce⟩ := h1
      exact ⟨c, r0, hc, le_refl _, by simp, by rw [← hce]⟩
    · obtain ⟨c, r, hc, hr1, hr2, hre⟩ := ih (r0 + 1) h1
      exact ⟨c, r, hc, by omega, by simp only [List.length_cons]; omega, hre⟩

theorem buildRows_nodup (w : Nat) (lines : List (List Nat)) (r0 : Nat) :
    ((buildRows w r0 lines).map Prod.fst).Nodup := by
  induction lines generalizing r0 with
  | nil => simp [buildRows]
  | cons line rest ih =>
    rw [buildRows, List.map_append, List.nodup_append]
    refine ⟨?_, ih (r0 + 1), ?_⟩
    · simp only [rowFields, List.map_map]
      refine List.Nodup.map ?_ (List.nodup_range w)
      intro a b hab
      simp only [Function.comp, Prod.mk.injEq] at hab
      exact Int.ofNat_inj.1 hab.1
    · intro k hk1 hk2
      obtain ⟨e1, he1, hk1e⟩ := List.mem_map.1 hk1
      obtain ⟨e2, he2, hk2e⟩ := List.mem_map.1 hk2
      simp only [rowFields, List.mem_map, List.mem_range] at he1
      obtain ⟨c, _, hce⟩ := he1
      obtain ⟨c2, r2, _, hr1, _, hre⟩ := mem_buildRows_key w rest (r0 + 1) e2 he2
      rw [← hce] at hk1e
      rw [hre] at hk2e
      rw [← hk2e] at hk1e
      have := (Prod.mk.inj hk1e).2
      omega

/-- A level with the shape, width and height of a grid `NewLevel` builds is a
full grid. -/
theorem fullGrid_of_shape (l : Level) (w : Nat) (lines : List (List Nat))
    (hs : shape l.fields = shape (buildRows w 0 lines)) (hw : l.width = (w : Int))
    (hh : l.height = (lines.length : Int)) : l.FullGrid := by
  refine ⟨?_, ?_, ?_⟩
  · have h1 : l.fields.map Prod.fst = (shape l.fields).map Prod.fst := by
      simp [shape, List.map_map, Function.comp_def]
    have h2 : (buildRows w 0 lines).map Prod.fst = (shape (buildRows w 0 lines)).map Prod.fst := by
      simp [shape, List.map_map, Function.comp_def]
    rw [h1, hs, ← h2]
    exact buildRows_nodup w lines 0
  · intro c r
    have hk := shape_lookup_kind hs c r
    have hsome : (l.lookup c r).isSome = (lookupField (buildRows w 0 lines) c r).isSome := by
      have := congrArg Option.isSome hk
      simpa [Level.lookup] using this
    rw [hsome, lookupField_buildRows, hw, hh]
    simp only [Nat.cast_zero, zero_add]
    split
    · rename_i h
      simp [h.1, h.2.1, h.2.2.1, h.2.2.2]
    · rename_i h
      simp only [Option.isSome_none, Bool.false_eq_true, false_iff]
      intro h1
      exact h ⟨h1.1, h1.2.1, h1.2.2.1, h1.2.2.2⟩
  · intro c r f hf
    have hk := shape_lookup_frame hs c r
    have hf1 : lookupField l.fields c r = some f := hf
    rw [hf1, lookupField_buildRows] at hk
    split at hk
    · simp only [Option.map_some', Option.some.injEq, Prod.mk.injEq] at hk
      rw [hk.2, Level.pos, hw]
      rfl
    · simp at hk

/-- Every level reached by calls from a loaded level is a full grid. -/
theorem calls_fullGrid (mapText solutionText : List Nat) (l0 : Level)
    (h0 : NewLevel mapText solutionText = .ok l0) (ks : List Call) (l : Level)
    (hr : l0.calls ks = some l) : l.FullGrid := by
  obtain ⟨lines, w, cs, hl0, _⟩ := NewLevel_ok mapText solutionText l0 h0
  obtain ⟨f1, f2, f3, _⟩ := calls_frame ks l0 l hr
  apply fullGrid_of_shape l w lines
  · rw [f1, hl0]; rfl
  · rw [f2, hl0]; rfl
  · rw [f3, hl0]; rfl

theorem currSymbol_single (f : field) : ∃ b, f.currSymbol = [b] ∧ b ≠ 10 := by
  unfold field.currSymbol
  cases f.curr <;> exact ⟨_, rfl, by decide⟩

theorem flatMap_single (n : Nat) (f : Nat → List Nat) (g : Nat → Nat)
    (h : ∀ c, c < n → f c = [g c]) : (List.range n).flatMap f = (List.range n).map g := by
  induction n with
  | zero => rfl
  | succ n ih =>
    rw [List.range_succ, List.flatMap_append, List.map_append,
      ih (fun c hc => h c (by omega))]
    simp [h n (by omega)]

/-- Row `r` of a full grid is one symbol for each cell of the row. -/
theorem fullGrid_gridRow (l : Level) (hg : l.FullGrid) (hw : 1 ≤ l.width) (r : Nat)
    (hr : r < l.height.toNat) :
    (l.gridRow r).length = l.width.toNat ∧ 10 ∉ l.gridRow r
      ∧ ∀ c : Nat, c < l.width.toNat →
          ∃ f, l.lookup (c : Int) (r : Int) = some f
            ∧ f.currSymbol = [(l.gridRow r).getD c 0] := by
  have hcell : ∀ c : Nat, c < l.width.toNat →
      ∃ f, l.lookup (c : Int) (r : Int) = some f := by
    intro c hc
    have hs : (l.lookup (c : Int) (r : Int)).isSome = true := by
      rw [hg.cells]
      omega
    exact Option.isSome_iff_exists.1 hs
  have hsym : ∀ c : Nat, c < l.width.toNat →
      l.symbolAt (c : Int) (r : Int) = [(l.symbolAt (c : Int) (r : Int)).headD 0] := by
    intro c hc
    obtain ⟨f, hf⟩ := hcell c hc
    obtain ⟨b, hb, _⟩ := currSymbol_single f
    simp [Level.symbolAt, hf, hb]
  have hrow : l.gridRow r
      = (List.range l.width.toNat).map
          (fun c : Nat => (l.symbolAt (c : Int) (r : Int)).headD 0) :=
    flatMap_single _ _ _ hsym
  refine ⟨by rw [hrow]; simp, ?_, ?_⟩
  · rw [hrow]
    intro hm
    obtain ⟨c, hc, hce⟩ := List.mem_map.1 hm
    obtain ⟨f, hf⟩ := hcell c (List.mem_range.1 hc)
    obtain ⟨b, hb, hb10⟩ := currSymbol_single f
    simp [Level.symbolAt, hf, hb] at hce
    exact hb10 hce
  · intro c hc
    obtain ⟨f, hf⟩ := hcell c hc
    refine ⟨f, hf, ?_⟩
    obtain ⟨b, hb, _⟩ := currSymbol_single f
    rw [hrow, List.getD_eq_getElem _ _ (by simpa using hc)]
    simp [Level.symbolAt, hf, hb]

/-- C19: on a full grid at least one field wide, `String` returns, and the
part of it before the footer is the lines of the grid joined by single line breaks: as many
lines as the height, each of as many symbols as the width and without a line
break of its own, the symbol at line `r`, column `c` being the symbol of the
occupant of the cell `(c, r)`: `#` for a brick, `.` for an empty target, `$`
for a box, a blank for a free cell and `@` for the player. -/
theorem C19_grid_string (l : Level) (hg : l.FullGrid) (hw : 1 ≤ l.width) :
    l.gridString = some (joinLines l.gridRows)
    ∧ l.String = some (joinLines l.gridRows ++ [10, 10] ++ Indent l.currMoves l.ident ++ [10]
        ++ Indent l.bestMoves l.ident ++ [10])
    ∧ l.gridRows.length = l.height.toNat
    ∧ (0 < l.height → splitLines (joinLines l.gridRows) = l.gridRows)
    ∧ (∀ r : Nat, r < l.height.toNat →
        l.gridRows.getD r [] = l.gridRow r
        ∧ (l.gridRow r).length = l.width.toNat ∧ 10 ∉ l.gridRow r
        ∧ ∀ c : Nat, c < l.width.toNat →
            ∃ f, l.lookup (c : Int) (r : Int) = some f
              ∧ f.currSymbol = [(l.gridRow r).getD c 0])
    ∧ (∀ f : field,
        (f.curr = .brick → f.currSymbol = bytes "#")
        ∧ (f.curr = .target → f.currSymbol = bytes ".")
        ∧ (f.curr = .box → f.currSymbol = bytes "$")
        ∧ (f.curr = .free → f.currSymbol = bytes " ")
        ∧ (f.curr = .player → f.currSymbol = bytes "@")) := by
  have hrows := render_rows l hg hw l.height.toNat 0 (by omega) false
  simp only [Nat.zero_mul, Bool.false_eq_true, if_false] at hrows
  have hlen : l.gridRows.length = l.height.toNat := by simp [Level.gridRows]
  have hgrid : l.gridString = some (joinLines l.gridRows) := by
    unfold Level.gridString
    rw [fullGrid_sorted l hg hw, List.range_eq_range', hrows]
    unfold Level.gridRows
    rw [List.range_eq_range']
  refine ⟨hgrid, ?_, hlen, ?_, ?_, ?_⟩
  · unfold Level.String
    rw [hgrid]
  · intro hh
    apply splitLines_joinLines
    · intro hnil
      rw [hnil] at hlen
      simp only [List.length_nil] at hlen
      omega
    · intro row hrow
      obtain ⟨r, hr, hre⟩ := List.mem_map.1 hrow
      rw [← hre]
      exact (fullGrid_gridRow l hg hw r (List.mem_range.1 hr)).2.1
  · intro r hr
    refine ⟨?_, fullGrid_gridRow l hg hw r hr⟩
    unfold Level.gridRows
    rw [List.getD_eq_getElem _ _ (by simpa using hr)]
    simp
  · intro f
    refine ⟨?_, ?_, ?_, ?_, ?_⟩ <;> intro h <;> simp only [field.currSymbol, h] <;> decide

/-- Witness of C19: the freshly loaded example level. -/
theorem C19_grid_string_witness :
    rowLevel.FullGrid ∧ 1 ≤ rowLevel.width
    ∧ rowLevel.gridString = some (joinLines rowLevel.gridRows)
    ∧ joinLines rowLevel.gridRows = bytes "#####\n#@$.#\n#####" :=
  ⟨calls_fullGrid rowMap (bytes "r") rowLevel rfl [] rowLevel rfl, by decide,
    (C19_grid_string rowLevel (calls_fullGrid rowMap (bytes "r") rowLevel rfl [] rowLevel rfl)
      (by decide)).1,
    by decide⟩

/-! ## Legal play comes down to legal moves -/

theorem legalMoves_append (cs : List Course) (c : Course) (l : Level) :
    l.legalMoves (cs ++ [c]) = (l.legalMoves cs).bind (fun l1 => l1.legalMoves [c]) := by
  induction cs generalizing l with
  | nil => simp [Level.legalMoves]
  | cons d ds ih =>
    simp only [List.cons_append, Level.legalMoves]
    cases hcan : l.CanMove d with
    | none => simp
    | some b =>
      cases b with
      | false => simp
      | true =>
        cases hm : l.Move d with
        | none => simp
        | some l1 => simpa using ih l1

theorem legalMoves_single (l l1 : Level) (c : Course) (h : l.legalMoves [c] = some l1) :
    l.CanMove c = some true ∧ l.Move c = some l1 := by
  simp only [Level.legalMoves] at h
  cases hcan : l.CanMove c with
  | none => simp [hcan] at h
  | some b =>
    cases b with
    | false => simp [hcan] at h
    | true =>
      cases hm : l.Move c with
      | none => simp [hcan, hm] at h
      | some l2 =>
        simp only [hcan, hm] at h
        exact ⟨rfl, h⟩

theorem legalMoves_play (cs : List Course) (l : Level) :
    l.legalMoves cs = l.play (cs.map Call.Move) := by
  induction cs generalizing l with
  | nil => rfl
  | cons d ds ih =>
    simp only [List.map_cons, Level.legalMoves, Level.play]
    cases hcan : l.CanMove d with
    | none => rfl
    | some b =>
      cases b with
      | false => rfl
      | true =>
        cases hm : l.Move d with
        | none => rfl
        | some l1 => exact ih l1

theorem play_append (ks : List Call) (k : Call) (l : Level) :
    l.play (ks ++ [k]) = (l.play ks).bind (fun l1 => l1.play [k]) := by
  induction ks generalizing l with
  | nil => simp [Level.play]
  | cons d ds ih =>
    cases d with
    | Move c =>
      simp only [List.cons_append, Level.play]
      cases hcan : l.CanMove c with
      | none => simp
      | some b =>
        cases b with
        | false => simp
        | true =>
          cases hm : l.Move c with
          | none => simp
          | some l1 => simpa using ih l1
    | UndoLastMove =>
      simp only [List.cons_append, Level.play]
      cases hm : l.UndoLastMove with
      | none => simp
      | some l1 => simpa using ih l1
    | Reset =>
      simp only [List.cons_append, Level.play]
      exact ih _

/-- The history after a `move` that returns: one more record, of the course moved. -/
theorem move_moves (l l1 : Level) (c : Course) (h : l.move c = some l1) :
    ∃ b, l1.moves = l.moves ++ [{ course := c, movedBox := b }] := by
  simp only [Level.move] at h
  split at h
  · exact absurd h (by simp)
  · split at h
    · exact absurd h (by simp)
    · split at h
      · exact absurd h (by simp)
      · cases Option.some.inj h
        exact ⟨_, rfl⟩

/-- Every state of legal play from a loaded level is reached from it by legal
moves alone, as many as its history records: an undo leads back to the state
before the last move, a reset to the loaded level. -/
theorem play_legalMoves (mapText solutionText : List Nat) (l0 : Level)
    (h0 : NewLevel mapText solutionText = .ok l0) (ks : List Call) (l : Level)
    (hp : l0.play ks = some l) :
    ∃ cs, l0.legalMoves cs = some l ∧ l.moves.length = cs.length := by
  induction ks using List.reverseRecOn generalizing l with
  | nil =>
    cases Option.some.inj hp
    exact ⟨[], rfl, by rw [(loaded_facts mapText solutionText l0 h0).2.2.2]; rfl⟩
  | append_singleton ks k ih =>
    rw [play_append] at hp
    cases ha : l0.play ks with
    | none => simp [ha] at hp
    | some a =>
      simp only [ha, Option.some_bind] at hp
      obtain ⟨cs, hcs, hlen⟩ := ih a ha
      cases k with
      | Move c =>
        have hs := legalMoves_single a l c (by rw [legalMoves_play]; exact hp)
        refine ⟨cs ++ [c], ?_, ?_⟩
        · rw [legalMoves_append, hcs]
          simp only [Option.some_bind]
          rw [legalMoves_play]; exact hp
        · have := (move_some a l c (by rw [← Move_eq]; exact hs.2)).2.2.1
          simp only [List.length_append, List.length_singleton]
          omega
      | UndoLastMove =>
        have hu : a.UndoLastMove = some l := by
          simp only [Level.play] at hp
          cases hx : a.UndoLastMove with
          | none => simp [hx] at hp
          | some l2 => simpa [hx] using hp
        rcases List.eq_nil_or_concat cs with hnil | ⟨cs1, c, hc⟩
        · have hm : a.moves = [] := by
            apply List.eq_nil_of_length_eq_zero
            rw [hlen, hnil]; rfl
          rw [undo_empty a hm] at hu
          cases Option.some.inj hu
          exact ⟨cs, hcs, hlen⟩
        · have hc1 : cs = cs1 ++ [c] := by simpa using hc
          rw [hc1, legalMoves_append] at hcs
          cases hb : l0.legalMoves cs1 with
          | none => simp [hb] at hcs
          | some a1 =>
            simp only [hb, Option.some_bind] at hcs
            obtain ⟨hcan, hmv⟩ := legalMoves_single a1 a c hcs
            have hmv1 : a1.move c = some a := by rw [← Move_eq]; exact hmv
            have hI : a1.Consistent :=
              (play_consistent mapText solutionText l0 h0 (cs1.map Call.Move) a1
                (by rw [← legalMoves_play]; exact hb)).1
            obtain ⟨p1, p2, p3, _⟩ := move_some a1 a c hmv1
            obtain ⟨b, hmoves⟩ := move_moves a1 a c hmv1
            obtain ⟨g1, _⟩ := move_frame a1 a c hmv1
            have hB : ∃ f, a1.beyond c = some f := by
              cases hbf : a.lookup (a.pc + c.dc) (a.pr + c.dr) with
              | none =>
                have := undo_none_of_behind a a1.moves _ hmoves hbf
                rw [this] at hu
                exact absurd hu (by simp)
              | some f =>
                obtain ⟨g, hg, _⟩ := shape_lookup_transfer g1.symm _ _ f hbf
                refine ⟨g, ?_⟩
                simp only [Level.beyond, Level.lookup]
                rw [← p1, ← p2]
                exact hg
            obtain ⟨l1, hl1, hundo⟩ := undo_move_roundtrip a1 c hI hcan hB
            rw [hmv] at hl1
            cases Option.some.inj hl1
            rw [hundo] at hu
            cases Option.some.inj hu
            refine ⟨cs1, hb, ?_⟩
            rw [hc1] at hlen
            simp only [List.length_append, List.length_singleton] at hlen
            omega
      | Reset =>
        have hr : a.Reset = l := by
          simp only [Level.play] at hp
          exact Option.some.inj hp
        obtain ⟨f1, f2, f3, f4⟩ := calls_frame ks l0 a (play_calls ks l0 a ha)
        rw [reset_eq_loaded mapText solutionText l0 a h0 f1 f2 f3 f4] at hr
        rw [← hr]
        exact ⟨[], rfl, by rw [(loaded_facts mapText solutionText l0 h0).2.2.2]; rfl⟩

/-! ## Counting occupants -/

theorem setCurr_of_not_mem (fs : List Entry) (c r : Int) (k : fieldKind)
    (h : (c, r) ∉ fs.map Prod.fst) : setCurr fs c r k = fs := by
  induction fs with
  | nil => rfl
  | cons e es ih =>
    simp only [List.map_cons, List.mem_cons, not_or] at h
    have he : ¬ e.1 = (c, r) := fun hx => h.1 hx.symm
    simp only [setCurr, List.map_cons, he, if_false] at ih ⊢
    rw [ih h.2]

theorem keys_setCurr (fs : List Entry) (c r : Int) (k : fieldKind) :
    (setCurr fs c r k).map Prod.fst = fs.map Prod.fst := by
  simp only [setCurr, List.map_map]
  apply List.map_congr_left
  intro e _
  by_cases h : e.1 = (c, r) <;> simp [h]

/-- An assignment to the occupant of one cell, counted: the cell leaves the
count when its old occupant was counted and enters it when the new one is. -/
theorem countP_setCurr (p : fieldKind → Bool) (fs : List Entry)
    (hnd : (fs.map Prod.fst).Nodup) (c r : Int) (k : fieldKind) (f : field)
    (hf : lookupField fs c r = some f) :
    (setCurr fs c r k).countP (fun e => p e.2.curr) + (if p f.curr then 1 else 0)
      = fs.countP (fun e => p e.2.curr) + (if p k then 1 else 0) := by
  induction fs with
  | nil => simp [lookupField] at hf
  | cons e es ih =>
    simp only [List.map_cons, List.nodup_cons] at hnd
    by_cases he : e.1 = (c, r)
    · have hfe : f = e.2 := by
        simp only [lookupField, he, if_true, Option.some.injEq] at hf
        exact hf.symm
      have hrest : setCurr es c r k = es := setCurr_of_not_mem es c r k (by rw [← he]; exact hnd.1)
      have hcons : setCurr (e :: es) c r k = (e.1, { e.2 with curr := k }) :: setCurr es c r k := by
        simp [setCurr, he]
      rw [hcons, hrest, hfe]
      simp only [List.countP_cons]
      omega
    · have hf1 : lookupField es c r = some f := by
        simpa [lookupField, he] using hf
      have hcons : setCurr (e :: es) c r k = e :: setCurr es c r k := by
        simp [setCurr, he]
      have := ih hnd.2 hf1
      rw [hcons]
      simp only [List.countP_cons]
      omega

/-- A legal move in a consistent state keeps the number of boxes. -/
theorem move_boxes (l l1 : Level) (c : Course) (hI : l.Consistent)
    (hnd : (l.fields.map Prod.fst).Nodup)
    (hcan : l.isValidMove c = some true) (hm : l.move c = some l1) :
    l1.fields.countP (fun e => decide (e.2.curr = .box))
      = l.fields.countP (fun e => decide (e.2.curr = .box)) := by
  obtain ⟨dest, hd, hk, hb⟩ := isValidMove_true l c hcan
  obtain ⟨src, hs, hsc, hsk⟩ := hI.player
  have hb1 : dest.curr = .box →
      ∃ b, l.lookup (l.pc + c.dc + c.dc) (l.pr + c.dr + c.dr) = some b :=
    fun h => (hb h).imp fun _ hx => hx.1
  have hne := offset_ne c l.pc l.pr
  have hne2 := offset_ne_two c l.pc l.pr
  have hne3 := offset_ne c (l.pc + c.dc) (l.pr + c.dr)
  have hd1 : lookupField l.fields (l.pc + c.dc) (l.pr + c.dr) = some dest := hd
  have hs1 : lookupField l.fields l.pc l.pr = some src := hs
  rw [move_eq_of_lookup l c dest src hd hs hb1] at hm
  cases Option.some.inj hm
  simp only
  have hem := (emptied_ne src.kind).2.1
  by_cases hbx : dest.curr = .box
  · obtain ⟨b, hbe, hbc, _⟩ := hb hbx
    have hbe1 : lookupField l.fields (l.pc + c.dc + c.dc) (l.pr + c.dr + c.dr) = some b := hbe
    simp only [hbx, if_true]
    have s1 := countP_setCurr (fun k => decide (k = .box)) l.fields hnd
      (l.pc + c.dc + c.dc) (l.pr + c.dr + c.dr) .box b hbe1
    have n1 : ((setCurr l.fields (l.pc + c.dc + c.dc) (l.pr + c.dr + c.dr) .box).map
        Prod.fst).Nodup := by rw [keys_setCurr]; exact hnd
    have d1 : lookupField (setCurr l.fields (l.pc + c.dc + c.dc) (l.pr + c.dr + c.dr) .box)
        (l.pc + c.dc) (l.pr + c.dr) = some dest := by
      rw [lookupField_setCurr, if_neg hne3, hd1]
    have s2 := countP_setCurr (fun k => decide (k = .box)) _ n1
      (l.pc + c.dc) (l.pr + c.dr) .player dest d1
    have n2 : ((setCurr (setCurr l.fields (l.pc + c.dc + c.dc) (l.pr + c.dr + c.dr) .box)
        (l.pc + c.dc) (l.pr + c.dr) .player).map Prod.fst).Nodup := by
      rw [keys_setCurr]; exact n1
    have d2 : lookupField (setCurr (setCurr l.fields (l.pc + c.dc + c.dc)
        (l.pr + c.dr + c.dr) .box) (l.pc + c.dc) (l.pr + c.dr) .player) l.pc l.pr
        = some src := by
      rw [lookupField_setCurr, if_neg hne, lookupField_setCurr, if_neg hne2, hs1]
    have s3 := countP_setCurr (fun k => decide (k = .box)) _ n2
      l.pc l.pr (emptied src.kind) src d2
    simp only [hbx, hbc, hsc, hem, decide_True, decide_False, if_true, if_false,
      Bool.false_eq_true, reduceCtorEq] at s1 s2 s3
    omega
  · simp only [hbx, if_false]
    have s2 := countP_setCurr (fun k => decide (k = .box)) l.fields hnd
      (l.pc + c.dc) (l.pr + c.dr) .player dest hd1
    have n2 : ((setCurr l.fields (l.pc + c.dc) (l.pr + c.dr) .player).map Prod.fst).Nodup := by
      rw [keys_setCurr]; exact hnd
    have d2 : lookupField (setCurr l.fields (l.pc + c.dc) (l.pr + c.dr) .player) l.pc l.pr
        = some src := by
      rw [lookupField_setCurr, if_neg hne, hs1]
    have s3 := countP_setCurr (fun k => decide (k = .box)) _ n2
      l.pc l.pr (emptied src.kind) src d2
    simp only [hbx, hsc, hem, decide_True, decide_False, if_true, if_false,
      Bool.false_eq_true, reduceCtorEq] at s2 s3
    omega

/-! ## The boxes of a loaded level and of legal play -/

theorem reset_boxes (fs : List Entry) (h : ∀ e ∈ fs, e.2.curr = resetCurr e.2.kind) :
    fs.countP (fun e => decide (e.2.curr = .box))
      = fs.countP (fun e => decide (e.2.kind = .box))
        + fs.countP (fun e => decide (e.2.kind = .boxOnTarget)) := by
  induction fs with
  | nil => rfl
  | cons e es ih =>
    have he := h e (List.mem_cons_self _ _)
    have ih1 := ih (fun x hx => h x (List.mem_cons_of_mem _ hx))
    simp only [List.countP_cons, he]
    rw [ih1]
    cases hk : e.2.kind <;> simp [resetCurr] <;> omega

/-- The boxes of a freshly loaded level: the fields of kind `box` and
`boxOnTarget`, as many as the fields of a target kind. -/
theorem loaded_boxes (mapText solutionText : List Nat) (l0 : Level)
    (h0 : NewLevel mapText solutionText = .ok l0) :
    l0.fields.countP (fun e => decide (e.2.curr = .box))
        = l0.fields.countP (fun e => decide (e.2.kind = .box))
          + l0.fields.countP (fun e => decide (e.2.kind = .boxOnTarget))
    ∧ l0.fields.countP (fun e => decide (e.2.kind = .box))
          + l0.fields.countP (fun e => decide (e.2.kind = .boxOnTarget))
        = l0.fields.countP (fun e => e.2.kind.isTarget) := by
  obtain ⟨hres0, _, _, _⟩ := loaded_facts mapText solutionText l0 h0
  obtain ⟨lines, w, cs, hl0, hv⟩ := NewLevel_ok mapText solutionText l0 h0
  refine ⟨reset_boxes _ hres0, ?_⟩
  obtain ⟨_, h2, _, _, _⟩ := isValid_true _ hv
  rw [countKinds_eq] at h2
  simp only [zero_add] at h2
  have hf : l0.fields = (mkLevel lines w).fields := by rw [hl0]
  rw [hf, countP_isTarget, h2]

/-- Legal moves from a loaded level keep the number of boxes. -/
theorem legalMoves_boxes (mapText solutionText : List Nat) (l0 : Level)
    (h0 : NewLevel mapText solutionText = .ok l0) (cs : List Course) (l : Level)
    (h : l0.legalMoves cs = some l) :
    l.fields.countP (fun e => decide (e.2.curr = .box))
      = l0.fields.countP (fun e => decide (e.2.curr = .box)) := by
  induction cs using List.reverseRecOn generalizing l with
  | nil =>
    cases Option.some.inj h
    rfl
  | append_singleton cs c ih =>
    rw [legalMoves_append] at h
    cases ha : l0.legalMoves cs with
    | none => simp [ha] at h
    | some a =>
      simp only [ha, Option.some_bind] at h
      obtain ⟨hcan, hmv⟩ := legalMoves_single a l c h
      have hpl : l0.play (cs.map Call.Move) = some a := by rw [← legalMoves_play]; exact ha
      have hI := (play_consistent mapText solutionText l0 h0 _ a hpl).1
      have hg := calls_fullGrid mapText solutionText l0 h0 _ a (play_calls _ l0 a hpl)
      rw [CanMove_eq] at hcan
      rw [Move_eq] at hmv
      rw [move_boxes a l c hI hg.nodup hcan hmv]
      exact ih a ha

/-- In every state of legal play from a loaded level the boxes are as many as
in the loaded level. -/
theorem play_boxes (mapText solutionText : List Nat) (l0 : Level)
    (h0 : NewLevel mapText solutionText = .ok l0) (ks : List Call) (l : Level)
    (hp : l0.play ks = some l) :
    l.fields.countP (fun e => decide (e.2.curr = .box))
      = l0.fields.countP (fun e => decide (e.2.curr = .box)) := by
  obtain ⟨cs, hcs, _⟩ := play_legalMoves mapText solutionText l0 h0 ks l hp
  exact legalMoves_boxes mapText solutionText l0 h0 cs l hcs

/-- The loop of `Completed` answers true exactly when every field of a target
kind holds a box. -/
theorem completedLoop_true (fs : List Entry) :
    completedLoop fs = true ↔ ∀ e ∈ fs, e.2.kind.isTarget = true → e.2.curr = .box := by
  induction fs with
  | nil => simp [completedLoop]
  | cons e es ih =>
    by_cases h : e.2.curr ≠ .box ∧ e.2.kind.isTarget = true
    · rw [completedLoop, if_pos h]
      simp only [Bool.false_eq_true, false_iff]
      intro hall
      exact h.1 (hall e (List.mem_cons_self _ _) h.2)
    · rw [completedLoop, if_neg h, ih]
      simp only [List.forall_mem_cons]
      constructor
      · intro h1
        refine ⟨fun ht => ?_, h1⟩
        by_contra hc
        exact h ⟨hc, ht⟩
      · exact fun h1 => h1.2

theorem countP_split {α : Type} (a b : α → Bool) (xs : List α) :
    xs.countP a = xs.countP (fun x => a x && b x) + xs.countP (fun x => a x && !b x) := by
  induction xs with
  | nil => rfl
  | cons x xs ih =>
    simp only [List.countP_cons]
    cases a x <;> cases b x <;> simp <;> omega

/-- Where as many fields satisfy `p` as satisfy `q`, all that satisfy `p`
satisfy `q` exactly when all that satisfy `q` satisfy `p`. -/
theorem countP_eq_swap {α : Type} (p q : α → Bool) (xs : List α)
    (h : xs.countP p = xs.countP q) :
    (∀ x ∈ xs, p x = true → q x = true) ↔ (∀ x ∈ xs, q x = true → p x = true) := by
  have comm : xs.countP (fun x => p x && q x) = xs.countP (fun x => q x && p x) := by
    congr 1
    funext x
    exact Bool.and_comm _ _
  have h1 := countP_split p q xs
  have h2 := countP_split q p xs
  have zero : ∀ (a b : α → Bool), xs.countP (fun x => a x && !b x) = 0
      ↔ ∀ x ∈ xs, a x = true → b x = true := by
    intro a b
    rw [List.countP_eq_zero]
    constructor
    · intro hz x hx ha
      have := hz x hx
      cases hb : b x
      · simp [ha, hb] at this
      · rfl
    · intro hz x hx
      cases ha : a x
      · simp
      · simp [hz x hx ha]
  rw [← zero p q, ← zero q p]
  omega

theorem countP_key_le_one (fs : List Entry) (hnd : (fs.map Prod.fst).Nodup) (k : Int × Int) :
    fs.countP (fun e => decide (e.1 = k)) ≤ 1 := by
  induction fs with
  | nil => simp
  | cons e es ih =>
    simp only [List.map_cons, List.nodup_cons] at hnd
    by_cases he : e.1 = k
    · have hz : es.countP (fun e => decide (e.1 = k)) = 0 := by
        rw [List.countP_eq_zero]
        intro x hx hxk
        apply hnd.1
        rw [he]
        exact List.mem_map.2 ⟨x, hx, by simpa using hxk⟩
      simp only [List.countP_cons, he, decide_True, if_true, hz]
      omega
    · have := ih hnd.2
      simp only [List.countP_cons, he, decide_False, Bool.false_eq_true, if_false]
      omega

/-- Where no key occurs twice, the fields satisfying a predicate that holds
for the field of one key, and only for fields of that key, number one. -/
theorem countP_one (p : Entry → Bool) (fs : List Entry) (hnd : (fs.map Prod.fst).Nodup)
    (k : Int × Int) (e0 : Entry) (he0 : e0 ∈ fs) (hp0 : p e0 = true)
    (honly : ∀ e ∈ fs, p e = true → e.1 = k) : fs.countP p = 1 := by
  have hpos : 0 < fs.countP p := List.countP_pos_iff.2 ⟨e0, he0, hp0⟩
  have hle : fs.countP p ≤ fs.countP (fun e => decide (e.1 = k)) := by
    apply List.countP_mono_left
    intro e he hpe
    simpa using honly e he hpe
  have := countP_key_le_one fs hnd k
  omega

/-! ## The invariants of legal play -/

/-- C21: in every state of legal play from a loaded level (moves with
`CanMove` true, undos and resets), the occupant of each field is a brick,
free, a box, a target or the player, never `boxOnTarget` or `playerOnTarget`;
it is a brick exactly when the kind is; the occupant `target` stands on a
target kind only and the occupant `free` on a kind that is no target. -/
theorem C21_occupant_canonical (mapText solutionText : List Nat) (l0 : Level)
    (h0 : NewLevel mapText solutionText = .ok l0) (ks : List Call) (l : Level)
    (hp : l0.play ks = some l) :
    ∀ e ∈ l.fields,
      (e.2.curr = .brick ∨ e.2.curr = .free ∨ e.2.curr = .box ∨ e.2.curr = .target
        ∨ e.2.curr = .player)
      ∧ (e.2.curr = .brick ↔ e.2.kind = .brick)
      ∧ (e.2.curr = .target → e.2.kind.isTarget = true)
      ∧ (e.2.curr = .free → e.2.kind.isTarget = false) := by
  intro e he
  have hI := (play_consistent mapText solutionText l0 h0 ks l hp).1
  have hl := hI.keyed e he
  rcases hI.canonical e.1.1 e.1.2 e.2 hl with ⟨hk, hc⟩ | ⟨hk, hc⟩
  · rw [hc, hk]
    simp [fieldKind.isTarget]
  · rcases hc with hc | hc | hc
    · rw [hc]
      cases ht : e.2.kind.isTarget <;> simp [emptied, ht, hk]
    · rw [hc]; simp [hk]
    · rw [hc]; simp [hk]

/-- Witness of C21: the example level after a legal play with an undo and a reset. -/
theorem C21_occupant_canonical_witness :
    NewLevel rowMap (bytes "r") = .ok rowLevel
    ∧ ∃ l, rowLevel.play rowPlay = some l
      ∧ ∀ e ∈ l.fields,
          (e.2.curr = .brick ∨ e.2.curr = .free ∨ e.2.curr = .box ∨ e.2.curr = .target
            ∨ e.2.curr = .player)
          ∧ (e.2.curr = .brick ↔ e.2.kind = .brick)
          ∧ (e.2.curr = .target → e.2.kind.isTarget = true)
          ∧ (e.2.curr = .free → e.2.kind.isTarget = false) :=
  ⟨rfl, _, rfl, C21_occupant_canonical rowMap (bytes "r") rowLevel rfl rowPlay _ rfl⟩

/-- C22: in every state of legal play from a loaded level the fields that
hold a box are as many as the boxes at load, the fields of kind `box` and
`boxOnTarget`, and these as many as the fields of a target kind, in the
loaded level and in the state; and a further legal move, undo or reset that
returns leaves the number of boxes as it is. -/
theorem C22_box_conservation (mapText solutionText : List Nat) (l0 : Level)
    (h0 : NewLevel mapText solutionText = .ok l0) (ks : List Call) (l : Level)
    (hp : l0.play ks = some l) :
    l.fields.countP (fun e => decide (e.2.curr = .box))
        = l0.fields.countP (fun e => decide (e.2.kind = .box))
          + l0.fields.countP (fun e => decide (e.2.kind = .boxOnTarget))
    ∧ l0.fields.countP (fun e => decide (e.2.kind = .box))
          + l0.fields.countP (fun e => decide (e.2.kind = .boxOnTarget))
        = l0.fields.countP (fun e => e.2.kind.isTarget)
    ∧ l.fields.countP (fun e => e.2.kind.isTarget)
        = l0.fields.countP (fun e => e.2.kind.isTarget)
    ∧ ∀ k l1, l.play [k] = some l1 →
        l1.fields.countP (fun e => decide (e.2.curr = .box))
          = l.fields.countP (fun e => decide (e.2.curr = .box)) := by
  obtain ⟨hb0, ht0⟩ := loaded_boxes mapText solutionText l0 h0
  have hb := play_boxes mapText solutionText l0 h0 ks l hp
  obtain ⟨f1, _⟩ := calls_frame ks l0 l (play_calls ks l0 l hp)
  refine ⟨hb.trans hb0, ht0, shape_countP f1 fieldKind.isTarget, ?_⟩
  intro k l1 hk
  have hp1 : l0.play (ks ++ [k]) = some l1 := by
    rw [play_append, hp]
    exact hk
  rw [play_boxes mapText solutionText l0 h0 _ l1 hp1, hb]

/-- Witness of C22: the example level after a legal play with an undo and a reset. -/
theorem C22_box_conservation_witness :
    NewLevel rowMap (bytes "r") = .ok rowLevel
    ∧ ∃ l, rowLevel.play rowPlay = some l
      ∧ l.fields.countP (fun e => decide (e.2.curr = .box)) = 1
      ∧ l.fields.countP (fun e => decide (e.2.curr = .box))
        = rowLevel.fields.countP (fun e => decide (e.2.kind = .box))
          + rowLevel.fields.countP (fun e => decide (e.2.kind = .boxOnTarget)) :=
  ⟨rfl, _, rfl, by decide,
    (C22_box_conservation rowMap (bytes "r") rowLevel rfl rowPlay _ rfl).1⟩

/-- C23: in every state of legal play from a loaded level no key occurs
twice, exactly one field holds the player, the field at `PlayerPosition`
holds the player, and every field that holds the player has that key. -/
theorem C23_one_player (mapText solutionText : List Nat) (l0 : Level)
    (h0 : NewLevel mapText solutionText = .ok l0) (ks : List Call) (l : Level)
    (hp : l0.play ks = some l) :
    (l.fields.map Prod.fst).Nodup
    ∧ l.fields.countP (fun e => decide (e.2.curr = .player)) = 1
    ∧ (∃ f, l.lookup l.PlayerPosition.1 l.PlayerPosition.2 = some f ∧ f.curr = .player)
    ∧ (∀ e ∈ l.fields, e.2.curr = .player → e.1 = l.PlayerPosition) := by
  have hI := (play_consistent mapText solutionText l0 h0 ks l hp).1
  have hg := calls_fullGrid mapText solutionText l0 h0 ks l (play_calls ks l0 l hp)
  obtain ⟨f, hf, hfc, _⟩ := hI.player
  have honly : ∀ e ∈ l.fields, e.2.curr = .player → e.1 = l.PlayerPosition := by
    intro e he hc
    exact hI.onlyPlayer e.1.1 e.1.2 e.2 (hI.keyed e he) hc
  refine ⟨hg.nodup, ?_, ⟨f, hf, hfc⟩, honly⟩
  have hmem : ((l.pc, l.pr), f) ∈ l.fields := lookupField_mem hf
  exact countP_one _ l.fields hg.nodup l.PlayerPosition _ hmem (by simpa using hfc)
    (fun e he hc => honly e he (by simpa using hc))

/-- Witness of C23: the example level after a legal play with an undo and a reset. -/
theorem C23_one_player_witness :
    NewLevel rowMap (bytes "r") = .ok rowLevel
    ∧ ∃ l, rowLevel.play rowPlay = some l
      ∧ l.PlayerPosition = (2, 1)
      ∧ l.fields.countP (fun e => decide (e.2.curr = .player)) = 1 :=
  ⟨rfl, _, rfl, by decide,
    (C23_one_player rowMap (bytes "r") rowLevel rfl rowPlay _ rfl).2.1⟩

/-- C24: in every state of legal play from a loaded level, `Completed` is
true exactly when every field that holds a box has a target kind: no box
stands on a cell that is no target. -/
theorem C24_completed_boxes (mapText solutionText : List Nat) (l0 : Level)
    (h0 : NewLevel mapText solutionText = .ok l0) (ks : List Call) (l : Level)
    (hp : l0.play ks = some l) :
    l.Completed = true ↔ ∀ e ∈ l.fields, e.2.curr = .box → e.2.kind.isTarget = true := by
  obtain ⟨hb0, ht0⟩ := loaded_boxes mapText solutionText l0 h0
  have hb := play_boxes mapText solutionText l0 h0 ks l hp
  obtain ⟨f1, _⟩ := calls_frame ks l0 l (play_calls ks l0 l hp)
  have hcnt : l.fields.countP (fun e => decide (e.2.curr = .box))
      = l.fields.countP (fun e => e.2.kind.isTarget) := by
    rw [hb, hb0, ht0, shape_countP f1 fieldKind.isTarget]
  have hsw := countP_eq_swap (fun e : Entry => decide (e.2.curr = .box))
    (fun e : Entry => e.2.kind.isTarget) l.fields hcnt
  simp only [decide_eq_true_eq] at hsw
  unfold Level.Completed
  rw [completedLoop_true, hsw]

/-- Witness of C24: the example level after a legal play with an undo and a
reset is completed, its box standing on the target. -/
theorem C24_completed_boxes_witness :
    NewLevel rowMap (bytes "r") = .ok rowLevel
    ∧ ∃ l, rowLevel.play rowPlay = some l
      ∧ l.Completed = true
      ∧ (l.Completed = true ↔ ∀ e ∈ l.fields, e.2.curr = .box → e.2.kind.isTarget = true) :=
  ⟨rfl, _, rfl, by decide,
    C24_completed_boxes rowMap (bytes "r") rowLevel rfl rowPlay _ rfl⟩

end Gokoban
